import Mathlib

/-!
# Quadtree denoising (`denoising.c`): a shallow embedding and its properties

The C program keeps an image as `width`, `height` and a linear store of
pixels addressed by `row * width + column`.  The embedding below follows
`src/denoising.c` function by function.

Modelling conventions.

* `int` and `long` values are mathematical integers (`Int`).  The narrowing
  cast `(unsigned char)(sum / count)` is an explicit reduction modulo `2 ^ 8`
  (`toUChar`).  The `int` product `count * 3` of `calculateVariance` leaves the
  range of `int` for a region of 715827883 pixels or more, a count that is
  itself in the range of `int`: the product is reduced explicitly to 32 bits,
  two's complement (`wrapInt`).
* Integer division is C's truncating division (`Int.tdiv`).
* A finite `double` is the rational number it denotes (`ℚ`, `IsDouble`).  The
  division `sum / (count * 3)` of `calculateVariance` is rounded to the nearest
  `double`, ties to even (`roundDouble`), and the test `variance < threshold`
  is made on the rounded quotient.  Every value that the program adds into the
  `double` accumulator `sum` is an integer and the partial sums stay below
  `2 ^ 53` for every pixel count in the range of `int`, so these additions
  are exact.
* A load or store outside the pixel store, and a division by zero, are
  faults: functions return `Except Fault _`.
* Recursion is bounded by a fuel counter; `denoisingSequential` supplies
  `width.toNat + 1`, which is shown to be always enough.
-/

namespace Denoising

/-- Ways in which an execution can fail to produce a value. -/
inductive Fault where
  | outOfBounds
  | divByZero
  | outOfFuel
deriving DecidableEq, Repr

instance {ε α : Type} [DecidableEq ε] [DecidableEq α] : DecidableEq (Except ε α)
  | .ok a, .ok b => if h : a = b then isTrue (by rw [h]) else isFalse (fun e => h (by cases e; rfl))
  | .error a, .error b =>
    if h : a = b then isTrue (by rw [h]) else isFalse (fun e => h (by cases e; rfl))
  | .ok _, .error _ => isFalse (fun e => by cases e)
  | .error _, .ok _ => isFalse (fun e => by cases e)

/-- The C struct `Pixel`: three `unsigned char` channels. -/
structure Pixel where
  r : Fin 256
  g : Fin 256
  b : Fin 256
deriving DecidableEq, Repr

instance : Inhabited Pixel := ⟨⟨0, 0, 0⟩⟩

/-- The C struct `Image`: dimensions and the linear pixel store. -/
structure Image where
  width : Int
  height : Int
  data : List Pixel
deriving DecidableEq, Repr

/-- The read `img->data[k]`. -/
def Image.load (img : Image) (k : Int) : Except Fault Pixel :=
  if 0 ≤ k then
    match img.data[k.toNat]? with
    | some p => .ok p
    | none => .error .outOfBounds
  else .error .outOfBounds

/-- The write `img->data[k] = p`. -/
def Image.store (img : Image) (k : Int) (p : Pixel) : Except Fault Image :=
  if 0 ≤ k ∧ k.toNat < img.data.length then
    .ok { img with data := img.data.set k.toNat p }
  else .error .outOfBounds

/-- The loop `for (int v = lo; v < hi; v++) s = body(s, v);`. -/
def forLoop {σ : Type} (lo hi : Int) (body : σ → Int → Except Fault σ) (s : σ) :
    Except Fault σ :=
  (List.range (hi - lo).toNat).foldlM (fun s (k : Nat) => body s (lo + (k : Int))) s

/-- The cast `(unsigned char) v`: reduction modulo `2 ^ 8`. -/
def toUChar (v : Int) : Fin 256 :=
  ⟨(v % 256).toNat, by omega⟩

/-- The value of an `int` expression whose mathematical result is `v`: reduction to
32 bits, two's complement. -/
def wrapInt (v : Int) : Int :=
  (v + 2147483648) % 4294967296 - 2147483648

/-- Rounding to the nearest integer, a tie going to the even neighbour. -/
def roundHalfEven (q : ℚ) : Int :=
  if q - (⌊q⌋ : ℚ) < 1 / 2 then ⌊q⌋
  else if 1 / 2 < q - (⌊q⌋ : ℚ) then ⌊q⌋ + 1
  else if ⌊q⌋ % 2 = 0 then ⌊q⌋ else ⌊q⌋ + 1

/-- The exponent `e` of the last place of the binary64 numbers around `q > 0`: the
significand `q / 2 ^ e` lies in `[2 ^ 52, 2 ^ 53)`, and `e` is not below `-1074`,
the exponent of the subnormal numbers. -/
def ulpExp (q : ℚ) : Int :=
  max (Int.log 2 q - 52) (-1074)

/-- The binary64 number nearest to `q ≥ 0`, a tie going to the even significand. -/
def roundNonneg (q : ℚ) : ℚ :=
  (roundHalfEven (q / (2 : ℚ) ^ ulpExp q) : ℚ) * (2 : ℚ) ^ ulpExp q

/-- Rounding of a real result to `double`: IEEE 754 binary64, round to nearest, ties
to even, the sign kept apart.  The exponent is not bounded above (no overflow to
infinity): the sums of this program stay below `2 ^ 53` for every pixel count in
the range of `int`, and a quotient is not above its sum in absolute value. -/
def roundDouble (q : ℚ) : ℚ :=
  if q < 0 then -roundNonneg (-q) else roundNonneg q

/-- The rational `x` is a finite `double`: an integer significand below `2 ^ 53` in
absolute value times a power of two with exponent from `-1074` to `971`. -/
def IsDouble (x : ℚ) : Prop :=
  ∃ m e : Int, |m| < 2 ^ 53 ∧ -1074 ≤ e ∧ e ≤ 971 ∧ x = (m : ℚ) * (2 : ℚ) ^ e

/-- Accumulators of `calculateAverage`: `sum_r`, `sum_g`, `sum_b`, `count`. -/
structure AvgAcc where
  sum_r : Int
  sum_g : Int
  sum_b : Int
  count : Int
deriving DecidableEq, Repr

/-- The function `calculateAverage` of `denoising.c`. -/
def calculateAverage (img : Image) (x y width height : Int) : Except Fault Pixel := do
  let acc ← forLoop y (y + height) (fun acc j =>
    forLoop x (x + width) (fun acc i => do
      let p ← img.load (j * img.width + i)
      pure { sum_r := acc.sum_r + (p.r.val : Int)
             sum_g := acc.sum_g + (p.g.val : Int)
             sum_b := acc.sum_b + (p.b.val : Int)
             count := acc.count + 1 }) acc) (AvgAcc.mk 0 0 0 0)
  if acc.count = 0 then .error .divByZero
  else pure { r := toUChar (Int.tdiv acc.sum_r acc.count)
              g := toUChar (Int.tdiv acc.sum_g acc.count)
              b := toUChar (Int.tdiv acc.sum_b acc.count) }

/-- Accumulators of `calculateVariance`: `sum` and `count`. -/
structure VarAcc where
  sum : ℚ
  count : Int

/-- The function `calculateVariance` of `denoising.c`.  The quotient `0.0 / 0`
of an empty region (a NaN in the original) is reported as a fault.  The divisor
`count * 3` is an `int` product: it is reduced to 32 bits (`wrapInt`) before it
is converted to `double`, and the quotient is rounded to `double`.  (`count` is
below `2 ^ 31` for every image that the program can hold, and the reduced product
is then zero only when `count` is.) -/
def calculateVariance (img : Image) (x y width height : Int) (avg : Pixel) :
    Except Fault ℚ := do
  let acc ← forLoop y (y + height) (fun acc j =>
    forLoop x (x + width) (fun acc i => do
      let p ← img.load (j * img.width + i)
      let dr : ℚ := (((p.r.val : Int) - (avg.r.val : Int) : Int) : ℚ)
      let dg : ℚ := (((p.g.val : Int) - (avg.g.val : Int) : Int) : ℚ)
      let db : ℚ := (((p.b.val : Int) - (avg.b.val : Int) : Int) : ℚ)
      pure { sum := acc.sum + (dr * dr + dg * dg + db * db)
             count := acc.count + 1 }) acc) (VarAcc.mk 0 0)
  if acc.count * 3 = 0 then .error .divByZero
  else pure (roundDouble (acc.sum / ((wrapInt (acc.count * 3) : Int) : ℚ)))

/-- The function `fillRegion` of `denoising.c`. -/
def fillRegion (img : Image) (x y width height : Int) (color : Pixel) :
    Except Fault Image :=
  forLoop y (y + height) (fun img j =>
    forLoop x (x + width) (fun img i =>
      img.store (j * img.width + i) color) img) img

/-- The function `denoisingSequential` of `denoising.c`, with the recursion
depth bounded by `fuel`. -/
def denoisingSequentialFuel : Nat → Image → Int → Int → Int → Int → ℚ → Except Fault Image
  | 0, _, _, _, _, _, _ => .error .outOfFuel
  | fuel + 1, img, x, y, width, height, threshold =>
    if width ≤ 1 ∨ height ≤ 1 then .ok img
    else do
      let avg ← calculateAverage img x y width height
      let variance ← calculateVariance img x y width height avg
      if variance < threshold then
        fillRegion img x y width height avg
      else do
        let new_width := Int.tdiv width 2
        let new_height := Int.tdiv height 2
        let img ← denoisingSequentialFuel fuel img x y new_width new_height threshold
        let img ← denoisingSequentialFuel fuel img (x + new_width) y new_width new_height threshold
        let img ← denoisingSequentialFuel fuel img x (y + new_height) new_width new_height threshold
        denoisingSequentialFuel fuel img (x + new_width) (y + new_height) new_width new_height
          threshold

/-- The function `denoisingSequential`: the recursion run with `width.toNat + 1`
units of fuel. -/
def denoisingSequential (img : Image) (x y width height : Int) (threshold : ℚ) :
    Except Fault Image :=
  denoisingSequentialFuel (width.toNat + 1) img x y width height threshold

/-! ## Regions, and a traced run -/

/-- A rectangular region: the arguments `x, y, width, height` of a call. -/
structure Region where
  x : Int
  y : Int
  width : Int
  height : Int
deriving DecidableEq, Repr

/-- The pixel at row `j`, column `i` belongs to the region. -/
def Region.Mem (r : Region) (j i : Int) : Prop :=
  r.y ≤ j ∧ j < r.y + r.height ∧ r.x ≤ i ∧ i < r.x + r.width

instance (r : Region) (j i : Int) : Decidable (r.Mem j i) := by
  unfold Region.Mem; infer_instance

/-- The regions of the four recursive calls of `denoisingSequential` (lines 135 to
141), in the order of the calls. -/
def childRegions (x y width height : Int) : List Region :=
  let new_width := Int.tdiv width 2
  let new_height := Int.tdiv height 2
  [ ⟨x, y, new_width, new_height⟩,
    ⟨x + new_width, y, new_width, new_height⟩,
    ⟨x, y + new_height, new_width, new_height⟩,
    ⟨x + new_width, y + new_height, new_width, new_height⟩ ]

/-- What a call of `denoisingSequential` does with its region: return at once,
fill it with a colour, or recurse into four children. -/
inductive Visit where
  | leaf (r : Region)
  | fill (r : Region) (avg : Pixel)
  | split (r : Region)
deriving DecidableEq, Repr

/-- The recursion of `denoisingSequentialFuel` with a ghost log: next to the
image it returns the list of the calls made, in execution order.  The log is
never read by the computation. -/
def denoisingTraced :
    Nat → Image → Int → Int → Int → Int → ℚ → Except Fault (Image × List Visit)
  | 0, _, _, _, _, _, _ => .error .outOfFuel
  | fuel + 1, img, x, y, width, height, threshold =>
    if width ≤ 1 ∨ height ≤ 1 then .ok (img, [.leaf ⟨x, y, width, height⟩])
    else do
      let avg ← calculateAverage img x y width height
      let variance ← calculateVariance img x y width height avg
      if variance < threshold then do
        let img ← fillRegion img x y width height avg
        pure (img, [.fill ⟨x, y, width, height⟩ avg])
      else do
        let new_width := Int.tdiv width 2
        let new_height := Int.tdiv height 2
        let r1 ← denoisingTraced fuel img x y new_width new_height threshold
        let r2 ← denoisingTraced fuel r1.1 (x + new_width) y new_width new_height threshold
        let r3 ← denoisingTraced fuel r2.1 x (y + new_height) new_width new_height threshold
        let r4 ← denoisingTraced fuel r3.1 (x + new_width) (y + new_height) new_width
          new_height threshold
        pure (r4.1, .split ⟨x, y, width, height⟩ :: (r1.2 ++ r2.2 ++ r3.2 ++ r4.2))

/-- The region of a visit. -/
def Visit.region : Visit → Region
  | .leaf r => r
  | .fill r _ => r
  | .split r => r

/-- The calls made by `denoisingSequential img x y width height threshold`. -/
def denoisingVisits (img : Image) (x y width height : Int) (threshold : ℚ) :
    Except Fault (List Visit) :=
  match denoisingTraced (width.toNat + 1) img x y width height threshold with
  | .ok r => .ok r.2
  | .error e => .error e

/-- Region `r` is `p` or lies below `p` in the quadtree of subdivisions. -/
inductive Descends : Region → Region → Prop where
  | refl (r : Region) : Descends r r
  | child {r c p : Region} : 2 ≤ p.width → 2 ≤ p.height →
      c ∈ childRegions p.x p.y p.width p.height → Descends r c → Descends r p

/-! ## Vocabulary of the statements -/

/-- The store has `width * height` pixels and the region lies inside the image. -/
def InBounds (img : Image) (x y width height : Int) : Prop :=
  (img.data.length : Int) = img.width * img.height ∧
    0 ≤ x ∧ 0 ≤ y ∧ x + width ≤ img.width ∧ y + height ≤ img.height

instance (img : Image) (x y width height : Int) : Decidable (InBounds img x y width height) := by
  unfold InBounds; infer_instance

/-- The pixel at row `j`, column `i` (a default pixel where the store has none). -/
def Image.pixelAt (img : Image) (j i : Int) : Pixel :=
  match img.load (j * img.width + i) with
  | .ok p => p
  | .error _ => default

/-- Sum of `f` over the pixels of the region. -/
def regionSum (img : Image) (x y width height : Int) (f : Pixel → Int) : Int :=
  ∑ j ∈ Finset.Ico y (y + height), ∑ i ∈ Finset.Ico x (x + width), f (img.pixelAt j i)

/-- Squared deviation of a pixel from a reference colour, summed over the three
channels. -/
def sqDev (avg p : Pixel) : Int :=
  ((p.r.val : Int) - (avg.r.val : Int)) ^ 2 + ((p.g.val : Int) - (avg.g.val : Int)) ^ 2 +
    ((p.b.val : Int) - (avg.b.val : Int)) ^ 2

/-- Image `img'` has the dimensions and store length of `img`. -/
def SameShape (img img' : Image) : Prop :=
  img'.width = img.width ∧ img'.height = img.height ∧ img'.data.length = img.data.length

/-- Images `img` and `img'` hold the same pixel at every position of the region. -/
def AgreeOn (r : Region) (img img' : Image) : Prop :=
  ∀ j i, r.Mem j i → img'.load (j * img'.width + i) = img.load (j * img.width + i)

/-- Image `img'` has the shape of `img` and the same pixel at every position of
the image that is outside the region. -/
def Frame (r : Region) (img img' : Image) : Prop :=
  SameShape img img' ∧
    ∀ j i, 0 ≤ j → 0 ≤ i → i < img.width → ¬ r.Mem j i →
      img'.load (j * img'.width + i) = img.load (j * img.width + i)

/-- The list `lo, lo + 1, ..., lo + n - 1` of the values a loop variable takes. -/
def span (lo : Int) (n : Nat) : List Int :=
  (List.range n).map (fun (k : Nat) => lo + (k : Int))

/-- The store after writing `c` at `j * w + i` for every `j` of `rows` and every
`i` of `cols`, row by row. -/
def fillData (w : Int) (c : Pixel) (rows cols : List Int) (d : List Pixel) : List Pixel :=
  rows.foldl (fun d j => cols.foldl (fun d i => d.set (j * w + i).toNat c) d) d

/-- The store after writing `c` at every index of the list `ks`. -/
def setAll (ks : List Nat) (c : Pixel) (d : List Pixel) : List Pixel :=
  ks.foldl (fun d k => d.set k c) d

/-- The store indices `j * w + i` of the positions of `rows` and `cols`, row by row. -/
def cellIndices (w : Int) (rows cols : List Int) : List Nat :=
  rows.flatMap (fun j => cols.map (fun i => (j * w + i).toNat))

/-- Every pixel of region `c` is a pixel of region `r`. -/
def Region.Within (c r : Region) : Prop :=
  ∀ j i, c.Mem j i → r.Mem j i

/-- Regions `a` and `b` have no pixel in common. -/
def Region.Disjoint (a b : Region) : Prop :=
  ∀ j i, ¬ (a.Mem j i ∧ b.Mem j i)

/-- The image after `fillRegion` on a region inside it. -/
def fillImage (img : Image) (r : Region) (c : Pixel) : Image :=
  { img with
    data := fillData img.width c (span r.y r.height.toNat) (span r.x r.width.toNat) img.data }

/-- The effect of a list of visits on an image: each `fill` visit fills its
region with its colour, the other visits change nothing. -/
def applyVisits (vs : List Visit) (img : Image) : Image :=
  vs.foldl (fun im v =>
    match v with
    | .fill r c => fillImage im r c
    | _ => im) img

/-- The visits that `denoisingSequential` makes below a region, decided on one
fixed image: the statistics of every region are taken on `img` itself. -/
def plan : Nat → Image → Region → ℚ → List Visit
  | 0, _, _, _ => []
  | fuel + 1, img, r, threshold =>
    if r.width ≤ 1 ∨ r.height ≤ 1 then [.leaf r]
    else
      match calculateAverage img r.x r.y r.width r.height with
      | .error _ => []
      | .ok avg =>
        match calculateVariance img r.x r.y r.width r.height avg with
        | .error _ => []
        | .ok variance =>
          if variance < threshold then [.fill r avg]
          else .split r ::
            (childRegions r.x r.y r.width r.height).flatMap (fun c => plan fuel img c threshold)

/-- One step of the sequence of recursive calls: run on the current image, keep
the new image and extend the log. -/
def visitChild (run : Image → Region → Except Fault (Image × List Visit))
    (s : Image × List Visit) (c : Region) : Except Fault (Image × List Visit) := do
  let r ← run s.1 c
  pure (r.1, s.2 ++ r.2)

/-- A 2 x 2 image with four different pixels, used to instantiate the statements. -/
def sampleImage : Image :=
  ⟨2, 2, [⟨10, 20, 30⟩, ⟨11, 21, 31⟩, ⟨12, 22, 32⟩, ⟨250, 250, 250⟩]⟩

/-- A 2 x 2 image whose pixels are all `(7, 8, 9)`. -/
def flatImage : Image :=
  ⟨2, 2, [⟨7, 8, 9⟩, ⟨7, 8, 9⟩, ⟨7, 8, 9⟩, ⟨7, 8, 9⟩]⟩

/-- A 3 x 3 image: odd width and odd height. -/
def oddImage : Image :=
  ⟨3, 3, [⟨0, 0, 0⟩, ⟨50, 50, 50⟩, ⟨0, 0, 0⟩, ⟨50, 50, 50⟩, ⟨0, 0, 0⟩, ⟨50, 50, 50⟩,
    ⟨0, 0, 0⟩, ⟨50, 50, 50⟩, ⟨200, 200, 200⟩]⟩

/-- Sum of `f` over the pixels of the region, computed by two nested list folds. -/
def regionFold (img : Image) (x y width height : Int) (f : Pixel → Int) : Int :=
  (span y height.toNat).foldl (fun acc j =>
    (span x width.toNat).foldl (fun acc i => acc + f (img.pixelAt j i)) acc) 0

/-- The plan for an integer threshold, decided in integer arithmetic: the test
`sum / (count * 3) < threshold` is made as `sum < threshold * (count * 3)`.  On a
small image the rounding of the quotient does not change the test
(`plan_eq_planInt`). -/
def planInt : Nat → Image → Region → Int → List Visit
  | 0, _, _, _ => []
  | fuel + 1, img, r, threshold =>
    if r.width ≤ 1 ∨ r.height ≤ 1 then [.leaf r]
    else
      match calculateAverage img r.x r.y r.width r.height with
      | .error _ => []
      | .ok avg =>
        if regionFold img r.x r.y r.width r.height (sqDev avg) <
            threshold * ((r.height.toNat : Int) * (r.width.toNat : Int) * 3) then [.fill r avg]
        else .split r ::
          (childRegions r.x r.y r.width r.height).flatMap (fun c => planInt fuel img c threshold)

/-- A grey pixel. -/
def grey (v : Fin 256) : Pixel := ⟨v, v, v⟩

/-- The 4 x 4 image whose pixels are `(10, 10, 10)` except the pixel of store
index `k`, which is `(250, 250, 250)`. -/
def outlierImage (k : Nat) : Image :=
  ⟨4, 4, (List.range 16).map (fun m => if m = k then grey 250 else grey 10)⟩

/-- The 4 x 4 grey image whose two top quadrants hold `0, 20, 0, 20` and whose two
bottom quadrants hold `20, 40, 20, 40`. -/
def stripesImage : Image :=
  ⟨4, 4, [grey 0, grey 20, grey 0, grey 20, grey 0, grey 20, grey 0, grey 20,
    grey 20, grey 40, grey 20, grey 40, grey 20, grey 40, grey 20, grey 40]⟩

/-- The image `stripesImage` after one pass: quadrants filled with 10, 10, 30, 30. -/
def stripesOnce : Image :=
  ⟨4, 4, [grey 10, grey 10, grey 10, grey 10, grey 10, grey 10, grey 10, grey 10,
    grey 30, grey 30, grey 30, grey 30, grey 30, grey 30, grey 30, grey 30]⟩

/-- The image `stripesImage` after two passes: filled with 20. -/
def stripesTwice : Image :=
  ⟨4, 4, List.replicate 16 (grey 20)⟩

/-- A 2 x 2 image whose truncated average is `(0, 0, 0)` and whose pooled variance around
it is `5 / 12`, a number that is not a `double`. -/
def roundingImage : Image :=
  ⟨2, 2, [⟨1, 1, 1⟩, ⟨1, 1, 0⟩, ⟨0, 0, 0⟩, ⟨0, 0, 0⟩]⟩

/-- The `double` nearest to `5 / 12`: `7505999378950827 / 2 ^ 54`, slightly above
`5 / 12` (the number that the decimal `0.4166666666666667` denotes as a `double`). -/
def roundingThreshold : ℚ :=
  7505999378950827 / 18014398509481984

/-- A 26755 x 26755 image: the pixel of row 0, column 0 is `(255, 255, 255)` and every
other pixel is `(0, 0, 0)`.  Its pixel count `715830025` is in the range of `int`;
three times the count is not. -/
def hugeImage : Image :=
  ⟨26755, 26755, grey 255 :: List.replicate 715830024 (grey 0)⟩

/-- The image of the run of `denoisingSequentialFuel` on region `r`, as the plan
describes it. -/
def outcome (n : Nat) (t : ℚ) (img : Image) (r : Region) : Image :=
  applyVisits (plan n img r t) img

/-- A variant of `denoisingSequentialFuel` that visits the children of a region in
the order given by `order` (a list of regions for every region). -/
def denoisingOrderedFuel (order : Region → List Region) :
    Nat → Image → Int → Int → Int → Int → ℚ → Except Fault Image
  | 0, _, _, _, _, _, _ => .error .outOfFuel
  | fuel + 1, img, x, y, width, height, threshold =>
    if width ≤ 1 ∨ height ≤ 1 then .ok img
    else do
      let avg ← calculateAverage img x y width height
      let variance ← calculateVariance img x y width height avg
      if variance < threshold then
        fillRegion img x y width height avg
      else
        (order ⟨x, y, width, height⟩).foldlM
          (fun img c => denoisingOrderedFuel order fuel img c.x c.y c.width c.height threshold)
          img

/-- The variant of `denoisingSequential` with the children visited in the order
given by `order`. -/
def denoisingOrdered (order : Region → List Region) (img : Image) (x y width height : Int)
    (threshold : ℚ) : Except Fault Image :=
  denoisingOrderedFuel order (width.toNat + 1) img x y width height threshold

/-- The children in reverse order: bottom-right, bottom-left, top-right, top-left. -/
def reversedChildren (r : Region) : List Region :=
  (childRegions r.x r.y r.width r.height).reverse

/-- Sum of `g j i` over the rows `y0 ≤ j < y1` and the columns `x0 ≤ i < x1`. -/
def boxSum (g : Int → Int → Int) (y0 y1 x0 x1 : Int) : Int :=
  ∑ j ∈ Finset.Ico y0 y1, ∑ i ∈ Finset.Ico x0 x1, g j i

/-- Squared error between an input image `a` and an output image `b` over a region:
the sum over the pixels of the region and the three channels of
`(input channel - output channel) ^ 2`. -/
def regionError (a b : Image) (x y width height : Int) : Int :=
  boxSum (fun j i => sqDev (b.pixelAt j i) (a.pixelAt j i)) y (y + height) x (x + width)

/-! ## The image codec

`readPPM` and `writePPM` work on a text file; the content of the file is a list
of characters.  The functions of the C library that they call are modelled
below (`fprintf` with `%d`, `fgets`, and the `%d` conversion of `sscanf` and
`fscanf`).  Reading returns `none` where the original would use a variable
that was never assigned, or would not terminate. -/

/-- The decimal digit `d` as a character. -/
def digitChar (d : Nat) : Char := Char.ofNat (48 + d)

/-- Decimal digits of `n`, most significant first; `fuel` bounds their number. -/
def decimalFuel : Nat → Nat → List Char
  | 0, _ => []
  | fuel + 1, n =>
    if n < 10 then [digitChar n] else decimalFuel fuel (n / 10) ++ [digitChar (n % 10)]

/-- The conversion `%d` of `fprintf`. -/
def printInt (v : Int) : List Char :=
  if v < 0 then '-' :: decimalFuel ((-v).toNat + 1) (-v).toNat
  else decimalFuel (v.toNat + 1) v.toNat

/-- The C predicate `isspace`. -/
def isSpace (c : Char) : Bool :=
  c = ' ' || c = '\t' || c = '\n' || c = '\r' || c = Char.ofNat 11 || c = Char.ofNat 12

/-- The C predicate `isdigit`. -/
def isDigit (c : Char) : Bool :=
  decide (48 ≤ c.toNat) && decide (c.toNat ≤ 57)

/-- Drop the leading white space. -/
def skipSpace : List Char → List Char
  | [] => []
  | c :: cs => if isSpace c then skipSpace cs else c :: cs

/-- Read the leading decimal digits into the accumulator. -/
def scanDigits : List Char → Nat → Nat × List Char
  | [], acc => (acc, [])
  | c :: cs, acc =>
    if isDigit c then scanDigits cs (acc * 10 + (c.toNat - 48)) else (acc, c :: cs)

/-- The conversion `%d` of `sscanf` and `fscanf`: skip white space, read an
optional sign and at least one digit.  The result is the number and the rest of
the input, or `none` when no number is there (the variable stays unassigned). -/
def scanInt (s : List Char) : Option (Int × List Char) :=
  match skipSpace s with
  | [] => none
  | c :: cs =>
    if c = '-' then
      match cs with
      | [] => none
      | d :: _ =>
        if isDigit d then some (-((scanDigits cs 0).1 : Int), (scanDigits cs 0).2) else none
    else if c = '+' then
      match cs with
      | [] => none
      | d :: _ =>
        if isDigit d then some (((scanDigits cs 0).1 : Int), (scanDigits cs 0).2) else none
    else if isDigit c then
      some (((scanDigits (c :: cs) 0).1 : Int), (scanDigits (c :: cs) 0).2)
    else none

/-- Read at most `room` characters, stopping after a newline. -/
def fgetsAux : Nat → List Char → List Char × List Char
  | 0, s => ([], s)
  | _ + 1, [] => ([], [])
  | room + 1, c :: cs =>
    if c = '\n' then ([c], cs) else (c :: (fgetsAux room cs).1, (fgetsAux room cs).2)

/-- The C function `fgets(line, size, file)`: the line read and the rest of the
file, or `none` at the end of the file (the buffer is then left as it was). -/
def fgets (size : Nat) (s : List Char) : Option (List Char × List Char) :=
  match s with
  | [] => none
  | _ :: _ => some (fgetsAux (size - 1) s)

/-- The loop `do { fgets(line, sizeof(line), file); } while (line[0] == '#');` of
`readPPM`.  `line` is the buffer before the loop (`none`: never written). -/
def skipComments : Nat → Option (List Char) → List Char → Option (List Char × List Char)
  | 0, _, _ => none
  | fuel + 1, line, s =>
    let line' := match fgets 100 s with
      | some r => some r.1
      | none => line
    let s' := match fgets 100 s with
      | some r => r.2
      | none => s
    match line' with
    | none => none
    | some l => if l.head? = some '#' then skipComments fuel line' s' else some (l, s')

/-- The loop of `readPPM` that reads `count` pixels with
`fscanf(file, "%d %d %d", &r, &g, &b)` and stores them one after the other. -/
def readPixels : Nat → List Char → List Pixel → Option (List Pixel × List Char)
  | 0, s, data => some (data, s)
  | count + 1, s, data => do
    let r ← scanInt s
    let g ← scanInt r.2
    let b ← scanInt g.2
    readPixels count b.2 (data ++ [⟨toUChar r.1, toUChar g.1, toUChar b.1⟩])

/-- The function `readPPM` of `denoising.c`, on the content of the file. -/
def readPPM (file : List Char) : Option Image := do
  let line0 := match fgets 100 file with
    | some r => some r.1
    | none => none
  let s1 := match fgets 100 file with
    | some r => r.2
    | none => file
  let ls ← skipComments (s1.length + 1) line0 s1
  let w ← scanInt ls.1
  let h ← scanInt w.2
  let s3 := match fgets 100 ls.2 with
    | some r => r.2
    | none => ls.2
  let px ← readPixels (w.1 * h.1).toNat s3 []
  pure ⟨w.1, h.1, px.1⟩

/-- The text that `writePPM` prints for one pixel: `"%d %d %d "`. -/
def pixelText (p : Pixel) : List Char :=
  printInt (p.r.val : Int) ++ [' '] ++ printInt (p.g.val : Int) ++ [' '] ++
    printInt (p.b.val : Int) ++ [' ']

/-- The function `writePPM` of `denoising.c`: the content of the file written. -/
def writePPM (img : Image) : Except Fault (List Char) :=
  let out := ['P', '3', '\n']
  let out := out ++ printInt img.width ++ [' '] ++ printInt img.height ++ ['\n']
  let out := out ++ ['2', '5', '5', '\n']
  forLoop 0 (img.width * img.height) (fun out i => do
    let p ← img.load i
    let out := out ++ pixelText p
    if img.width = 0 then .error .divByZero
    else if Int.tmod (i + 1) img.width = 0 then pure (out ++ ['\n'])
    else pure out) out

/-- The input does not go on with a digit. -/
def NoDigitAhead (r : List Char) : Prop :=
  ∀ c, r.head? = some c → isDigit c = false

/-- The text that the loop of `writePPM` prints for the pixels `ps`, the first of
which has index `k`: a newline follows every pixel whose index plus one is a
multiple of the width `w`. -/
def bodyText (w : Int) : Nat → List Pixel → List Char
  | _, [] => []
  | k, p :: ps =>
    (pixelText p ++ if Int.tmod ((k : Int) + 1) w = 0 then ['\n'] else []) ++
      bodyText w (k + 1) ps

end Denoising

namespace Denoising

/-! ## Rounding to `double`, and the range of `int` -/

theorem wrapInt_of_range {v : Int} (h0 : -2147483648 ≤ v) (h1 : v < 2147483648) :
    wrapInt v = v := by
  unfold wrapInt
  omega

theorem roundHalfEven_intCast (n : Int) : roundHalfEven (n : ℚ) = n := by
  unfold roundHalfEven
  rw [Int.floor_intCast, sub_self, if_pos (by norm_num)]

theorem roundHalfEven_bounds (q : ℚ) : ⌊q⌋ ≤ roundHalfEven q ∧ roundHalfEven q ≤ ⌊q⌋ + 1 := by
  unfold roundHalfEven
  split_ifs <;> omega

theorem roundHalfEven_mono {p q : ℚ} (h : p ≤ q) : roundHalfEven p ≤ roundHalfEven q := by
  have hfl : ⌊p⌋ ≤ ⌊q⌋ := Int.floor_mono h
  rcases lt_or_eq_of_le hfl with hlt | heq
  · exact le_trans (roundHalfEven_bounds p).2 (le_trans hlt (roundHalfEven_bounds q).1)
  · unfold roundHalfEven
    rw [← heq]
    split_ifs <;> first | omega | (exfalso; linarith)

theorem roundHalfEven_le {q : ℚ} {n : Int} (h : q ≤ (n : ℚ)) : roundHalfEven q ≤ n := by
  have := roundHalfEven_mono h
  rwa [roundHalfEven_intCast] at this

theorem le_roundHalfEven {q : ℚ} {n : Int} (h : (n : ℚ) ≤ q) : n ≤ roundHalfEven q := by
  have := roundHalfEven_mono h
  rwa [roundHalfEven_intCast] at this

theorem two_zpow_pos (e : Int) : (0 : ℚ) < (2 : ℚ) ^ e :=
  zpow_pos (by norm_num) e

theorem two_zpow_toNat {k : Int} (hk : 0 ≤ k) : (2 : ℚ) ^ k = (((2 : Int) ^ k.toNat : Int) : ℚ) := by
  conv_lhs => rw [← Int.toNat_of_nonneg hk]
  rw [zpow_natCast]
  push_cast
  rfl

theorem log_two_le (q : ℚ) (hq : 0 < q) : (2 : ℚ) ^ Int.log 2 q ≤ q := by
  have h := Int.zpow_log_le_self (b := 2) (by norm_num) hq
  exact_mod_cast h

theorem lt_log_two_succ (q : ℚ) : q < (2 : ℚ) ^ (Int.log 2 q + 1) := by
  have h := Int.lt_zpow_succ_log_self (b := 2) (by norm_num) q
  exact_mod_cast h

theorem ulpExp_ge (q : ℚ) : -1074 ≤ ulpExp q ∧ Int.log 2 q - 52 ≤ ulpExp q :=
  ⟨le_max_right _ _, le_max_left _ _⟩

theorem ulpExp_mono {x y : ℚ} (hx : 0 < x) (h : x ≤ y) : ulpExp x ≤ ulpExp y := by
  unfold ulpExp
  exact max_le_max (by have := Int.log_mono_right (b := 2) hx h; omega) le_rfl

theorem roundNonneg_zero : roundNonneg 0 = 0 := by
  unfold roundNonneg
  rw [zero_div]
  have h := roundHalfEven_intCast 0
  rw [Int.cast_zero] at h
  rw [h, Int.cast_zero, zero_mul]

theorem roundNonneg_nonneg {q : ℚ} (hq : 0 ≤ q) : 0 ≤ roundNonneg q := by
  unfold roundNonneg
  have h : (0 : Int) ≤ roundHalfEven (q / (2 : ℚ) ^ ulpExp q) :=
    le_roundHalfEven (by rw [Int.cast_zero]; exact div_nonneg hq (le_of_lt (two_zpow_pos _)))
  exact mul_nonneg (by exact_mod_cast h) (le_of_lt (two_zpow_pos _))

/-- Rounding keeps the order of non-negative numbers. -/
theorem roundNonneg_mono {x y : ℚ} (hx : 0 ≤ x) (h : x ≤ y) : roundNonneg x ≤ roundNonneg y := by
  rcases eq_or_lt_of_le hx with rfl | hpos
  · rw [roundNonneg_zero]
    exact roundNonneg_nonneg h
  have hypos : 0 < y := lt_of_lt_of_le hpos h
  have hexp := ulpExp_mono hpos h
  rcases eq_or_lt_of_le hexp with heq | hlt
  · unfold roundNonneg
    rw [← heq]
    have hm := roundHalfEven_mono
      (div_le_div_of_nonneg_right h (le_of_lt (two_zpow_pos (ulpExp x))))
    exact mul_le_mul_of_nonneg_right (by exact_mod_cast hm) (le_of_lt (two_zpow_pos _))
  · have hx1 := ulpExp_ge x
    have hy : ulpExp y = Int.log 2 y - 52 := by
      unfold ulpExp at hlt ⊢
      rcases max_cases (Int.log 2 y - 52) (-1074) with ⟨h1, _⟩ | ⟨h1, _⟩
      · exact h1
      · rw [h1] at hlt
        omega
    have hup : roundNonneg x ≤ (2 : ℚ) ^ Int.log 2 y := by
      have hk : 0 ≤ Int.log 2 y - ulpExp x := by omega
      have hxB : x ≤ (2 : ℚ) ^ Int.log 2 y :=
        le_trans (le_of_lt (lt_log_two_succ x))
          (zpow_le_zpow_right₀ (by norm_num) (by omega))
      have hq : x / (2 : ℚ) ^ ulpExp x ≤ (((2 : Int) ^ (Int.log 2 y - ulpExp x).toNat : Int) : ℚ) := by
        rw [← two_zpow_toNat hk, zpow_sub₀ (by norm_num)]
        exact div_le_div_of_nonneg_right hxB (le_of_lt (two_zpow_pos _))
      have hr := roundHalfEven_le hq
      unfold roundNonneg
      calc (roundHalfEven (x / (2 : ℚ) ^ ulpExp x) : ℚ) * (2 : ℚ) ^ ulpExp x
          ≤ (((2 : Int) ^ (Int.log 2 y - ulpExp x).toNat : Int) : ℚ) * (2 : ℚ) ^ ulpExp x :=
            mul_le_mul_of_nonneg_right (by exact_mod_cast hr) (le_of_lt (two_zpow_pos _))
        _ = (2 : ℚ) ^ Int.log 2 y := by
            rw [← two_zpow_toNat hk, ← zpow_add₀ (by norm_num)]
            congr 1
            omega
    have hlow : (2 : ℚ) ^ Int.log 2 y ≤ roundNonneg y := by
      have hq : (((2 : Int) ^ (52 : Int).toNat : Int) : ℚ) ≤ y / (2 : ℚ) ^ ulpExp y := by
        rw [← two_zpow_toNat (by norm_num), le_div_iff₀ (two_zpow_pos _),
          ← zpow_add₀ (by norm_num), hy]
        have e : (52 : Int) + (Int.log 2 y - 52) = Int.log 2 y := by omega
        rw [e]
        exact log_two_le y hypos
      have hr := le_roundHalfEven hq
      unfold roundNonneg
      calc (2 : ℚ) ^ Int.log 2 y
          = (((2 : Int) ^ (52 : Int).toNat : Int) : ℚ) * (2 : ℚ) ^ ulpExp y := by
            rw [← two_zpow_toNat (by norm_num), ← zpow_add₀ (by norm_num), hy]
            congr 1
            omega
        _ ≤ (roundHalfEven (y / (2 : ℚ) ^ ulpExp y) : ℚ) * (2 : ℚ) ^ ulpExp y :=
            mul_le_mul_of_nonneg_right (by exact_mod_cast hr) (le_of_lt (two_zpow_pos _))
    exact le_trans hup hlow

/-- Rounding to `double` keeps the order. -/
theorem roundDouble_mono {x y : ℚ} (h : x ≤ y) : roundDouble x ≤ roundDouble y := by
  unfold roundDouble
  by_cases hx : x < 0
  · rw [if_pos hx]
    by_cases hy : y < 0
    · rw [if_pos hy]
      exact neg_le_neg (roundNonneg_mono (by linarith) (by linarith))
    · rw [if_neg hy]
      have h1 := roundNonneg_nonneg (by linarith : (0 : ℚ) ≤ -x)
      have h2 := roundNonneg_nonneg (not_lt.1 hy)
      linarith
  · rw [if_neg hx, if_neg (by linarith)]
    exact roundNonneg_mono (not_lt.1 hx) h

theorem roundDouble_nonneg {q : ℚ} (hq : 0 ≤ q) : 0 ≤ roundDouble q := by
  unfold roundDouble
  rw [if_neg (not_lt.2 hq)]
  exact roundNonneg_nonneg hq

theorem roundDouble_zero : roundDouble 0 = 0 := by
  unfold roundDouble
  rw [if_neg (lt_irrefl 0), roundNonneg_zero]

/-- A positive significand below `2 ^ 53` with an exponent not below `-1074` is its own
rounding. -/
theorem roundNonneg_fixed {m k : Int} (hm : 0 < m) (hm2 : m < 2 ^ 53) (hk : -1074 ≤ k) :
    roundNonneg ((m : ℚ) * (2 : ℚ) ^ k) = (m : ℚ) * (2 : ℚ) ^ k := by
  have hmq : (0 : ℚ) < (m : ℚ) := by exact_mod_cast hm
  have hpos : (0 : ℚ) < (m : ℚ) * (2 : ℚ) ^ k := mul_pos hmq (two_zpow_pos k)
  have hlt : (m : ℚ) * (2 : ℚ) ^ k < (2 : ℚ) ^ (53 + k) := by
    rw [zpow_add₀ (by norm_num)]
    apply mul_lt_mul_of_pos_right _ (two_zpow_pos k)
    have : ((m : Int) : ℚ) < (((2 : Int) ^ 53 : Int) : ℚ) := by exact_mod_cast hm2
    calc (m : ℚ) < (((2 : Int) ^ 53 : Int) : ℚ) := this
      _ = (2 : ℚ) ^ (53 : Int) := by norm_num
  have hlog : Int.log 2 ((m : ℚ) * (2 : ℚ) ^ k) < 53 + k := by
    rw [← Int.lt_zpow_iff_log_lt (by norm_num) hpos]
    exact_mod_cast hlt
  have he : ulpExp ((m : ℚ) * (2 : ℚ) ^ k) ≤ k := by
    unfold ulpExp
    exact max_le (by omega) hk
  have hd : 0 ≤ k - ulpExp ((m : ℚ) * (2 : ℚ) ^ k) := by omega
  have hq : (m : ℚ) * (2 : ℚ) ^ k / (2 : ℚ) ^ ulpExp ((m : ℚ) * (2 : ℚ) ^ k) =
      ((m * (2 : Int) ^ (k - ulpExp ((m : ℚ) * (2 : ℚ) ^ k)).toNat : Int) : ℚ) := by
    rw [Int.cast_mul, ← two_zpow_toNat hd, zpow_sub₀ (by norm_num), mul_div_assoc]
  unfold roundNonneg
  rw [hq, roundHalfEven_intCast, Int.cast_mul, ← two_zpow_toNat hd, mul_assoc,
    ← zpow_add₀ (by norm_num)]
  congr 2
  omega

/-- A `double` is its own rounding. -/
theorem roundDouble_of_isDouble {x : ℚ} (hx : IsDouble x) : roundDouble x = x := by
  obtain ⟨m, e, hm, he, _, rfl⟩ := hx
  rw [abs_lt] at hm
  unfold roundDouble
  rcases lt_trichotomy m 0 with hneg | rfl | hpos
  · have hlt : (m : ℚ) * (2 : ℚ) ^ e < 0 :=
      mul_neg_of_neg_of_pos (by exact_mod_cast hneg) (two_zpow_pos e)
    rw [if_pos hlt]
    have h := @roundNonneg_fixed (-m) e (by omega) (by omega) he
    rw [Int.cast_neg, neg_mul] at h
    rw [h, neg_neg]
  · rw [Int.cast_zero, zero_mul, if_neg (lt_irrefl 0), roundNonneg_zero]
  · have hge : ¬ (m : ℚ) * (2 : ℚ) ^ e < 0 :=
      not_lt.2 (le_of_lt (mul_pos (by exact_mod_cast hpos) (two_zpow_pos e)))
    rw [if_neg hge]
    exact roundNonneg_fixed hpos hm.2 he

/-- A rounded value below a `double` comes from a real value below it. -/
theorem lt_of_roundDouble_lt {q t : ℚ} (ht : IsDouble t) (h : roundDouble q < t) : q < t := by
  by_contra hge
  have := roundDouble_mono (not_lt.1 hge)
  rw [roundDouble_of_isDouble ht] at this
  linarith

theorem roundDouble_le_of_le {q t : ℚ} (ht : IsDouble t) (h : q ≤ t) : roundDouble q ≤ t := by
  have := roundDouble_mono h
  rwa [roundDouble_of_isDouble ht] at this

theorem le_roundDouble_of_le {q t : ℚ} (ht : IsDouble t) (h : t ≤ q) : t ≤ roundDouble q := by
  have := roundDouble_mono h
  rwa [roundDouble_of_isDouble ht] at this

theorem isDouble_intCast {n : Int} (h : |n| < 2 ^ 53) : IsDouble (n : ℚ) :=
  ⟨n, 0, h, by norm_num, by norm_num, by rw [zpow_zero, mul_one]⟩

/-- The quotient of an integer below `2 ^ 53` in absolute value by `2 ^ k`, `k ≤ 1074`. -/
theorem isDouble_dyadic {m : Int} (k : Nat) (h : |m| < 2 ^ 53) (hk : k ≤ 1074) :
    IsDouble ((m : ℚ) / 2 ^ k) :=
  ⟨m, -(k : Int), h, by omega, by omega, by
    rw [zpow_neg, zpow_natCast, div_eq_mul_inv]⟩

/-! ## Loops -/

theorem forLoop_eq_span {σ : Type} (lo hi : Int) (body : σ → Int → Except Fault σ) (s : σ) :
    forLoop lo hi body s = (span lo (hi - lo).toNat).foldlM body s := by
  unfold forLoop span
  rw [List.foldlM_map]

theorem span_succ (lo : Int) (n : Nat) : span lo (n + 1) = span lo n ++ [lo + (n : Int)] := by
  simp [span, List.range_succ]

theorem mem_span {lo : Int} {n : Nat} {a : Int} :
    a ∈ span lo n ↔ lo ≤ a ∧ a < lo + (n : Int) := by
  unfold span
  simp only [List.mem_map, List.mem_range]
  constructor
  · rintro ⟨k, hk, rfl⟩
    omega
  · rintro ⟨h1, h2⟩
    exact ⟨(a - lo).toNat, by omega, by omega⟩

/-- A loop whose body succeeds with `g` while an invariant `P` holds runs to
completion, computes the pure fold of `g` and keeps `P`. -/
theorem foldlM_ok_of_inv {σ α : Type} (P : σ → Prop) (body : σ → α → Except Fault σ)
    (g : σ → α → σ) (l : List α) :
    ∀ s : σ, P s → (∀ s a, a ∈ l → P s → body s a = .ok (g s a) ∧ P (g s a)) →
      l.foldlM body s = .ok (l.foldl g s) ∧ P (l.foldl g s) := by
  induction l with
  | nil => intro s hs _; exact ⟨rfl, hs⟩
  | cons a l ih =>
    intro s hs hbody
    have h1 := hbody s a (List.mem_cons_self a l) hs
    have h2 := ih (g s a) h1.2 (fun s b hb hP => hbody s b (List.mem_cons_of_mem a hb) hP)
    rw [List.foldlM_cons, h1.1]
    exact h2

theorem Ico_toNat (lo h : Int) :
    Finset.Ico lo (lo + ((h.toNat : Nat) : Int)) = Finset.Ico lo (lo + h) := by
  ext a
  simp only [Finset.mem_Ico]
  omega

/-- A fold over a loop range, seen through an additive observation `φ`. -/
theorem foldl_span_proj {σ M : Type} [AddCommMonoid M] (φ : σ → M) (F : Int → M)
    (step : σ → Int → σ) (hstep : ∀ acc a, φ (step acc a) = φ acc + F a) (lo : Int) (n : Nat)
    (s : σ) :
    φ ((span lo n).foldl step s) = φ s + ∑ a ∈ Finset.Ico lo (lo + (n : Int)), F a := by
  induction n with
  | zero => simp [span]
  | succ n ih =>
    have hins : Finset.Ico lo (lo + ((n + 1 : Nat) : Int)) =
        insert (lo + (n : Int)) (Finset.Ico lo (lo + (n : Int))) := by
      ext a
      simp only [Finset.mem_Ico, Finset.mem_insert]
      omega
    have hnot : lo + (n : Int) ∉ Finset.Ico lo (lo + (n : Int)) := by
      simp [Finset.mem_Ico]
    rw [span_succ, List.foldl_append, hins, Finset.sum_insert hnot]
    simp only [List.foldl_cons, List.foldl_nil]
    rw [hstep, ih, add_assoc, add_comm (F _)]

/-! ## Loads and stores inside the image -/

theorem index_in_store {img : Image} {x y width height : Int}
    (hb : InBounds img x y width height) {j i : Int}
    (hj : y ≤ j) (hj2 : j < y + height) (hi : x ≤ i) (hi2 : i < x + width) :
    0 ≤ j * img.width + i ∧ j * img.width + i < (img.data.length : Int) := by
  obtain ⟨hlen, hx, hy, hw, hh⟩ := hb
  have h0 : 0 ≤ j := by omega
  have hW : 0 ≤ img.width := by omega
  have h1 : 0 ≤ j * img.width := mul_nonneg h0 hW
  have h2 : (j + 1) * img.width ≤ img.height * img.width :=
    mul_le_mul_of_nonneg_right (by omega) hW
  constructor
  · omega
  · rw [hlen]
    nlinarith

theorem load_eq_pixelAt_of_lt {img : Image} {k : Int} (h0 : 0 ≤ k)
    (h1 : k < (img.data.length : Int)) : ∃ p, img.load k = .ok p := by
  have hk : k.toNat < img.data.length := by omega
  refine ⟨img.data[k.toNat], ?_⟩
  unfold Image.load
  rw [if_pos h0, List.getElem?_eq_getElem hk]

theorem load_eq_pixelAt {img : Image} {x y width height : Int}
    (hb : InBounds img x y width height) {j i : Int}
    (hj : y ≤ j) (hj2 : j < y + height) (hi : x ≤ i) (hi2 : i < x + width) :
    img.load (j * img.width + i) = .ok (img.pixelAt j i) := by
  obtain ⟨h0, h1⟩ := index_in_store hb hj hj2 hi hi2
  obtain ⟨p, hp⟩ := load_eq_pixelAt_of_lt h0 h1
  unfold Image.pixelAt
  rw [hp]

/-- The two nested loops over a region inside the image, with a body that loads
the pixel and updates the accumulator by `step`, run to completion. -/
theorem region_loop_ok {σ : Type} (step : σ → Pixel → σ) {img : Image} {x y width height : Int}
    (hb : InBounds img x y width height) (s : σ) :
    forLoop y (y + height) (fun acc j =>
      forLoop x (x + width) (fun acc i => do
        let p ← img.load (j * img.width + i)
        pure (step acc p)) acc) s =
    .ok ((span y height.toNat).foldl (fun acc j =>
      (span x width.toNat).foldl (fun acc i => step acc (img.pixelAt j i)) acc) s) := by
  have e1 : (y + height - y).toNat = height.toNat := by congr 1; omega
  have e2 : (x + width - x).toNat = width.toNat := by congr 1; omega
  rw [forLoop_eq_span, e1]
  refine (foldlM_ok_of_inv (fun _ => True) _ _ _ s trivial ?_).1
  intro acc j hj _
  refine ⟨?_, trivial⟩
  rw [forLoop_eq_span, e2]
  refine (foldlM_ok_of_inv (fun _ => True) _ _ _ acc trivial ?_).1
  intro acc i hi _
  refine ⟨?_, trivial⟩
  rw [mem_span] at hj hi
  rw [load_eq_pixelAt hb hj.1 (by omega) hi.1 (by omega)]
  rfl

/-- The pure double fold over a region, seen through an additive observation. -/
theorem region_foldl_proj {σ M : Type} [AddCommMonoid M] (φ : σ → M) (f : Pixel → M)
    (step : σ → Pixel → σ) (hstep : ∀ acc p, φ (step acc p) = φ acc + f p) (img : Image)
    (x y width height : Int) (s : σ) :
    φ ((span y height.toNat).foldl (fun acc j =>
      (span x width.toNat).foldl (fun acc i => step acc (img.pixelAt j i)) acc) s) =
    φ s + ∑ j ∈ Finset.Ico y (y + height), ∑ i ∈ Finset.Ico x (x + width),
      f (img.pixelAt j i) := by
  rw [foldl_span_proj φ (fun j => ∑ i ∈ Finset.Ico x (x + width), f (img.pixelAt j i)),
    Ico_toNat]
  intro acc j
  rw [foldl_span_proj φ (fun i => f (img.pixelAt j i)), Ico_toNat]
  intro acc i
  exact hstep acc _

/-! ## Region statistics -/

theorem ok_bind {α β : Type} (a : α) (f : α → Except Fault β) :
    (Except.ok a >>= f) = f a := rfl

theorem region_count (x y width height : Int) :
    (∑ _j ∈ Finset.Ico y (y + height), ∑ _i ∈ Finset.Ico x (x + width), (1 : Int)) =
      (height.toNat : Int) * (width.toNat : Int) := by
  simp [Finset.sum_const, Int.card_Ico]

/-- On a region inside the image `calculateAverage` divides the three channel
sums by the number of pixels of the region. -/
theorem calculateAverage_eq {img : Image} {x y width height : Int}
    (hb : InBounds img x y width height) :
    calculateAverage img x y width height =
      if (height.toNat : Int) * (width.toNat : Int) = 0 then .error .divByZero
      else .ok
        { r := toUChar (Int.tdiv (regionSum img x y width height (fun p => (p.r.val : Int)))
                ((height.toNat : Int) * (width.toNat : Int)))
          g := toUChar (Int.tdiv (regionSum img x y width height (fun p => (p.g.val : Int)))
                ((height.toNat : Int) * (width.toNat : Int)))
          b := toUChar (Int.tdiv (regionSum img x y width height (fun p => (p.b.val : Int)))
                ((height.toNat : Int) * (width.toNat : Int))) } := by
  unfold calculateAverage
  have hloop := region_loop_ok (fun (acc : AvgAcc) (p : Pixel) =>
      ({ sum_r := acc.sum_r + (p.r.val : Int)
         sum_g := acc.sum_g + (p.g.val : Int)
         sum_b := acc.sum_b + (p.b.val : Int)
         count := acc.count + 1 } : AvgAcc)) hb (AvgAcc.mk 0 0 0 0)
  rw [hloop, ok_bind]
  have hr := region_foldl_proj AvgAcc.sum_r (fun p => (p.r.val : Int))
    (fun (acc : AvgAcc) (p : Pixel) =>
      ({ sum_r := acc.sum_r + (p.r.val : Int)
         sum_g := acc.sum_g + (p.g.val : Int)
         sum_b := acc.sum_b + (p.b.val : Int)
         count := acc.count + 1 } : AvgAcc)) (fun _ _ => rfl) img x y width height
    (AvgAcc.mk 0 0 0 0)
  have hg := region_foldl_proj AvgAcc.sum_g (fun p => (p.g.val : Int))
    (fun (acc : AvgAcc) (p : Pixel) =>
      ({ sum_r := acc.sum_r + (p.r.val : Int)
         sum_g := acc.sum_g + (p.g.val : Int)
         sum_b := acc.sum_b + (p.b.val : Int)
         count := acc.count + 1 } : AvgAcc)) (fun _ _ => rfl) img x y width height
    (AvgAcc.mk 0 0 0 0)
  have hbl := region_foldl_proj AvgAcc.sum_b (fun p => (p.b.val : Int))
    (fun (acc : AvgAcc) (p : Pixel) =>
      ({ sum_r := acc.sum_r + (p.r.val : Int)
         sum_g := acc.sum_g + (p.g.val : Int)
         sum_b := acc.sum_b + (p.b.val : Int)
         count := acc.count + 1 } : AvgAcc)) (fun _ _ => rfl) img x y width height
    (AvgAcc.mk 0 0 0 0)
  have hc := region_foldl_proj AvgAcc.count (fun _ => (1 : Int))
    (fun (acc : AvgAcc) (p : Pixel) =>
      ({ sum_r := acc.sum_r + (p.r.val : Int)
         sum_g := acc.sum_g + (p.g.val : Int)
         sum_b := acc.sum_b + (p.b.val : Int)
         count := acc.count + 1 } : AvgAcc)) (fun _ _ => rfl) img x y width height
    (AvgAcc.mk 0 0 0 0)
  rw [region_count] at hc
  simp only [zero_add] at hr hg hbl hc
  rw [hr, hg, hbl, hc]
  rfl

theorem regionSum_cast_sqDev (img : Image) (x y width height : Int) (avg : Pixel) :
    (∑ j ∈ Finset.Ico y (y + height), ∑ i ∈ Finset.Ico x (x + width),
      ((((((img.pixelAt j i).r.val : Int) - (avg.r.val : Int) : Int) : ℚ) *
          ((((img.pixelAt j i).r.val : Int) - (avg.r.val : Int) : Int) : ℚ)) +
        (((((img.pixelAt j i).g.val : Int) - (avg.g.val : Int) : Int) : ℚ) *
          ((((img.pixelAt j i).g.val : Int) - (avg.g.val : Int) : Int) : ℚ)) +
        (((((img.pixelAt j i).b.val : Int) - (avg.b.val : Int) : Int) : ℚ) *
          ((((img.pixelAt j i).b.val : Int) - (avg.b.val : Int) : Int) : ℚ)))) =
      ((regionSum img x y width height (sqDev avg) : Int) : ℚ) := by
  unfold regionSum sqDev
  push_cast
  refine Finset.sum_congr rfl (fun j _ => Finset.sum_congr rfl (fun i _ => ?_))
  ring

/-- On a region inside the image `calculateVariance` divides the sum of the
squared deviations by the `int` product of the number of pixels of the region
and 3, and rounds the quotient. -/
theorem calculateVariance_eq {img : Image} {x y width height : Int}
    (hb : InBounds img x y width height) (avg : Pixel) :
    calculateVariance img x y width height avg =
      if (height.toNat : Int) * (width.toNat : Int) * 3 = 0 then .error .divByZero
      else .ok (roundDouble (((regionSum img x y width height (sqDev avg) : Int) : ℚ) /
        ((wrapInt ((height.toNat : Int) * (width.toNat : Int) * 3) : Int) : ℚ))) := by
  unfold calculateVariance
  have hloop := region_loop_ok (fun (acc : VarAcc) (p : Pixel) =>
      ({ sum := acc.sum +
          ((((p.r.val : Int) - (avg.r.val : Int) : Int) : ℚ) *
              (((p.r.val : Int) - (avg.r.val : Int) : Int) : ℚ) +
            (((p.g.val : Int) - (avg.g.val : Int) : Int) : ℚ) *
              (((p.g.val : Int) - (avg.g.val : Int) : Int) : ℚ) +
            (((p.b.val : Int) - (avg.b.val : Int) : Int) : ℚ) *
              (((p.b.val : Int) - (avg.b.val : Int) : Int) : ℚ))
         count := acc.count + 1 } : VarAcc)) hb (VarAcc.mk 0 0)
  rw [hloop, ok_bind]
  have hs := region_foldl_proj VarAcc.sum (fun p =>
      ((((p.r.val : Int) - (avg.r.val : Int) : Int) : ℚ) *
              (((p.r.val : Int) - (avg.r.val : Int) : Int) : ℚ) +
            (((p.g.val : Int) - (avg.g.val : Int) : Int) : ℚ) *
              (((p.g.val : Int) - (avg.g.val : Int) : Int) : ℚ) +
            (((p.b.val : Int) - (avg.b.val : Int) : Int) : ℚ) *
              (((p.b.val : Int) - (avg.b.val : Int) : Int) : ℚ)))
    (fun (acc : VarAcc) (p : Pixel) =>
      ({ sum := acc.sum +
          ((((p.r.val : Int) - (avg.r.val : Int) : Int) : ℚ) *
              (((p.r.val : Int) - (avg.r.val : Int) : Int) : ℚ) +
            (((p.g.val : Int) - (avg.g.val : Int) : Int) : ℚ) *
              (((p.g.val : Int) - (avg.g.val : Int) : Int) : ℚ) +
            (((p.b.val : Int) - (avg.b.val : Int) : Int) : ℚ) *
              (((p.b.val : Int) - (avg.b.val : Int) : Int) : ℚ))
         count := acc.count + 1 } : VarAcc)) (fun _ _ => rfl) img x y width height
    (VarAcc.mk 0 0)
  have hc := region_foldl_proj VarAcc.count (fun _ => (1 : Int))
    (fun (acc : VarAcc) (p : Pixel) =>
      ({ sum := acc.sum +
          ((((p.r.val : Int) - (avg.r.val : Int) : Int) : ℚ) *
              (((p.r.val : Int) - (avg.r.val : Int) : Int) : ℚ) +
            (((p.g.val : Int) - (avg.g.val : Int) : Int) : ℚ) *
              (((p.g.val : Int) - (avg.g.val : Int) : Int) : ℚ) +
            (((p.b.val : Int) - (avg.b.val : Int) : Int) : ℚ) *
              (((p.b.val : Int) - (avg.b.val : Int) : Int) : ℚ))
         count := acc.count + 1 } : VarAcc)) (fun _ _ => rfl) img x y width height
    (VarAcc.mk 0 0)
  rw [region_count] at hc
  rw [regionSum_cast_sqDev] at hs
  simp only [zero_add] at hs hc
  rw [hs, hc]
  rfl

theorem sqDev_nonneg (avg p : Pixel) : 0 ≤ sqDev avg p := by
  unfold sqDev
  positivity

theorem regionSum_nonneg (img : Image) (x y width height : Int) (f : Pixel → Int)
    (hf : ∀ p, 0 ≤ f p) : 0 ≤ regionSum img x y width height f :=
  Finset.sum_nonneg (fun _ _ => Finset.sum_nonneg (fun _ _ => hf _))

theorem regionSum_le (img : Image) (x y width height : Int) (f : Pixel → Int) (c : Int)
    (hf : ∀ p, f p ≤ c) :
    regionSum img x y width height f ≤ c * ((height.toNat : Int) * (width.toNat : Int)) := by
  unfold regionSum
  calc ∑ j ∈ Finset.Ico y (y + height), ∑ i ∈ Finset.Ico x (x + width), f (img.pixelAt j i)
      ≤ ∑ _j ∈ Finset.Ico y (y + height), ∑ _i ∈ Finset.Ico x (x + width), c :=
        Finset.sum_le_sum (fun _ _ => Finset.sum_le_sum (fun _ _ => hf _))
    _ = c * ((height.toNat : Int) * (width.toNat : Int)) := by
        simp [Finset.sum_const, Int.card_Ico]
        ring

theorem toUChar_of_range {v : Int} (h0 : 0 ≤ v) (h1 : v ≤ 255) : ((toUChar v).val : Int) = v := by
  unfold toUChar
  simp only
  omega

/-- The truncated channel mean of a region with at least one pixel. -/
theorem channel_mean_range (img : Image) (x y width height : Int) (hw : 1 ≤ width)
    (hh : 1 ≤ height) (f : Pixel → Int) (h0 : ∀ p, 0 ≤ f p) (h1 : ∀ p, f p ≤ 255) :
    Int.tdiv (regionSum img x y width height f) ((height.toNat : Int) * (width.toNat : Int)) =
        regionSum img x y width height f / (width * height) ∧
      0 ≤ regionSum img x y width height f / (width * height) ∧
      regionSum img x y width height f / (width * height) ≤ 255 := by
  have e1 : ((height.toNat : Nat) : Int) = height := Int.toNat_of_nonneg (by omega)
  have e2 : ((width.toNat : Nat) : Int) = width := Int.toNat_of_nonneg (by omega)
  have hpos : 0 < width * height := mul_pos (by omega) (by omega)
  have hs0 := regionSum_nonneg img x y width height f h0
  have hs1 := regionSum_le img x y width height f 255 h1
  rw [e1, e2] at hs1
  rw [e1, e2, mul_comm height width, Int.tdiv_eq_ediv hs0 (le_of_lt hpos)]
  refine ⟨rfl, Int.ediv_nonneg hs0 (le_of_lt hpos), Int.ediv_le_of_le_mul hpos ?_⟩
  rw [mul_comm width height]
  exact hs1

/-! ## Region fill -/

theorem Region.mem_mk {x y width height j i : Int} :
    (Region.mk x y width height).Mem j i ↔
      y ≤ j ∧ j < y + height ∧ x ≤ i ∧ i < x + width := Iff.rfl

theorem length_setAll (ks : List Nat) (c : Pixel) (d : List Pixel) :
    (setAll ks c d).length = d.length := by
  unfold setAll
  induction ks generalizing d with
  | nil => rfl
  | cons a ks ih => rw [List.foldl_cons, ih, List.length_set]

theorem getElem?_setAll_of_not_mem (ks : List Nat) (c : Pixel) (d : List Pixel) (k : Nat)
    (hk : k ∉ ks) : (setAll ks c d)[k]? = d[k]? := by
  unfold setAll
  induction ks generalizing d with
  | nil => rfl
  | cons a ks ih =>
    rw [List.mem_cons, not_or] at hk
    rw [List.foldl_cons, ih _ hk.2, List.getElem?_set_ne (fun e => hk.1 e.symm)]

theorem getElem?_setAll_of_mem (ks : List Nat) (c : Pixel) (d : List Pixel) (k : Nat)
    (hk : k ∈ ks) (hlen : k < d.length) : (setAll ks c d)[k]? = some c := by
  induction ks generalizing d with
  | nil => cases hk
  | cons a ks ih =>
    have hunf : setAll (a :: ks) c d = setAll ks c (d.set a c) := rfl
    rw [hunf]
    by_cases hmem : k ∈ ks
    · exact ih _ hmem (by rw [List.length_set]; exact hlen)
    · rw [getElem?_setAll_of_not_mem _ _ _ _ hmem]
      rcases List.mem_cons.1 hk with h | h
      · rw [h, List.getElem?_set, if_pos rfl, if_pos (h ▸ hlen)]
      · exact absurd h hmem

theorem fillData_eq_setAll (w : Int) (c : Pixel) (rows cols : List Int) (d : List Pixel) :
    fillData w c rows cols d = setAll (cellIndices w rows cols) c d := by
  unfold fillData setAll cellIndices
  induction rows generalizing d with
  | nil => rfl
  | cons j rows ih =>
    rw [List.foldl_cons, ih, List.flatMap_cons, List.foldl_append, List.foldl_map]

theorem mem_cellIndices {w : Int} {rows cols : List Int} {k : Nat} :
    k ∈ cellIndices w rows cols ↔ ∃ j ∈ rows, ∃ i ∈ cols, (j * w + i).toNat = k := by
  unfold cellIndices
  simp only [List.mem_flatMap, List.mem_map]

/-- A fold commutes with a projection of the state that the step respects. -/
theorem foldl_proj_eq {σ τ α : Type} (ψ : σ → τ) (g : σ → α → σ) (g' : τ → α → τ)
    (h : ∀ s a, ψ (g s a) = g' (ψ s) a) (l : List α) (s : σ) :
    ψ (l.foldl g s) = l.foldl g' (ψ s) := by
  induction l generalizing s with
  | nil => rfl
  | cons a l ih => rw [List.foldl_cons, List.foldl_cons, ih, h]

/-- Two positions with columns inside the image and the same store index are the
same position. -/
theorem cell_index_inj {w j i j' i' : Int} (hi : 0 ≤ i) (hi2 : i < w) (hi' : 0 ≤ i')
    (hi2' : i' < w) (h : j * w + i = j' * w + i') : j = j' ∧ i = i' := by
  have hj : j = j' := by
    rcases lt_trichotomy j j' with hlt | heq | hgt
    · exfalso
      have : (j' - j - 1) * w ≥ 0 := mul_nonneg (by omega) (by omega)
      nlinarith
    · exact heq
    · exfalso
      have : (j - j' - 1) * w ≥ 0 := mul_nonneg (by omega) (by omega)
      nlinarith
  subst hj
  exact ⟨rfl, by omega⟩

/-- On a region inside the image `fillRegion` runs to completion and only
rewrites the store, as `fillData` does. -/
theorem fillRegion_eq {img : Image} {x y width height : Int}
    (hb : InBounds img x y width height) (c : Pixel) :
    fillRegion img x y width height c =
      .ok { img with
        data := fillData img.width c (span y height.toNat) (span x width.toNat) img.data } := by
  have e1 : (y + height - y).toNat = height.toNat := by congr 1; omega
  have e2 : (x + width - x).toNat = width.toNat := by congr 1; omega
  let P : Image → Prop := fun s =>
    s.width = img.width ∧ s.height = img.height ∧ s.data.length = img.data.length
  let inner : Image → Int → Int → Image := fun s j i =>
    { s with data := s.data.set (j * img.width + i).toNat c }
  let outer : Image → Int → Image := fun s j => (span x width.toNat).foldl (fun s i => inner s j i) s
  have hinner : ∀ j, j ∈ span y height.toNat → ∀ s, P s →
      forLoop x (x + width) (fun im i => im.store (j * im.width + i) c) s = .ok (outer s j) ∧
        P (outer s j) := by
    intro j hj s hs
    rw [forLoop_eq_span, e2]
    refine foldlM_ok_of_inv P _ _ _ s hs ?_
    intro s' i hi hs'
    rw [mem_span] at hj hi
    obtain ⟨h0, h1⟩ := index_in_store hb hj.1 (by omega) hi.1 (by omega)
    obtain ⟨hw', hh', hl'⟩ := hs'
    refine ⟨?_, ⟨hw', hh', by simp only [inner, List.length_set]; exact hl'⟩⟩
    have e : j * s'.width + i = j * img.width + i := by rw [hw']
    unfold Image.store
    rw [e, if_pos ⟨h0, by omega⟩]
  have houter : forLoop y (y + height) (fun im j =>
      forLoop x (x + width) (fun im i => im.store (j * im.width + i) c) im) img =
        .ok ((span y height.toNat).foldl outer img) := by
    rw [forLoop_eq_span, e1]
    exact (foldlM_ok_of_inv P _ _ _ img ⟨rfl, rfl, rfl⟩
      (fun s j hj hs => hinner j hj s hs)).1
  unfold fillRegion
  rw [houter]
  have hwid : ((span y height.toNat).foldl outer img).width = img.width :=
    foldl_proj_eq Image.width outer (fun w _ => w)
      (fun s j => foldl_proj_eq Image.width (fun s i => inner s j i) (fun w _ => w)
        (fun _ _ => rfl) _ s |>.trans (by induction (span x width.toNat) <;> simp_all))
      _ img |>.trans (by induction (span y height.toNat) <;> simp_all)
  have hhei : ((span y height.toNat).foldl outer img).height = img.height :=
    foldl_proj_eq Image.height outer (fun w _ => w)
      (fun s j => foldl_proj_eq Image.height (fun s i => inner s j i) (fun w _ => w)
        (fun _ _ => rfl) _ s |>.trans (by induction (span x width.toNat) <;> simp_all))
      _ img |>.trans (by induction (span y height.toNat) <;> simp_all)
  have hdat : ((span y height.toNat).foldl outer img).data =
      fillData img.width c (span y height.toNat) (span x width.toNat) img.data :=
    foldl_proj_eq Image.data outer
      (fun d j => (span x width.toNat).foldl (fun d i => d.set (j * img.width + i).toNat c) d)
      (fun s j => foldl_proj_eq Image.data (fun s i => inner s j i)
        (fun d i => d.set (j * img.width + i).toNat c) (fun _ _ => rfl) _ s) _ img
  congr 1
  cases hres : (span y height.toNat).foldl outer img with
  | mk w' h' d' =>
    rw [hres] at hwid hhei hdat
    simp only at hwid hhei hdat
    rw [hwid, hhei, hdat]

/-- What `fillRegion` does on a region inside the image: the shape is kept,
every position of the region holds the colour, every other position of the
image is as before. -/
theorem fillRegion_spec {img : Image} {x y width height : Int}
    (hb : InBounds img x y width height) (c : Pixel) :
    ∃ img', fillRegion img x y width height c = .ok img' ∧ SameShape img img' ∧
      (∀ j i, (Region.mk x y width height).Mem j i →
        img'.load (j * img'.width + i) = .ok c) ∧
      (∀ j i, 0 ≤ j → 0 ≤ i → i < img.width → ¬ (Region.mk x y width height).Mem j i →
        img'.load (j * img'.width + i) = img.load (j * img.width + i)) := by
  refine ⟨_, fillRegion_eq hb c, ⟨rfl, rfl, ?_⟩, ?_, ?_⟩
  · simp only [fillData_eq_setAll, length_setAll]
  · intro j i hm
    obtain ⟨hj, hj2, hi, hi2⟩ := Region.mem_mk.1 hm
    obtain ⟨h0, h1⟩ := index_in_store hb hj hj2 hi hi2
    have hmem : (j * img.width + i).toNat ∈
        cellIndices img.width (span y height.toNat) (span x width.toNat) :=
      mem_cellIndices.2 ⟨j, mem_span.2 (by omega), i, mem_span.2 (by omega), rfl⟩
    unfold Image.load
    simp only
    rw [if_pos h0, fillData_eq_setAll, getElem?_setAll_of_mem _ _ _ _ hmem (by omega)]
  · intro j i hj hi hi2 hnot
    have hnmem : (j * img.width + i).toNat ∉
        cellIndices img.width (span y height.toNat) (span x width.toNat) := by
      rw [mem_cellIndices]
      rintro ⟨j', hj', i', hi', e⟩
      rw [mem_span] at hj' hi'
      obtain ⟨h0, _⟩ := index_in_store hb hj'.1 (by omega) hi'.1 (by omega)
      have hW : 0 ≤ img.width := by omega
      have h0' : 0 ≤ j * img.width + i := add_nonneg (mul_nonneg hj hW) hi
      have hx : 0 ≤ x := hb.2.1
      have hxw : x + width ≤ img.width := hb.2.2.2.1
      have e' : j' * img.width + i' = j * img.width + i := by omega
      obtain ⟨rfl, rfl⟩ := cell_index_inj (by omega) (by omega) hi hi2 e'
      exact hnot (Region.mem_mk.2 ⟨hj'.1, by omega, hi'.1, by omega⟩)
    unfold Image.load
    simp only
    rw [fillData_eq_setAll, getElem?_setAll_of_not_mem _ _ _ _ hnmem]

theorem regionSum_congr {img img' : Image} {x y width height : Int} {f g : Pixel → Int}
    (h : ∀ j i, (Region.mk x y width height).Mem j i → f (img.pixelAt j i) = g (img'.pixelAt j i)) :
    regionSum img x y width height f = regionSum img' x y width height g := by
  unfold regionSum
  refine Finset.sum_congr rfl (fun j hj => Finset.sum_congr rfl (fun i hi => ?_))
  rw [Finset.mem_Ico] at hj hi
  exact h j i (Region.mem_mk.2 ⟨hj.1, hj.2, hi.1, hi.2⟩)

theorem regionSum_const (img : Image) (x y width height : Int) (v : Int) :
    regionSum img x y width height (fun _ => v) =
      v * ((height.toNat : Int) * (width.toNat : Int)) := by
  unfold regionSum
  simp [Finset.sum_const, Int.card_Ico]
  ring

/-- Statistics of a region in which every pixel is `c`. -/
theorem uniform_stats (img : Image) (x y width height : Int) (c : Pixel)
    (hb : InBounds img x y width height) (hw : 1 ≤ width) (hh : 1 ≤ height)
    (hunif : ∀ j i, y ≤ j → j < y + height → x ≤ i → i < x + width →
      img.load (j * img.width + i) = .ok c) :
    calculateAverage img x y width height = .ok c ∧
      calculateVariance img x y width height c = .ok 0 := by
  have hpix : ∀ j i, (Region.mk x y width height).Mem j i → img.pixelAt j i = c := by
    intro j i hm
    obtain ⟨h1, h2, h3, h4⟩ := Region.mem_mk.1 hm
    unfold Image.pixelAt
    rw [hunif j i h1 h2 h3 h4]
  have e1 : ((height.toNat : Nat) : Int) = height := Int.toNat_of_nonneg (by omega)
  have e2 : ((width.toNat : Nat) : Int) = width := Int.toNat_of_nonneg (by omega)
  have hpos : 0 < height * width := mul_pos (by omega) (by omega)
  have hsum : ∀ f : Pixel → Int,
      regionSum img x y width height f = f c * (height * width) := by
    intro f
    rw [@regionSum_congr img img x y width height f (fun _ => f c)
        (fun j i hm => by rw [hpix j i hm]),
      regionSum_const, e1, e2]
  have hdiv : ∀ v : Fin 256, toUChar (Int.tdiv ((v.val : Int) * (height * width)) (height * width))
      = v := by
    intro v
    have hv := v.isLt
    rw [Int.tdiv_eq_ediv (mul_nonneg (by omega) (le_of_lt hpos)) (le_of_lt hpos),
      Int.mul_ediv_cancel _ (ne_of_gt hpos)]
    apply Fin.ext
    have := toUChar_of_range (v := (v.val : Int)) (by omega) (by omega)
    omega
  constructor
  · rw [calculateAverage_eq hb, e1, e2, if_neg (ne_of_gt hpos), hsum, hsum, hsum]
    simp only [hdiv]
  · rw [calculateVariance_eq hb, e1, e2,
      if_neg (ne_of_gt (mul_pos hpos (by norm_num : (0 : Int) < 3))), hsum]
    simp [sqDev, roundDouble_zero]

/-! ## The recursion -/

theorem tdiv_two {w : Int} (h : 0 ≤ w) : Int.tdiv w 2 = w / 2 :=
  Int.tdiv_eq_ediv h (by norm_num)

theorem denoisingTraced_leaf (n : Nat) (img : Image) (x y width height : Int) (t : ℚ)
    (hsmall : width ≤ 1 ∨ height ≤ 1) :
    denoisingTraced (n + 1) img x y width height t =
      .ok (img, [.leaf ⟨x, y, width, height⟩]) := by
  unfold denoisingTraced
  rw [if_pos hsmall]

theorem denoisingTraced_fill (n : Nat) (img : Image) (x y width height : Int) (t : ℚ)
    (hbig : ¬ (width ≤ 1 ∨ height ≤ 1)) {avg : Pixel} {v : ℚ}
    (havg : calculateAverage img x y width height = .ok avg)
    (hvar : calculateVariance img x y width height avg = .ok v) (hlt : v < t) :
    denoisingTraced (n + 1) img x y width height t =
      (fillRegion img x y width height avg >>= fun im =>
        pure (im, [.fill ⟨x, y, width, height⟩ avg])) := by
  unfold denoisingTraced
  rw [if_neg hbig, havg, ok_bind, hvar, ok_bind, if_pos hlt]

theorem denoisingTraced_split (n : Nat) (img : Image) (x y width height : Int) (t : ℚ)
    (hbig : ¬ (width ≤ 1 ∨ height ≤ 1)) {avg : Pixel} {v : ℚ}
    (havg : calculateAverage img x y width height = .ok avg)
    (hvar : calculateVariance img x y width height avg = .ok v) (hge : ¬ v < t) :
    denoisingTraced (n + 1) img x y width height t =
      (childRegions x y width height).foldlM
        (visitChild (fun im c => denoisingTraced n im c.x c.y c.width c.height t))
        (img, [.split ⟨x, y, width, height⟩]) := by
  rw [denoisingTraced]
  rw [if_neg hbig, havg, ok_bind, hvar, ok_bind, if_neg hge]
  simp only [childRegions, List.foldlM_cons, List.foldlM_nil, visitChild, bind_assoc, pure_bind,
    List.append_assoc, List.singleton_append, List.cons_append, List.nil_append]

/-- The subdividing branch of `denoisingSequentialFuel` runs the recursion on the
regions of `childRegions`, in order, each call on the image left by the one
before. -/
theorem denoisingSequentialFuel_split (n : Nat) (img : Image) (x y width height : Int) (t : ℚ)
    (hbig : ¬ (width ≤ 1 ∨ height ≤ 1)) {avg : Pixel} {v : ℚ}
    (havg : calculateAverage img x y width height = .ok avg)
    (hvar : calculateVariance img x y width height avg = .ok v) (hge : ¬ v < t) :
    denoisingSequentialFuel (n + 1) img x y width height t =
      (childRegions x y width height).foldlM
        (fun im c => denoisingSequentialFuel n im c.x c.y c.width c.height t) img := by
  rw [denoisingSequentialFuel]
  rw [if_neg hbig, havg, ok_bind, hvar, ok_bind, if_neg hge]
  simp only [childRegions, List.foldlM_cons, List.foldlM_nil, bind_pure]

/-! ### The four children of a region -/

theorem mem_childRegions {x y width height : Int} {c : Region} :
    c ∈ childRegions x y width height ↔
      c = ⟨x, y, Int.tdiv width 2, Int.tdiv height 2⟩ ∨
      c = ⟨x + Int.tdiv width 2, y, Int.tdiv width 2, Int.tdiv height 2⟩ ∨
      c = ⟨x, y + Int.tdiv height 2, Int.tdiv width 2, Int.tdiv height 2⟩ ∨
      c = ⟨x + Int.tdiv width 2, y + Int.tdiv height 2, Int.tdiv width 2, Int.tdiv height 2⟩ := by
  simp [childRegions]

/-- Size and position of a child of a region with non-negative extents. -/
theorem child_shape {x y width height : Int} (hw : 0 ≤ width) (hh : 0 ≤ height) {c : Region}
    (hc : c ∈ childRegions x y width height) :
    c.width = width / 2 ∧ c.height = height / 2 ∧ (c.x = x ∨ c.x = x + width / 2) ∧
      (c.y = y ∨ c.y = y + height / 2) := by
  rw [mem_childRegions, tdiv_two hw, tdiv_two hh] at hc
  rcases hc with rfl | rfl | rfl | rfl <;> simp

theorem child_within {x y width height : Int} (hw : 0 ≤ width) (hh : 0 ≤ height) {c : Region}
    (hc : c ∈ childRegions x y width height) : c.Within ⟨x, y, width, height⟩ := by
  obtain ⟨h1, h2, h3, h4⟩ := child_shape hw hh hc
  intro j i hm
  unfold Region.Mem at hm ⊢
  simp only
  omega

theorem child_inBounds {img : Image} {x y width height : Int}
    (hb : InBounds img x y width height) (hw : 0 ≤ width) (hh : 0 ≤ height) {c : Region}
    (hc : c ∈ childRegions x y width height) : InBounds img c.x c.y c.width c.height := by
  obtain ⟨h1, h2, h3, h4⟩ := child_shape hw hh hc
  obtain ⟨hlen, hx, hy, hxw, hyh⟩ := hb
  refine ⟨hlen, ?_, ?_, ?_, ?_⟩ <;> omega

theorem child_fuel {x y width height : Int} (hw : 2 ≤ width) (hh : 0 ≤ height) {c : Region}
    (hc : c ∈ childRegions x y width height) {n : Nat} (hn : width.toNat < n + 1) :
    c.width.toNat < n := by
  obtain ⟨h1, _, _, _⟩ := child_shape (by omega) hh hc
  omega

theorem children_disjoint {x y width height : Int} (hw : 0 ≤ width) (hh : 0 ≤ height) :
    (childRegions x y width height).Pairwise Region.Disjoint := by
  unfold childRegions
  rw [tdiv_two hw, tdiv_two hh]
  simp only [List.pairwise_cons, List.mem_cons, List.mem_singleton, List.not_mem_nil,
    forall_eq_or_imp, forall_eq, IsEmpty.forall_iff, implies_true, List.Pairwise.nil, and_true]
  unfold Region.Disjoint Region.Mem
  simp only
  refine ⟨⟨?_, ?_, ?_⟩, ⟨?_, ?_⟩, ?_⟩ <;> intro j i <;> omega

/-! ### Shapes, frames and agreement -/

theorem SameShape.same_refl (img : Image) : SameShape img img := ⟨rfl, rfl, rfl⟩

theorem SameShape.same_trans {a b c : Image} (h1 : SameShape a b) (h2 : SameShape b c) :
    SameShape a c :=
  ⟨h2.1.trans h1.1, h2.2.1.trans h1.2.1, h2.2.2.trans h1.2.2⟩

theorem InBounds.of_sameShape {a b : Image} {x y width height : Int} (h : SameShape a b)
    (hb : InBounds a x y width height) : InBounds b x y width height := by
  obtain ⟨h1, h2, h3⟩ := h
  unfold InBounds at hb ⊢
  rw [h1, h2, h3]
  exact hb

theorem Frame.frame_refl (r : Region) (img : Image) : Frame r img img :=
  ⟨SameShape.same_refl img, fun _ _ _ _ _ _ => rfl⟩

theorem Frame.frame_trans {r : Region} {a b c : Image} (h1 : Frame r a b) (h2 : Frame r b c) :
    Frame r a c := by
  refine ⟨h1.1.same_trans h2.1, fun j i hj hi hi2 hn => ?_⟩
  rw [h2.2 j i hj hi (by rw [h1.1.1]; exact hi2) hn, h1.2 j i hj hi hi2 hn]

theorem Frame.widen {c r : Region} {a b : Image} (h : Frame c a b) (hcr : c.Within r) :
    Frame r a b :=
  ⟨h.1, fun j i hj hi hi2 hn => h.2 j i hj hi hi2 (fun hm => hn (hcr j i hm))⟩

/-- A change inside `c` is not seen on a region of the image disjoint from `c`. -/
theorem Frame.agreeOn {c r : Region} {a b : Image} (h : Frame c a b)
    (hb : InBounds a r.x r.y r.width r.height) (hd : Region.Disjoint c r) : AgreeOn r a b := by
  intro j i hm
  obtain ⟨_, hx, hy, hxw, hyh⟩ := hb
  have hm' := hm
  unfold Region.Mem at hm'
  exact h.2 j i (by omega) (by omega) (by omega) (fun hc => hd j i ⟨hc, hm⟩)

theorem AgreeOn.agree_trans {r : Region} {a b c : Image} (h1 : AgreeOn r a b) (h2 : AgreeOn r b c) :
    AgreeOn r a c :=
  fun j i hm => (h2 j i hm).trans (h1 j i hm)

theorem AgreeOn.restrict {c r : Region} {a b : Image} (h : AgreeOn r a b) (hcr : c.Within r) :
    AgreeOn c a b :=
  fun j i hm => h j i (hcr j i hm)

theorem AgreeOn.pixelAt {r : Region} {a b : Image} (h : AgreeOn r a b) {j i : Int}
    (hm : r.Mem j i) : b.pixelAt j i = a.pixelAt j i := by
  unfold Image.pixelAt
  rw [h j i hm]

/-- The statistics of a region only depend on the pixels of the region. -/
theorem stats_congr {a b : Image} {x y width height : Int}
    (hb : InBounds a x y width height) (hs : SameShape a b)
    (hag : AgreeOn ⟨x, y, width, height⟩ a b) :
    calculateAverage b x y width height = calculateAverage a x y width height ∧
      ∀ avg, calculateVariance b x y width height avg =
        calculateVariance a x y width height avg := by
  have hb' := hb.of_sameShape hs
  have hsum : ∀ f : Pixel → Int,
      regionSum b x y width height f = regionSum a x y width height f :=
    fun f => regionSum_congr (fun j i hm => by rw [hag.pixelAt hm])
  constructor
  · rw [calculateAverage_eq hb, calculateAverage_eq hb', hsum, hsum, hsum]
  · intro avg
    rw [calculateVariance_eq hb, calculateVariance_eq hb', hsum]

/-- The plan below a region only depends on the pixels of the region. -/
theorem plan_congr (n : Nat) (t : ℚ) : ∀ (a b : Image) (r : Region),
    InBounds a r.x r.y r.width r.height → SameShape a b → AgreeOn r a b →
      plan n b r t = plan n a r t := by
  induction n with
  | zero => intro a b r _ _ _; rfl
  | succ n ih =>
    intro a b r hb hs hag
    obtain ⟨havg, hvar⟩ := stats_congr hb hs hag
    unfold plan
    by_cases hsmall : r.width ≤ 1 ∨ r.height ≤ 1
    · rw [if_pos hsmall, if_pos hsmall]
    · rw [if_neg hsmall, if_neg hsmall, havg]
      have hw : 0 ≤ r.width := by omega
      have hh : 0 ≤ r.height := by omega
      have hflat : (childRegions r.x r.y r.width r.height).flatMap (fun c => plan n b c t) =
          (childRegions r.x r.y r.width r.height).flatMap (fun c => plan n a c t) := by
        have hall : ∀ c ∈ childRegions r.x r.y r.width r.height, plan n b c t = plan n a c t :=
          fun c hc => ih a b c (child_inBounds hb hw hh hc) hs (hag.restrict (child_within hw hh hc))
        generalize childRegions r.x r.y r.width r.height = cs at hall
        induction cs with
        | nil => rfl
        | cons c cs ihc =>
          rw [List.flatMap_cons, List.flatMap_cons, hall c (List.mem_cons_self c cs),
            ihc (fun c' hc' => hall c' (List.mem_cons_of_mem c hc'))]
      cases calculateAverage a r.x r.y r.width r.height with
      | error e => rfl
      | ok avg =>
        simp only
        rw [hvar avg, hflat]

/-! ### The traced run follows the plan -/

theorem applyVisits_append (vs ws : List Visit) (img : Image) :
    applyVisits (vs ++ ws) img = applyVisits ws (applyVisits vs img) := by
  unfold applyVisits
  rw [List.foldl_append]

theorem calculateAverage_ok {img : Image} {x y width height : Int}
    (hb : InBounds img x y width height) (hw : 1 ≤ width) (hh : 1 ≤ height) :
    ∃ avg, calculateAverage img x y width height = .ok avg := by
  have e1 : ((height.toNat : Nat) : Int) = height := Int.toNat_of_nonneg (by omega)
  have e2 : ((width.toNat : Nat) : Int) = width := Int.toNat_of_nonneg (by omega)
  have hpos : 0 < height * width := mul_pos (by omega) (by omega)
  exact ⟨_, by rw [calculateAverage_eq hb, e1, e2, if_neg (ne_of_gt hpos)]⟩

theorem calculateVariance_ok {img : Image} {x y width height : Int}
    (hb : InBounds img x y width height) (hw : 1 ≤ width) (hh : 1 ≤ height) (avg : Pixel) :
    ∃ v, calculateVariance img x y width height avg = .ok v := by
  have e1 : ((height.toNat : Nat) : Int) = height := Int.toNat_of_nonneg (by omega)
  have e2 : ((width.toNat : Nat) : Int) = width := Int.toNat_of_nonneg (by omega)
  have hpos : 0 < height * width * 3 := mul_pos (mul_pos (by omega) (by omega)) (by norm_num)
  exact ⟨_, by rw [calculateVariance_eq hb, e1, e2, if_neg (ne_of_gt hpos)]⟩

/-- On a region whose `count * 3` is in the range of `int`, `calculateVariance` is the
rounded quotient of the sum of the squared deviations by `width * height * 3`. -/
theorem calculateVariance_value {img : Image} {x y width height : Int}
    (hb : InBounds img x y width height) (hw : 1 ≤ width) (hh : 1 ≤ height)
    (hsize : width * height * 3 < 2 ^ 31) (avg : Pixel) :
    calculateVariance img x y width height avg =
      .ok (roundDouble (((regionSum img x y width height (sqDev avg) : Int) : ℚ) /
        ((width * height * 3 : Int) : ℚ))) := by
  have e1 : ((height.toNat : Nat) : Int) = height := Int.toNat_of_nonneg (by omega)
  have e2 : ((width.toNat : Nat) : Int) = width := Int.toNat_of_nonneg (by omega)
  have hpos : 0 < width * height * 3 := mul_pos (mul_pos (by omega) (by omega)) (by norm_num)
  rw [calculateVariance_eq hb, e1, e2, mul_comm height width, if_neg (ne_of_gt hpos),
    wrapInt_of_range (by omega) (by omega)]

/-- On a region whose `count * 3` is in the range of `int`, the variance is not
negative. -/
theorem calculateVariance_nonneg {img : Image} {x y width height : Int}
    (hb : InBounds img x y width height) (hw : 1 ≤ width) (hh : 1 ≤ height)
    (hsize : width * height * 3 < 2 ^ 31) (avg : Pixel) :
    ∃ v, calculateVariance img x y width height avg = .ok v ∧ 0 ≤ v := by
  have hpos : 0 < width * height * 3 := mul_pos (mul_pos (by omega) (by omega)) (by norm_num)
  refine ⟨_, calculateVariance_value hb hw hh hsize avg, roundDouble_nonneg (div_nonneg ?_ ?_)⟩
  · exact_mod_cast regionSum_nonneg img x y width height _ (sqDev_nonneg avg)
  · exact_mod_cast le_of_lt hpos

/-- A region inside the image has no more pixels than the image. -/
theorem region_size_le {img : Image} {x y width height : Int}
    (hb : InBounds img x y width height) (hw : 0 ≤ width) (hh : 0 ≤ height) :
    width * height ≤ img.width * img.height := by
  obtain ⟨_, hx, hy, hxw, hyh⟩ := hb
  exact mul_le_mul (by omega) (by omega) hh (by omega)

/-- The sequence of recursive calls on a list of pairwise disjoint regions of the
image: when every single call follows its plan and stays inside its region, the
whole sequence follows the plans taken on the initial image. -/
theorem children_loop (run : Image → Region → Except Fault (Image × List Visit))
    (pl : Image → Region → List Visit) (img : Image) (R : Region) :
    ∀ cs : List Region,
      (∀ c im, c ∈ cs → InBounds im c.x c.y c.width c.height →
        run im c = .ok (applyVisits (pl im c) im, pl im c) ∧
          Frame c im (applyVisits (pl im c) im)) →
      (∀ c im, c ∈ cs → InBounds img c.x c.y c.width c.height → SameShape img im →
        AgreeOn c img im → pl im c = pl img c) →
      (∀ c ∈ cs, InBounds img c.x c.y c.width c.height ∧ c.Within R) →
      cs.Pairwise Region.Disjoint →
      ∀ s : Image × List Visit, SameShape img s.1 → (∀ c ∈ cs, AgreeOn c img s.1) →
        cs.foldlM (visitChild run) s =
            .ok (applyVisits (cs.flatMap (pl img)) s.1, s.2 ++ cs.flatMap (pl img)) ∧
          Frame R s.1 (applyVisits (cs.flatMap (pl img)) s.1) := by
  intro cs
  induction cs with
  | nil =>
    intro _ _ _ _ s _ _
    refine ⟨?_, Frame.frame_refl R s.1⟩
    simp only [List.foldlM_nil, List.flatMap_nil, List.append_nil]
    rfl
  | cons c cs ih =>
    intro hrun hloc hin hdisj s hshape hagree
    have hc : c ∈ c :: cs := List.mem_cons_self c cs
    obtain ⟨hbc, hwithin⟩ := hin c hc
    have hbs : InBounds s.1 c.x c.y c.width c.height := hbc.of_sameShape hshape
    obtain ⟨hr, hframe⟩ := hrun c s.1 hc hbs
    have hpl : pl s.1 c = pl img c := hloc c s.1 hc hbc hshape (hagree c hc)
    rw [hpl] at hr hframe
    rw [List.pairwise_cons] at hdisj
    have hshape' : SameShape img (applyVisits (pl img c) s.1) := hshape.same_trans hframe.1
    have hagree' : ∀ c' ∈ cs, AgreeOn c' img (applyVisits (pl img c) s.1) := by
      intro c' hc'
      have h1 : AgreeOn c' img s.1 := hagree c' (List.mem_cons_of_mem c hc')
      have hb' : InBounds s.1 c'.x c'.y c'.width c'.height :=
        (hin c' (List.mem_cons_of_mem c hc')).1.of_sameShape hshape
      exact h1.agree_trans (hframe.agreeOn hb' (hdisj.1 c' hc'))
    obtain ⟨hrest, hframe'⟩ := ih
      (fun c' im hc' => hrun c' im (List.mem_cons_of_mem c hc'))
      (fun c' im hc' => hloc c' im (List.mem_cons_of_mem c hc'))
      (fun c' hc' => hin c' (List.mem_cons_of_mem c hc'))
      hdisj.2 (applyVisits (pl img c) s.1, s.2 ++ pl img c) hshape' hagree'
    have hstep : visitChild run s c = .ok (applyVisits (pl img c) s.1, s.2 ++ pl img c) := by
      unfold visitChild
      rw [hr]
      rfl
    constructor
    · rw [List.foldlM_cons, hstep, ok_bind, hrest, List.flatMap_cons, applyVisits_append,
        List.append_assoc]
    · rw [List.flatMap_cons, applyVisits_append]
      exact (hframe.widen hwithin).frame_trans hframe'

/-- On a region inside the image and with enough fuel, the traced run succeeds,
its log is the plan, its image is the plan applied to the input, and nothing
outside the region changes. -/
theorem denoisingTraced_eq_plan (t : ℚ) : ∀ (n : Nat) (img : Image) (x y width height : Int),
    InBounds img x y width height → width.toNat < n →
      denoisingTraced n img x y width height t =
          .ok (applyVisits (plan n img ⟨x, y, width, height⟩ t) img,
            plan n img ⟨x, y, width, height⟩ t) ∧
        Frame ⟨x, y, width, height⟩ img
          (applyVisits (plan n img ⟨x, y, width, height⟩ t) img) := by
  intro n
  induction n with
  | zero => intro img x y width height _ hn; omega
  | succ n ih =>
    intro img x y width height hb hn
    by_cases hsmall : width ≤ 1 ∨ height ≤ 1
    · have hp : plan (n + 1) img ⟨x, y, width, height⟩ t = [.leaf ⟨x, y, width, height⟩] := by
        unfold plan
        rw [if_pos hsmall]
      rw [hp, denoisingTraced_leaf n img x y width height t hsmall]
      exact ⟨rfl, Frame.frame_refl _ _⟩
    · have hw : 2 ≤ width := by omega
      have hh : 2 ≤ height := by omega
      obtain ⟨avg, havg⟩ := calculateAverage_ok hb (by omega) (by omega)
      obtain ⟨v, hvar⟩ := calculateVariance_ok hb (by omega) (by omega) avg
      by_cases hlt : v < t
      · have hp : plan (n + 1) img ⟨x, y, width, height⟩ t =
            [.fill ⟨x, y, width, height⟩ avg] := by
          unfold plan
          simp only
          rw [if_neg hsmall, havg]
          simp only
          rw [hvar]
          simp only
          rw [if_pos hlt]
        obtain ⟨img', hfill, hshape, _, hout⟩ := fillRegion_spec hb avg
        have himg' : img' = fillImage img ⟨x, y, width, height⟩ avg := by
          rw [fillRegion_eq hb avg] at hfill
          exact (Except.ok.inj hfill).symm
        rw [hp, denoisingTraced_fill n img x y width height t hsmall havg hvar hlt,
          fillRegion_eq hb avg]
        refine ⟨rfl, ?_⟩
        show Frame _ img (fillImage img ⟨x, y, width, height⟩ avg)
        rw [← himg']
        exact ⟨hshape, hout⟩
      · have hp : plan (n + 1) img ⟨x, y, width, height⟩ t =
            .split ⟨x, y, width, height⟩ ::
              (childRegions x y width height).flatMap (fun c => plan n img c t) := by
          rw [plan]
          simp only
          rw [if_neg hsmall, havg]
          simp only
          rw [hvar]
          simp only
          rw [if_neg hlt]
        obtain ⟨hloop, hframe⟩ := children_loop
          (fun im c => denoisingTraced n im c.x c.y c.width c.height t)
          (fun im c => plan n im c t) img ⟨x, y, width, height⟩ (childRegions x y width height)
          (fun c im hc hbc => ih im c.x c.y c.width c.height hbc
            (child_fuel hw (by omega) hc hn))
          (fun c im _ hbc hs hag => plan_congr n t img im c hbc hs hag)
          (fun c hc => ⟨child_inBounds hb (by omega) (by omega) hc,
            child_within (by omega) (by omega) hc⟩)
          (children_disjoint (by omega) (by omega))
          (img, [.split ⟨x, y, width, height⟩]) (SameShape.same_refl img)
          (fun c _ _ _ _ => rfl)
        rw [hp, denoisingTraced_split n img x y width height t hsmall havg hvar hlt, hloop]
        exact ⟨rfl, hframe⟩

/-! ### The log is a ghost, and the fuel is enough -/

theorem map_bind_fst {α β γ : Type} (m : Except Fault (α × β)) (f : α → Except Fault γ) :
    (Except.map Prod.fst m >>= f) = (m >>= fun r => f r.1) := by
  cases m <;> rfl

theorem map_bind_out {α β γ : Type} (m : Except Fault α) (f : α → Except Fault (β × γ)) :
    Except.map Prod.fst (m >>= f) = (m >>= fun a => Except.map Prod.fst (f a)) := by
  cases m <;> rfl

/-- Dropping the log of the traced run gives `denoisingSequentialFuel`. -/
theorem denoisingTraced_fst (t : ℚ) : ∀ (n : Nat) (img : Image) (x y width height : Int),
    Except.map Prod.fst (denoisingTraced n img x y width height t) =
      denoisingSequentialFuel n img x y width height t := by
  intro n
  induction n with
  | zero => intro img x y width height; rfl
  | succ n ih =>
    intro img x y width height
    rw [denoisingTraced, denoisingSequentialFuel]
    by_cases hsmall : width ≤ 1 ∨ height ≤ 1
    · rw [if_pos hsmall, if_pos hsmall]
      rfl
    · rw [if_neg hsmall, if_neg hsmall, map_bind_out]
      congr 1
      funext avg
      rw [map_bind_out]
      congr 1
      funext v
      by_cases hlt : v < t
      · rw [if_pos hlt, if_pos hlt, map_bind_out]
        cases fillRegion img x y width height avg <;> rfl
      · rw [if_neg hlt, if_neg hlt]
        simp only [← ih, map_bind_fst, map_bind_out]
        rfl

theorem bind_ne_error {α β : Type} {m : Except Fault α} {f : α → Except Fault β} {e : Fault}
    (hm : m ≠ .error e) (hf : ∀ a, f a ≠ .error e) : (m >>= f) ≠ .error e := by
  cases m with
  | error e' =>
    intro h
    have h' : (Except.error e' : Except Fault β) = .error e := h
    cases h'
    exact hm rfl
  | ok a => exact hf a

theorem foldlM_ne_error {σ α : Type} {body : σ → α → Except Fault σ} {e : Fault}
    (hbody : ∀ s a, body s a ≠ .error e) (l : List α) :
    ∀ s, l.foldlM body s ≠ .error e := by
  induction l with
  | nil => intro s h; cases h
  | cons a l ih =>
    intro s
    rw [List.foldlM_cons]
    exact bind_ne_error (hbody s a) ih

theorem forLoop_ne_error {σ : Type} {body : σ → Int → Except Fault σ} {e : Fault}
    (hbody : ∀ s a, body s a ≠ .error e) (lo hi : Int) (s : σ) :
    forLoop lo hi body s ≠ .error e :=
  foldlM_ne_error (fun s _ => hbody s _) _ s

theorem load_ne_outOfFuel (img : Image) (k : Int) : img.load k ≠ .error .outOfFuel := by
  unfold Image.load
  split
  · split <;> simp
  · simp

theorem store_ne_outOfFuel (img : Image) (k : Int) (p : Pixel) :
    img.store k p ≠ .error .outOfFuel := by
  unfold Image.store
  split <;> simp

theorem calculateAverage_ne_outOfFuel (img : Image) (x y width height : Int) :
    calculateAverage img x y width height ≠ .error .outOfFuel := by
  unfold calculateAverage
  refine bind_ne_error (forLoop_ne_error (fun acc j => forLoop_ne_error (fun acc i =>
    bind_ne_error (load_ne_outOfFuel _ _) (fun p h => by cases h)) _ _ _) _ _ _) (fun acc => ?_)
  split
  · simp
  · intro h; cases h

theorem calculateVariance_ne_outOfFuel (img : Image) (x y width height : Int) (avg : Pixel) :
    calculateVariance img x y width height avg ≠ .error .outOfFuel := by
  unfold calculateVariance
  refine bind_ne_error (forLoop_ne_error (fun acc j => forLoop_ne_error (fun acc i =>
    bind_ne_error (load_ne_outOfFuel _ _) (fun p h => by cases h)) _ _ _) _ _ _) (fun acc => ?_)
  split
  · simp
  · intro h; cases h

theorem fillRegion_ne_outOfFuel (img : Image) (x y width height : Int) (c : Pixel) :
    fillRegion img x y width height c ≠ .error .outOfFuel :=
  forLoop_ne_error (fun _ _ => forLoop_ne_error (fun _ _ => store_ne_outOfFuel _ _ _) _ _ _) _ _ _

theorem half_fuel {width : Int} (hw : ¬ width ≤ 1) {n : Nat} (hn : width.toNat < n + 1) :
    (Int.tdiv width 2).toNat < n := by
  rw [tdiv_two (by omega)]
  omega

/-- With more than `width.toNat` units of fuel the recursion never runs out of fuel. -/
theorem denoisingSequentialFuel_ne_outOfFuel (t : ℚ) :
    ∀ (n : Nat) (img : Image) (x y width height : Int), width.toNat < n →
      denoisingSequentialFuel n img x y width height t ≠ .error .outOfFuel := by
  intro n
  induction n with
  | zero => intro img x y width height hn; omega
  | succ n ih =>
    intro img x y width height hn
    rw [denoisingSequentialFuel]
    by_cases hsmall : width ≤ 1 ∨ height ≤ 1
    · rw [if_pos hsmall]
      simp
    · rw [if_neg hsmall]
      have hf := half_fuel (fun h => hsmall (Or.inl h)) hn
      refine bind_ne_error (calculateAverage_ne_outOfFuel _ _ _ _ _) (fun avg => ?_)
      refine bind_ne_error (calculateVariance_ne_outOfFuel _ _ _ _ _ _) (fun v => ?_)
      split
      · exact fillRegion_ne_outOfFuel _ _ _ _ _ _
      · exact bind_ne_error (ih _ _ _ _ _ hf) (fun _ =>
          bind_ne_error (ih _ _ _ _ _ hf) (fun _ =>
            bind_ne_error (ih _ _ _ _ _ hf) (fun _ => ih _ _ _ _ _ hf)))

/-- One more unit of fuel than enough changes nothing. -/
theorem denoisingSequentialFuel_succ (t : ℚ) :
    ∀ (n : Nat) (img : Image) (x y width height : Int), width.toNat < n →
      denoisingSequentialFuel (n + 1) img x y width height t =
        denoisingSequentialFuel n img x y width height t := by
  intro n
  induction n with
  | zero => intro img x y width height hn; omega
  | succ n ih =>
    intro img x y width height hn
    conv_lhs => rw [denoisingSequentialFuel]
    conv_rhs => rw [denoisingSequentialFuel]
    by_cases hsmall : width ≤ 1 ∨ height ≤ 1
    · rw [if_pos hsmall, if_pos hsmall]
    · rw [if_neg hsmall, if_neg hsmall]
      have hf := half_fuel (fun h => hsmall (Or.inl h)) hn
      have ih' : ∀ (im : Image) (a b : Int),
          denoisingSequentialFuel (n + 1) im a b (Int.tdiv width 2) (Int.tdiv height 2) t =
            denoisingSequentialFuel n im a b (Int.tdiv width 2) (Int.tdiv height 2) t :=
        fun im a b => ih im a b _ _ hf
      simp only [ih']

theorem denoisingSequentialFuel_stable (t : ℚ) (img : Image) (x y width height : Int) :
    ∀ fuel, width.toNat + 1 ≤ fuel →
      denoisingSequentialFuel fuel img x y width height t =
        denoisingSequentialFuel (width.toNat + 1) img x y width height t := by
  intro fuel hfuel
  induction fuel, hfuel using Nat.le_induction with
  | base => rfl
  | succ m hm ih => rw [denoisingSequentialFuel_succ t m img x y width height (by omega), ih]

/-- The image returned on a region inside the image, and the visits made. -/
theorem denoisingSequential_eq_plan {img : Image} {x y width height : Int} (t : ℚ)
    (hb : InBounds img x y width height) :
    denoisingSequential img x y width height t =
        .ok (applyVisits (plan (width.toNat + 1) img ⟨x, y, width, height⟩ t) img) ∧
      denoisingVisits img x y width height t =
        .ok (plan (width.toNat + 1) img ⟨x, y, width, height⟩ t) ∧
      Frame ⟨x, y, width, height⟩ img
        (applyVisits (plan (width.toNat + 1) img ⟨x, y, width, height⟩ t) img) := by
  obtain ⟨h1, h2⟩ := denoisingTraced_eq_plan t (width.toNat + 1) img x y width height hb
    (by omega)
  refine ⟨?_, ?_, h2⟩
  · unfold denoisingSequential
    rw [← denoisingTraced_fst, h1]
    rfl
  · unfold denoisingVisits
    rw [h1]

/-! ### Properties of the plan -/

theorem applyVisits_of_no_fill (img : Image) :
    ∀ vs : List Visit, (∀ v ∈ vs, ∀ r c, v ≠ .fill r c) → applyVisits vs img = img := by
  intro vs
  induction vs with
  | nil => intro _; rfl
  | cons v vs ih =>
    intro h
    have hv := h v (List.mem_cons_self v vs)
    have hrest := ih (fun w hw => h w (List.mem_cons_of_mem v hw))
    unfold applyVisits at hrest ⊢
    rw [List.foldl_cons]
    cases v with
    | leaf r => exact hrest
    | fill r c => exact absurd rfl (hv r c)
    | split r => exact hrest

/-- With a negative threshold, on an image whose pixel count times 3 is in the range
of `int`, the plan holds no fill: every visit is a return at a region too small to
subdivide, or a subdivision. -/
theorem plan_negative {t : ℚ} (ht : t < 0) : ∀ (n : Nat) (img : Image) (r : Region),
    img.width * img.height * 3 < 2 ^ 31 →
    InBounds img r.x r.y r.width r.height → ∀ v ∈ plan n img r t,
      (∃ q, v = .leaf q ∧ (q.width ≤ 1 ∨ q.height ≤ 1)) ∨ (∃ q, v = .split q) := by
  intro n
  induction n with
  | zero => intro img r _ _ v hv; cases hv
  | succ n ih =>
    intro img r hsize hb v hv
    rw [plan] at hv
    by_cases hsmall : r.width ≤ 1 ∨ r.height ≤ 1
    · rw [if_pos hsmall] at hv
      exact Or.inl ⟨r, List.mem_singleton.1 hv, hsmall⟩
    · obtain ⟨avg, havg⟩ := calculateAverage_ok hb (by omega) (by omega)
      have hle := region_size_le hb (by omega) (by omega)
      obtain ⟨var, hvar, hpos⟩ :=
        calculateVariance_nonneg hb (by omega) (by omega) (by omega) avg
      rw [if_neg hsmall, havg] at hv
      simp only at hv
      rw [hvar] at hv
      simp only at hv
      rw [if_neg (not_lt.2 (le_trans (le_of_lt ht) hpos)), List.mem_cons] at hv
      rcases hv with rfl | hv
      · exact Or.inr ⟨r, rfl⟩
      · obtain ⟨c, hc, hvc⟩ := List.mem_flatMap.1 hv
        exact ih img c hsize (child_inBounds hb (by omega) (by omega) hc) v hvc

/-- Every visit of a plan is at the root or below it, and a region that is
filled or subdivided has at least two columns and two rows. -/
theorem plan_descends (t : ℚ) : ∀ (n : Nat) (img : Image) (r : Region), ∀ v ∈ plan n img r t,
    Descends v.region r ∧
      ((∀ q, v ≠ .leaf q) → 2 ≤ v.region.width ∧ 2 ≤ v.region.height) := by
  intro n
  induction n with
  | zero => intro img r v hv; cases hv
  | succ n ih =>
    intro img r v hv
    rw [plan] at hv
    by_cases hsmall : r.width ≤ 1 ∨ r.height ≤ 1
    · rw [if_pos hsmall, List.mem_singleton] at hv
      subst hv
      exact ⟨Descends.refl r, fun h => absurd rfl (h r)⟩
    · rw [if_neg hsmall] at hv
      have hw : 2 ≤ r.width := by omega
      have hh : 2 ≤ r.height := by omega
      cases havg : calculateAverage img r.x r.y r.width r.height with
      | error e => rw [havg] at hv; cases hv
      | ok avg =>
        rw [havg] at hv
        simp only at hv
        cases hvar : calculateVariance img r.x r.y r.width r.height avg with
        | error e => rw [hvar] at hv; cases hv
        | ok var =>
          rw [hvar] at hv
          simp only at hv
          by_cases hlt : var < t
          · rw [if_pos hlt, List.mem_singleton] at hv
            subst hv
            exact ⟨Descends.refl r, fun _ => ⟨hw, hh⟩⟩
          · rw [if_neg hlt, List.mem_cons] at hv
            rcases hv with rfl | hv
            · exact ⟨Descends.refl r, fun _ => ⟨hw, hh⟩⟩
            · obtain ⟨c, hc, hvc⟩ := List.mem_flatMap.1 hv
              obtain ⟨h1, h2⟩ := ih img c v hvc
              exact ⟨Descends.child hw hh hc h1, h2⟩

/-- A descendant lies inside its ancestor and, unless it is the ancestor itself,
is narrower. -/
theorem Descends.within_and_narrower {r p : Region} (h : Descends r p) :
    r.Within p ∧ (r = p ∨ r.width < p.width) := by
  induction h with
  | refl => exact ⟨fun _ _ hm => hm, Or.inl rfl⟩
  | @child c p hw hh hc _ ih =>
    obtain ⟨hin, hnar⟩ := ih
    have hcp : c.Within ⟨p.x, p.y, p.width, p.height⟩ := child_within (by omega) (by omega) hc
    obtain ⟨hcw, _, _, _⟩ := child_shape (by omega : (0 : Int) ≤ p.width) (by omega) hc
    refine ⟨fun j i hm => hcp j i (hin j i hm), Or.inr ?_⟩
    rcases hnar with rfl | hlt
    · omega
    · omega

theorem Region.Disjoint.symm : Symmetric Region.Disjoint :=
  fun _ _ h j i hm => h j i ⟨hm.2, hm.1⟩

/-- A region with a pixel cannot lie inside two disjoint regions. -/
theorem not_within_disjoint {r a b : Region} (hw : 1 ≤ r.width) (hh : 1 ≤ r.height)
    (ha : r.Within a) (hb : r.Within b) (hd : Region.Disjoint a b) : False := by
  have hm : r.Mem r.y r.x := by
    unfold Region.Mem
    omega
  exact hd r.y r.x ⟨ha _ _ hm, hb _ _ hm⟩

/-- Raising the threshold coarsens the plan: a region filled under `t1` lies at
or below a region filled under `t2`, and is not subdivided under `t2`. -/
theorem plan_mono {t1 t2 : ℚ} (hle : t1 ≤ t2) : ∀ (n : Nat) (img : Image) (R r : Region)
    (a : Pixel), .fill r a ∈ plan n img R t1 →
      (∃ r' a', .fill r' a' ∈ plan n img R t2 ∧ Descends r r') ∧
        .split r ∉ plan n img R t2 := by
  intro n
  induction n with
  | zero => intro img R r a hmem; cases hmem
  | succ n ih =>
    intro img R r a hmem
    rw [plan] at hmem ⊢
    by_cases hsmall : R.width ≤ 1 ∨ R.height ≤ 1
    · rw [if_pos hsmall, List.mem_singleton] at hmem
      cases hmem
    · rw [if_neg hsmall] at hmem ⊢
      have hw : 2 ≤ R.width := by omega
      have hh : 2 ≤ R.height := by omega
      cases havg : calculateAverage img R.x R.y R.width R.height with
      | error e => rw [havg] at hmem; cases hmem
      | ok avg =>
        rw [havg] at hmem
        simp only at hmem ⊢
        cases hvar : calculateVariance img R.x R.y R.width R.height avg with
        | error e => rw [hvar] at hmem; cases hmem
        | ok var =>
          rw [hvar] at hmem
          simp only at hmem ⊢
          by_cases h1 : var < t1
          · rw [if_pos h1, List.mem_singleton] at hmem
            rw [if_pos (lt_of_lt_of_le h1 hle)]
            cases hmem
            exact ⟨⟨_, _, List.mem_singleton.2 rfl, Descends.refl _⟩,
              fun h => by cases List.mem_singleton.1 h⟩
          · rw [if_neg h1, List.mem_cons] at hmem
            rcases hmem with hmem | hmem
            · cases hmem
            obtain ⟨c, hc, hrc⟩ := List.mem_flatMap.1 hmem
            obtain ⟨hdesc, hbig⟩ := plan_descends t1 n img c _ hrc
            have hbig' := hbig (fun q h => by cases h)
            have hdesc' : Descends r c := hdesc
            have hbw : 2 ≤ r.width := hbig'.1
            have hbh : 2 ≤ r.height := hbig'.2
            by_cases h2 : var < t2
            · rw [if_pos h2]
              exact ⟨⟨R, avg, List.mem_singleton.2 rfl, Descends.child hw hh hc hdesc'⟩,
                fun h => by cases List.mem_singleton.1 h⟩
            · rw [if_neg h2]
              obtain ⟨⟨r', a', hr', hd'⟩, hns⟩ := ih img c r a hrc
              refine ⟨⟨r', a', List.mem_cons_of_mem _ (List.mem_flatMap.2 ⟨c, hc, hr'⟩), hd'⟩,
                ?_⟩
              intro hsplit
              obtain ⟨hrin, hnar⟩ := hdesc'.within_and_narrower
              obtain ⟨hcw, _, _, _⟩ :=
                child_shape (by omega : (0 : Int) ≤ R.width) (by omega) hc
              rcases List.mem_cons.1 hsplit with heq | hin
              · have hrR : r = R := by cases heq; rfl
                have hrw : r.width = R.width := by rw [hrR]
                rcases hnar with rfl | hlt
                · omega
                · omega
              · obtain ⟨c', hc', hrc'⟩ := List.mem_flatMap.1 hin
                by_cases hcc : c = c'
                · subst hcc
                  exact hns hrc'
                · have hdis : Region.Disjoint c c' :=
                    (children_disjoint (by omega) (by omega)).forall Region.Disjoint.symm hc hc'
                      hcc
                  have hdesc2 : Descends r c' := (plan_descends t2 n img c' _ hrc').1
                  exact not_within_disjoint (by omega) (by omega) hrin
                    hdesc2.within_and_narrower.1 hdis

/-! ### Uniform regions -/

theorem denoisingSequentialFuel_fill (n : Nat) (img : Image) (x y width height : Int) (t : ℚ)
    (hbig : ¬ (width ≤ 1 ∨ height ≤ 1)) {avg : Pixel} {v : ℚ}
    (havg : calculateAverage img x y width height = .ok avg)
    (hvar : calculateVariance img x y width height avg = .ok v) (hlt : v < t) :
    denoisingSequentialFuel (n + 1) img x y width height t =
      fillRegion img x y width height avg := by
  rw [denoisingSequentialFuel]
  rw [if_neg hbig, havg, ok_bind, hvar, ok_bind, if_pos hlt]

theorem load_eq_ok_iff {img : Image} {k : Int} {p : Pixel} :
    img.load k = .ok p ↔ 0 ≤ k ∧ img.data[k.toNat]? = some p := by
  unfold Image.load
  by_cases h0 : 0 ≤ k
  · rw [if_pos h0]
    cases hget : img.data[k.toNat]? with
    | none => simp [h0]
    | some q => simp [h0]
  · rw [if_neg h0]
    simp [h0]

/-- Filling a region that already holds the colour everywhere changes nothing. -/
theorem fillImage_of_uniform {img : Image} {x y width height : Int}
    (hb : InBounds img x y width height) (c : Pixel)
    (hunif : ∀ j i, y ≤ j → j < y + height → x ≤ i → i < x + width →
      img.load (j * img.width + i) = .ok c) :
    fillImage img ⟨x, y, width, height⟩ c = img := by
  have hdata : fillData img.width c (span y height.toNat) (span x width.toNat) img.data =
      img.data := by
    rw [fillData_eq_setAll]
    apply List.ext_getElem?
    intro k
    by_cases hk : k ∈ cellIndices img.width (span y height.toNat) (span x width.toNat)
    · obtain ⟨j, hj, i, hi, e⟩ := mem_cellIndices.1 hk
      rw [mem_span] at hj hi
      obtain ⟨h0, h1⟩ := index_in_store hb hj.1 (by omega) hi.1 (by omega)
      have hload := hunif j i hj.1 (by omega) hi.1 (by omega)
      rw [load_eq_ok_iff, e] at hload
      rw [getElem?_setAll_of_mem _ _ _ _ hk (by omega), hload.2]
    · exact getElem?_setAll_of_not_mem _ _ _ _ hk
  unfold fillImage
  simp only
  rw [hdata]

theorem foldlM_fixed {σ α : Type} (run : σ → α → Except Fault σ) (s : σ) (l : List α)
    (h : ∀ a ∈ l, run s a = .ok s) : l.foldlM run s = .ok s := by
  induction l with
  | nil => rfl
  | cons a l ih =>
    rw [List.foldlM_cons, h a (List.mem_cons_self a l), ok_bind]
    exact ih (fun b hb => h b (List.mem_cons_of_mem a hb))

/-- On a region inside the image whose pixels are all equal the recursion returns
its input, for every threshold. -/
theorem denoisingSequentialFuel_uniform (t : ℚ) (c : Pixel) :
    ∀ (n : Nat) (img : Image) (x y width height : Int), InBounds img x y width height →
      width.toNat < n →
      (∀ j i, y ≤ j → j < y + height → x ≤ i → i < x + width →
        img.load (j * img.width + i) = .ok c) →
      denoisingSequentialFuel n img x y width height t = .ok img := by
  intro n
  induction n with
  | zero => intro img x y width height _ hn; omega
  | succ n ih =>
    intro img x y width height hb hn hunif
    by_cases hsmall : width ≤ 1 ∨ height ≤ 1
    · rw [denoisingSequentialFuel, if_pos hsmall]
    · have hw : 2 ≤ width := by omega
      have hh : 2 ≤ height := by omega
      obtain ⟨havg, hvar⟩ := uniform_stats img x y width height c hb (by omega) (by omega) hunif
      by_cases hlt : (0 : ℚ) < t
      · rw [denoisingSequentialFuel_fill n img x y width height t hsmall havg hvar hlt,
          fillRegion_eq hb c]
        exact congrArg Except.ok (fillImage_of_uniform hb c hunif)
      · rw [denoisingSequentialFuel_split n img x y width height t hsmall havg hvar hlt]
        apply foldlM_fixed
        intro ch hch
        have hin := child_within (by omega : (0 : Int) ≤ width) (by omega) hch
        refine ih img ch.x ch.y ch.width ch.height
          (child_inBounds hb (by omega) (by omega) hch) (child_fuel hw (by omega) hch hn) ?_
        intro j i h1 h2 h3 h4
        obtain ⟨g1, g2, g3, g4⟩ := Region.mem_mk.1 (hin j i ⟨h1, h2, h3, h4⟩)
        exact hunif j i g1 g2 g3 g4

/-! ### Integer thresholds -/

theorem regionFold_eq_regionSum (img : Image) (x y width height : Int) (f : Pixel → Int) :
    regionFold img x y width height f = regionSum img x y width height f := by
  have h := region_foldl_proj (fun (s : Int) => s) f (fun acc p => acc + f p)
    (fun _ _ => rfl) img x y width height 0
  simp only [zero_add] at h
  exact h

/-- The variance test against an integer threshold, in integer arithmetic, for a
small region and a small threshold: the quotient and the threshold are then
apart by more than the rounding. -/
theorem variance_lt_int {img : Image} {x y width height : Int}
    (hb : InBounds img x y width height) (hw : 1 ≤ width) (hh : 1 ≤ height) (avg : Pixel)
    (T : Int) (hsize : width * height * 3 ≤ 1048576) (hT : |T| ≤ 1048576) :
    ∃ v, calculateVariance img x y width height avg = .ok v ∧
      (v < (T : ℚ) ↔ regionFold img x y width height (sqDev avg) <
        T * ((height.toNat : Int) * (width.toNat : Int) * 3)) := by
  have e1 : ((height.toNat : Nat) : Int) = height := Int.toNat_of_nonneg (by omega)
  have e2 : ((width.toNat : Nat) : Int) = width := Int.toNat_of_nonneg (by omega)
  have hpos : 0 < width * height * 3 := mul_pos (mul_pos (by omega) (by omega)) (by norm_num)
  refine ⟨_, calculateVariance_value hb hw hh (by omega) avg, ?_⟩
  rw [regionFold_eq_regionSum, e1, e2, mul_comm height width]
  obtain ⟨hT1, hT2⟩ := abs_le.1 hT
  have hposQ : (0 : ℚ) < ((width * height * 3 : Int) : ℚ) := by exact_mod_cast hpos
  have hTd : IsDouble (T : ℚ) := isDouble_intCast (abs_lt.2 ⟨by omega, by omega⟩)
  constructor
  · intro h
    have h' := lt_of_roundDouble_lt hTd h
    rw [div_lt_iff₀ hposQ] at h'
    exact_mod_cast h'
  · intro h
    have hbelow : IsDouble (((T * 1048576 - 1 : Int) : ℚ) / 2 ^ 20) :=
      isDouble_dyadic 20 (abs_lt.2 ⟨by omega, by omega⟩) (by norm_num)
    have hle : ((regionSum img x y width height (sqDev avg) : Int) : ℚ) /
        ((width * height * 3 : Int) : ℚ) ≤ ((T * 1048576 - 1 : Int) : ℚ) / 2 ^ 20 := by
      rw [div_le_div_iff₀ hposQ (by norm_num)]
      have : regionSum img x y width height (sqDev avg) * 2 ^ 20 ≤
          (T * 1048576 - 1) * (width * height * 3) := by nlinarith
      exact_mod_cast this
    have h1 := roundDouble_le_of_le hbelow hle
    have h2 : ((T * 1048576 - 1 : Int) : ℚ) / 2 ^ 20 < (T : ℚ) := by
      rw [div_lt_iff₀ (by norm_num)]
      push_cast
      linarith
    linarith

/-- For an integer threshold of at most `2 ^ 20` in absolute value, on an image of at
most `2 ^ 20 / 3` pixels, the plan is the one decided in integer arithmetic. -/
theorem plan_eq_planInt (T : Int) (hT : |T| ≤ 1048576) :
    ∀ (n : Nat) (img : Image) (r : Region), img.width * img.height * 3 ≤ 1048576 →
      InBounds img r.x r.y r.width r.height → plan n img r (T : ℚ) = planInt n img r T := by
  intro n
  induction n with
  | zero => intro img r _ _; rfl
  | succ n ih =>
    intro img r hsize hb
    rw [plan, planInt]
    by_cases hsmall : r.width ≤ 1 ∨ r.height ≤ 1
    · rw [if_pos hsmall, if_pos hsmall]
    · rw [if_neg hsmall, if_neg hsmall]
      obtain ⟨avg, havg⟩ := calculateAverage_ok hb (by omega) (by omega)
      have hle := region_size_le hb (by omega) (by omega)
      obtain ⟨v, hvar, hiff⟩ := variance_lt_int hb (by omega) (by omega) avg T (by omega) hT
      rw [havg]
      simp only
      rw [hvar]
      simp only
      have hflat : (childRegions r.x r.y r.width r.height).flatMap
            (fun c => plan n img c (T : ℚ)) =
          (childRegions r.x r.y r.width r.height).flatMap (fun c => planInt n img c T) := by
        have hall : ∀ c ∈ childRegions r.x r.y r.width r.height,
            plan n img c (T : ℚ) = planInt n img c T :=
          fun c hc => ih img c hsize (child_inBounds hb (by omega) (by omega) hc)
        generalize childRegions r.x r.y r.width r.height = cs at hall
        induction cs with
        | nil => rfl
        | cons c cs ihc =>
          rw [List.flatMap_cons, List.flatMap_cons, hall c (List.mem_cons_self c cs),
            ihc (fun c' hc' => hall c' (List.mem_cons_of_mem c hc'))]
      by_cases hlt : v < (T : ℚ)
      · rw [if_pos hlt, if_pos (hiff.1 hlt)]
      · rw [if_neg hlt, if_neg (fun h => hlt (hiff.2 h)), hflat]

/-- With an integer threshold of at most `2 ^ 20` in absolute value, on an image of at
most `2 ^ 20 / 3` pixels, the image and the visits of `denoisingSequential` on a
region inside the image are computed by the integer plan. -/
theorem denoisingSequential_eq_planInt {img : Image} {x y width height : Int} (T : Int)
    (hT : |T| ≤ 1048576) (hsize : img.width * img.height * 3 ≤ 1048576)
    (hb : InBounds img x y width height) :
    denoisingSequential img x y width height (T : ℚ) =
        .ok (applyVisits (planInt (width.toNat + 1) img ⟨x, y, width, height⟩ T) img) ∧
      denoisingVisits img x y width height (T : ℚ) =
        .ok (planInt (width.toNat + 1) img ⟨x, y, width, height⟩ T) := by
  obtain ⟨h1, h2, _⟩ := denoisingSequential_eq_plan (T : ℚ) hb
  rw [plan_eq_planInt T hT _ img ⟨x, y, width, height⟩ hsize hb] at h1 h2
  exact ⟨h1, h2⟩

theorem calculateVariance_of_fold {img : Image} {x y width height : Int}
    (hb : InBounds img x y width height) (hw : 1 ≤ width) (hh : 1 ≤ height)
    (hsize : width * height * 3 < 2 ^ 31) (avg : Pixel) :
    calculateVariance img x y width height avg =
      .ok (roundDouble (((regionFold img x y width height (sqDev avg) : Int) : ℚ) /
        ((width * height * 3 : Int) : ℚ))) := by
  rw [calculateVariance_value hb hw hh hsize, regionFold_eq_regionSum]

set_option maxRecDepth 100000 in
/-- What the integer computations give on the sixteen images with one outlier. -/
theorem outlier_facts : ∀ k < 16,
    InBounds (outlierImage k) 0 0 4 4 ∧
      calculateAverage (outlierImage k) 0 0 4 4 = .ok (grey 25) ∧
      regionFold (outlierImage k) 0 0 4 4 (sqDev (grey 25)) = 162000 ∧
      (planInt 5 (outlierImage k) ⟨0, 0, 4, 4⟩ 1000).head? = some (.split ⟨0, 0, 4, 4⟩) ∧
      (∀ q ∈ childRegions 0 0 4 4,
        if q.Mem ((k / 4 : Nat) : Int) ((k % 4 : Nat) : Int) then
          .split q ∈ planInt 5 (outlierImage k) ⟨0, 0, 4, 4⟩ 1000
        else .fill q (grey 10) ∈ planInt 5 (outlierImage k) ⟨0, 0, 4, 4⟩ 1000) ∧
      applyVisits (planInt 5 (outlierImage k) ⟨0, 0, 4, 4⟩ 1000) (outlierImage k) =
        outlierImage k ∧
      ∀ m < 16, m ≠ k → (outlierImage k).data[m]? = some (grey 10) := by
  decide

theorem outlier_variance {k : Nat} (hk : k < 16) :
    calculateVariance (outlierImage k) 0 0 4 4 (grey 25) = .ok 3375 := by
  obtain ⟨hb, _, hfold, _⟩ := outlier_facts k hk
  rw [calculateVariance_of_fold hb (by decide) (by decide) (by decide), hfold]
  have e : (((162000 : Int) : ℚ) / (((4 : Int) * 4 * 3 : Int) : ℚ)) = ((3375 : Int) : ℚ) := by
    norm_num
  rw [e, roundDouble_of_isDouble (isDouble_intCast (by norm_num))]
  norm_num

/-! ### The image seen position by position -/

theorem fillImage_spec {img : Image} {r : Region}
    (hb : InBounds img r.x r.y r.width r.height) (c : Pixel) :
    SameShape img (fillImage img r c) ∧
      (∀ j i, r.Mem j i → (fillImage img r c).load (j * img.width + i) = .ok c) ∧
      (∀ j i, 0 ≤ j → 0 ≤ i → i < img.width → ¬ r.Mem j i →
        (fillImage img r c).load (j * img.width + i) = img.load (j * img.width + i)) := by
  obtain ⟨img', hfill, hshape, hin, hout⟩ := fillRegion_spec hb c
  have himg' : img' = fillImage img r c := by
    rw [fillRegion_eq hb c] at hfill
    exact (Except.ok.inj hfill).symm
  subst himg'
  exact ⟨hshape, hin, hout⟩

/-- A region with a pixel that lies inside a region of the image is a region of
the image. -/
theorem within_inBounds {img : Image} {r c : Region}
    (hb : InBounds img c.x c.y c.width c.height) (hw : 1 ≤ r.width) (hh : 1 ≤ r.height)
    (hin : r.Within c) : InBounds img r.x r.y r.width r.height := by
  have h1 := hin r.y r.x (by unfold Region.Mem; omega)
  have h2 := hin (r.y + r.height - 1) (r.x + r.width - 1) (by unfold Region.Mem; omega)
  unfold Region.Mem at h1 h2
  obtain ⟨hlen, hx, hy, hxw, hyh⟩ := hb
  refine ⟨hlen, ?_, ?_, ?_, ?_⟩ <;> omega

/-- Applying the same fills, all inside region `c`, to two images that agree on `c`
gives two images that agree on `c`. -/
theorem applyVisits_agree (c : Region) : ∀ (vs : List Visit) (a b : Image),
    (∀ r col, .fill r col ∈ vs → InBounds a r.x r.y r.width r.height ∧ r.Within c) →
    InBounds a c.x c.y c.width c.height → SameShape a b → AgreeOn c a b →
      AgreeOn c (applyVisits vs a) (applyVisits vs b) := by
  intro vs
  induction vs with
  | nil => intro a b _ _ _ hag; exact hag
  | cons v vs ih =>
    intro a b hfills hbc hs hag
    have hrest : ∀ r col, .fill r col ∈ vs →
        InBounds a r.x r.y r.width r.height ∧ r.Within c :=
      fun r col h => hfills r col (List.mem_cons_of_mem v h)
    cases v with
    | leaf r => exact ih a b hrest hbc hs hag
    | split r => exact ih a b hrest hbc hs hag
    | fill r col =>
      obtain ⟨hbr, hrc⟩ := hfills r col (List.mem_cons_self _ vs)
      obtain ⟨hsa, hina, houta⟩ := fillImage_spec hbr col
      obtain ⟨hsb, hinb, houtb⟩ := fillImage_spec (hbr.of_sameShape hs) col
      have hwab : b.width = a.width := hs.1
      show AgreeOn c (applyVisits vs (fillImage a r col)) (applyVisits vs (fillImage b r col))
      refine ih _ _ (fun r' col' h => ⟨(hrest r' col' h).1.of_sameShape hsa,
        (hrest r' col' h).2⟩) (hbc.of_sameShape hsa) ?_ ?_
      · exact ⟨hsb.1.trans (hs.1.trans hsa.1.symm), hsb.2.1.trans (hs.2.1.trans hsa.2.1.symm),
          hsb.2.2.trans (hs.2.2.trans hsa.2.2.symm)⟩
      · intro j i hm
        show (fillImage b r col).load (j * b.width + i) = (fillImage a r col).load (j * a.width + i)
        by_cases hr : r.Mem j i
        · rw [hinb j i hr, hina j i hr]
        · obtain ⟨_, hx, hy, hxw, hyh⟩ := hbc
          have hm' := hm
          unfold Region.Mem at hm'
          rw [houtb j i (by omega) (by omega) (by omega) hr,
            houta j i (by omega) (by omega) (by omega) hr]
          exact hag j i hm

theorem plan_fill_inBounds {img : Image} {c : Region} (t : ℚ) (n : Nat)
    (hb : InBounds img c.x c.y c.width c.height) {r : Region} {col : Pixel}
    (h : .fill r col ∈ plan n img c t) :
    InBounds img r.x r.y r.width r.height ∧ r.Within c := by
  obtain ⟨hdesc, hbig⟩ := plan_descends t n img c _ h
  have hbig' := hbig (fun q hq => by cases hq)
  have hin : r.Within c := hdesc.within_and_narrower.1
  have hbw : 2 ≤ r.width := hbig'.1
  have hbh : 2 ≤ r.height := hbig'.2
  exact ⟨within_inBounds hb (by omega) (by omega) hin, hin⟩

/-- The outcome on a region only depends on the pixels of the region. -/
theorem outcome_agree (n : Nat) (t : ℚ) {a b : Image} {c : Region}
    (hb : InBounds a c.x c.y c.width c.height) (hs : SameShape a b) (hag : AgreeOn c a b) :
    AgreeOn c (outcome n t a c) (outcome n t b c) := by
  unfold outcome
  rw [plan_congr n t a b c hb hs hag]
  exact applyVisits_agree c _ a b (fun r col h => plan_fill_inBounds t n hb h) hb hs hag

theorem denoisingSequentialFuel_eq_outcome (t : ℚ) {n : Nat} {img : Image} {c : Region}
    (hb : InBounds img c.x c.y c.width c.height) (hn : c.width.toNat < n) :
    denoisingSequentialFuel n img c.x c.y c.width c.height t = .ok (outcome n t img c) ∧
      Frame c img (outcome n t img c) := by
  obtain ⟨h1, h2⟩ := denoisingTraced_eq_plan t n img c.x c.y c.width c.height hb hn
  refine ⟨?_, h2⟩
  rw [← denoisingTraced_fst, h1]
  rfl

/-- A sequence of runs on pairwise disjoint regions of the image, each run local
to its region: the result holds on every region what the run on that region
alone gives on the initial image, and is unchanged elsewhere. -/
theorem loop_pointwise (run : Image → Region → Except Fault Image)
    (out : Image → Region → Image) (img : Image) :
    ∀ cs : List Region,
      (∀ c im, c ∈ cs → InBounds im c.x c.y c.width c.height →
        run im c = .ok (out im c) ∧ Frame c im (out im c)) →
      (∀ c a b, c ∈ cs → InBounds a c.x c.y c.width c.height → SameShape a b →
        AgreeOn c a b → AgreeOn c (out a c) (out b c)) →
      (∀ c ∈ cs, InBounds img c.x c.y c.width c.height) →
      cs.Pairwise Region.Disjoint →
      ∀ s : Image, SameShape img s → (∀ c ∈ cs, AgreeOn c img s) →
        ∃ res, cs.foldlM run s = .ok res ∧ SameShape s res ∧
          (∀ c ∈ cs, AgreeOn c (out img c) res) ∧
          (∀ j i, 0 ≤ j → 0 ≤ i → i < img.width → (∀ c ∈ cs, ¬ c.Mem j i) →
            res.load (j * res.width + i) = s.load (j * s.width + i)) := by
  intro cs
  induction cs with
  | nil =>
    intro _ _ _ _ s _ _
    exact ⟨s, rfl, SameShape.same_refl s, fun c hc => absurd hc (List.not_mem_nil c),
      fun _ _ _ _ _ _ => rfl⟩
  | cons c cs ih =>
    intro hrun hloc hin hdisj s hshape hagree
    have hc : c ∈ c :: cs := List.mem_cons_self c cs
    have hbc := hin c hc
    obtain ⟨hr, hframe⟩ := hrun c s hc (hbc.of_sameShape hshape)
    rw [List.pairwise_cons] at hdisj
    have hshape1 : SameShape img (out s c) := hshape.same_trans hframe.1
    have hagree1 : ∀ c' ∈ cs, AgreeOn c' img (out s c) := by
      intro c' hc'
      exact (hagree c' (List.mem_cons_of_mem c hc')).agree_trans
        (hframe.agreeOn ((hin c' (List.mem_cons_of_mem c hc')).of_sameShape hshape)
          (hdisj.1 c' hc'))
    obtain ⟨res, hres, hsres, hkids, hrest⟩ := ih
      (fun c' im hc' => hrun c' im (List.mem_cons_of_mem c hc'))
      (fun c' a b hc' => hloc c' a b (List.mem_cons_of_mem c hc'))
      (fun c' hc' => hin c' (List.mem_cons_of_mem c hc'))
      hdisj.2 (out s c) hshape1 hagree1
    refine ⟨res, ?_, hframe.1.same_trans hsres, ?_, ?_⟩
    · rw [List.foldlM_cons, hr, ok_bind, hres]
    · intro c' hc'
      rcases List.mem_cons.1 hc' with rfl | hc'
      · intro j i hm
        obtain ⟨_, hx, hy, hxw, hyh⟩ := hbc
        have hm' := hm
        unfold Region.Mem at hm'
        rw [hrest j i (by omega) (by omega) (by omega)
          (fun c'' hc'' hm'' => hdisj.1 c'' hc'' j i ⟨hm, hm''⟩)]
        exact hloc c' img s hc (hin c' hc) hshape (hagree c' hc) j i hm
      · exact hkids c' hc'
    · intro j i hj hi hi2 hnone
      rw [hrest j i hj hi hi2 (fun c' hc' => hnone c' (List.mem_cons_of_mem c hc'))]
      have hw := hframe.2 j i hj hi (by rw [hshape.1]; exact hi2) (hnone c hc)
      exact hw

theorem load_natCast {img : Image} {k : Nat} (hk : k < img.data.length) :
    img.load (k : Int) = .ok img.data[k] := by
  rw [load_eq_ok_iff]
  exact ⟨Int.ofNat_nonneg k, by rw [Int.toNat_ofNat, List.getElem?_eq_getElem hk]⟩

/-- Two images of the same shape that hold the same pixel at every position are
the same image. -/
theorem image_ext {a b : Image} (hs : SameShape a b)
    (hlen : (a.data.length : Int) = a.width * a.height) (hW : 0 < a.width)
    (h : ∀ j i, 0 ≤ j → j < a.height → 0 ≤ i → i < a.width →
      b.load (j * b.width + i) = a.load (j * a.width + i)) : b = a := by
  obtain ⟨hw, hh, hl⟩ := hs
  have hdata : b.data = a.data := by
    apply List.ext_getElem?
    intro k
    by_cases hk : k < a.data.length
    · have hi0 : 0 ≤ (k : Int) % a.width := Int.emod_nonneg _ (ne_of_gt hW)
      have hi1 : (k : Int) % a.width < a.width := Int.emod_lt_of_pos _ hW
      have hj0 : 0 ≤ (k : Int) / a.width := Int.ediv_nonneg (Int.ofNat_nonneg k) (le_of_lt hW)
      have hk' : (k : Int) < a.height * a.width := by
        rw [mul_comm, ← hlen]
        exact_mod_cast hk
      have hj1 : (k : Int) / a.width < a.height := Int.ediv_lt_of_lt_mul hW hk'
      have e : (k : Int) / a.width * a.width + (k : Int) % a.width = k :=
        Int.ediv_add_emod' _ _
      have hload := h _ _ hj0 hj1 hi0 hi1
      rw [hw, e, load_natCast hk, load_natCast (by rw [hl]; exact hk)] at hload
      rw [List.getElem?_eq_getElem hk, List.getElem?_eq_getElem (by rw [hl]; exact hk),
        Except.ok.inj hload]
    · rw [List.getElem?_eq_none (by omega), List.getElem?_eq_none (by omega)]
  cases a
  cases b
  simp only at hw hh hdata
  rw [hw, hh, hdata]

theorem denoisingOrderedFuel_fill (order : Region → List Region) (n : Nat) (img : Image)
    (x y width height : Int) (t : ℚ) (hbig : ¬ (width ≤ 1 ∨ height ≤ 1)) {avg : Pixel} {v : ℚ}
    (havg : calculateAverage img x y width height = .ok avg)
    (hvar : calculateVariance img x y width height avg = .ok v) (hlt : v < t) :
    denoisingOrderedFuel order (n + 1) img x y width height t =
      fillRegion img x y width height avg := by
  rw [denoisingOrderedFuel]
  rw [if_neg hbig, havg, ok_bind, hvar, ok_bind, if_pos hlt]

theorem denoisingOrderedFuel_split (order : Region → List Region) (n : Nat) (img : Image)
    (x y width height : Int) (t : ℚ) (hbig : ¬ (width ≤ 1 ∨ height ≤ 1)) {avg : Pixel} {v : ℚ}
    (havg : calculateAverage img x y width height = .ok avg)
    (hvar : calculateVariance img x y width height avg = .ok v) (hge : ¬ v < t) :
    denoisingOrderedFuel order (n + 1) img x y width height t =
      (order ⟨x, y, width, height⟩).foldlM
        (fun im c => denoisingOrderedFuel order n im c.x c.y c.width c.height t) img := by
  rw [denoisingOrderedFuel]
  rw [if_neg hbig, havg, ok_bind, hvar, ok_bind, if_neg hge]

/-- What the subdividing branch leaves, position by position: on each child the
outcome of the run on that child alone, elsewhere the input. -/
theorem children_pointwise (run : Image → Region → Except Fault Image) (n : Nat) (t : ℚ)
    {img : Image} {x y width height : Int} (hb : InBounds img x y width height)
    (hw : 2 ≤ width) (hh : 2 ≤ height) (cs : List Region)
    (hperm : cs.Perm (childRegions x y width height))
    (hrun : ∀ c im, c ∈ childRegions x y width height →
      InBounds im c.x c.y c.width c.height →
        run im c = denoisingSequentialFuel n im c.x c.y c.width c.height t)
    (hn : width.toNat < n + 1) :
    ∃ res, cs.foldlM run img = .ok res ∧ SameShape img res ∧
      (∀ c ∈ childRegions x y width height, AgreeOn c (outcome n t img c) res) ∧
      (∀ j i, 0 ≤ j → 0 ≤ i → i < img.width →
        (∀ c ∈ childRegions x y width height, ¬ c.Mem j i) →
          res.load (j * res.width + i) = img.load (j * img.width + i)) := by
  obtain ⟨res, h1, h2, h3, h4⟩ := loop_pointwise run (outcome n t) img cs
    (fun c im hc hbc => by
      have hc' := hperm.mem_iff.1 hc
      rw [hrun c im hc' hbc]
      exact denoisingSequentialFuel_eq_outcome t hbc (child_fuel hw (by omega) hc' hn))
    (fun c a b _ hba hs hag => outcome_agree n t hba hs hag)
    (fun c hc => child_inBounds hb (by omega) (by omega) (hperm.mem_iff.1 hc))
    ((children_disjoint (by omega) (by omega)).perm hperm.symm
      (fun h => Region.Disjoint.symm h))
    img (SameShape.same_refl img) (fun c _ _ _ _ => rfl)
  exact ⟨res, h1, h2, fun c hc => h3 c (hperm.mem_iff.2 hc),
    fun j i hj hi hi2 hnone => h4 j i hj hi hi2 (fun c hc => hnone c (hperm.mem_iff.1 hc))⟩

/-- Visiting the children in any order gives the image of the fixed order. -/
theorem denoisingOrderedFuel_eq (order : Region → List Region)
    (hperm : ∀ r : Region, (order r).Perm (childRegions r.x r.y r.width r.height)) (t : ℚ) :
    ∀ (n : Nat) (img : Image) (x y width height : Int), InBounds img x y width height →
      width.toNat < n →
      denoisingOrderedFuel order n img x y width height t =
        denoisingSequentialFuel n img x y width height t := by
  intro n
  induction n with
  | zero => intro img x y width height _ hn; omega
  | succ n ih =>
    intro img x y width height hb hn
    by_cases hsmall : width ≤ 1 ∨ height ≤ 1
    · rw [denoisingOrderedFuel, denoisingSequentialFuel, if_pos hsmall, if_pos hsmall]
    · have hw : 2 ≤ width := by omega
      have hh : 2 ≤ height := by omega
      obtain ⟨avg, havg⟩ := calculateAverage_ok hb (by omega) (by omega)
      obtain ⟨v, hvar⟩ := calculateVariance_ok hb (by omega) (by omega) avg
      by_cases hlt : v < t
      · rw [denoisingOrderedFuel_fill order n img x y width height t hsmall havg hvar hlt,
          denoisingSequentialFuel_fill n img x y width height t hsmall havg hvar hlt]
      · rw [denoisingOrderedFuel_split order n img x y width height t hsmall havg hvar hlt,
          denoisingSequentialFuel_split n img x y width height t hsmall havg hvar hlt]
        obtain ⟨res, h1, h2, h3, h4⟩ := children_pointwise
          (fun im c => denoisingSequentialFuel n im c.x c.y c.width c.height t) n t hb hw hh
          (childRegions x y width height) (List.Perm.refl _) (fun _ _ _ _ => rfl) hn
        obtain ⟨res', h1', h2', h3', h4'⟩ := children_pointwise
          (fun im c => denoisingOrderedFuel order n im c.x c.y c.width c.height t) n t hb hw hh
          (order ⟨x, y, width, height⟩) (hperm ⟨x, y, width, height⟩)
          (fun c im hc hbc => ih im c.x c.y c.width c.height hbc
            (child_fuel hw (by omega) hc hn)) hn
        rw [h1, h1']
        apply congrArg
        have hWpos : 0 < res.width := by
          rw [h2.1]
          obtain ⟨_, hx, _, hxw, _⟩ := hb
          omega
        have hlen : (res.data.length : Int) = res.width * res.height := by
          rw [h2.1, h2.2.1, h2.2.2]
          exact hb.1
        refine image_ext ⟨h2'.1.trans h2.1.symm, h2'.2.1.trans h2.2.1.symm,
          h2'.2.2.trans h2.2.2.symm⟩ hlen hWpos ?_
        intro j i hj _ hi hi2
        rw [h2.1] at hi2
        by_cases hex : ∃ c ∈ childRegions x y width height, c.Mem j i
        · obtain ⟨c, hc, hm⟩ := hex
          rw [h3' c hc j i hm, h3 c hc j i hm]
        · have hnone : ∀ c ∈ childRegions x y width height, ¬ c.Mem j i :=
            fun c hc hm => hex ⟨c, hc, hm⟩
          rw [h4' j i hj hi hi2 hnone, h4 j i hj hi hi2 hnone]

/-! ### The squared error of a run -/

theorem sum_Ico_split (f : Int → Int) {lo mid hi : Int} (h1 : lo ≤ mid) (h2 : mid ≤ hi) :
    ∑ a ∈ Finset.Ico lo hi, f a = ∑ a ∈ Finset.Ico lo mid, f a + ∑ a ∈ Finset.Ico mid hi, f a := by
  rw [← Finset.Ico_union_Ico_eq_Ico h1 h2,
    Finset.sum_union (Finset.Ico_disjoint_Ico_consecutive lo mid hi)]

theorem boxSum_rows (g : Int → Int → Int) {y0 ym y1 : Int} (x0 x1 : Int) (h1 : y0 ≤ ym)
    (h2 : ym ≤ y1) : boxSum g y0 y1 x0 x1 = boxSum g y0 ym x0 x1 + boxSum g ym y1 x0 x1 :=
  sum_Ico_split _ h1 h2

theorem boxSum_cols (g : Int → Int → Int) (y0 y1 : Int) {x0 xm x1 : Int} (h1 : x0 ≤ xm)
    (h2 : xm ≤ x1) : boxSum g y0 y1 x0 x1 = boxSum g y0 y1 x0 xm + boxSum g y0 y1 xm x1 := by
  unfold boxSum
  rw [← Finset.sum_add_distrib]
  exact Finset.sum_congr rfl (fun j _ => sum_Ico_split _ h1 h2)

theorem boxSum_congr {g g' : Int → Int → Int} {y0 y1 x0 x1 : Int}
    (h : ∀ j i, y0 ≤ j → j < y1 → x0 ≤ i → i < x1 → g j i = g' j i) :
    boxSum g y0 y1 x0 x1 = boxSum g' y0 y1 x0 x1 := by
  unfold boxSum
  refine Finset.sum_congr rfl (fun j hj => Finset.sum_congr rfl (fun i hi => ?_))
  rw [Finset.mem_Ico] at hj hi
  exact h j i hj.1 hj.2 hi.1 hi.2

theorem boxSum_zero {g : Int → Int → Int} {y0 y1 x0 x1 : Int}
    (h : ∀ j i, y0 ≤ j → j < y1 → x0 ≤ i → i < x1 → g j i = 0) :
    boxSum g y0 y1 x0 x1 = 0 := by
  rw [boxSum_congr h]
  unfold boxSum
  simp

/-- A box cut into four quadrants of `w2` columns and `h2` rows, a strip on the
right and a strip at the bottom. -/
theorem boxSum_quadrants (g : Int → Int → Int) (x y w2 h2 wr hr : Int) (hw2 : 0 ≤ w2)
    (hh2 : 0 ≤ h2) (hwr : 0 ≤ wr) (hhr : 0 ≤ hr) :
    boxSum g y (y + h2 + h2 + hr) x (x + w2 + w2 + wr) =
      boxSum g y (y + h2) x (x + w2) + boxSum g y (y + h2) (x + w2) (x + w2 + w2) +
        boxSum g (y + h2) (y + h2 + h2) x (x + w2) +
        boxSum g (y + h2) (y + h2 + h2) (x + w2) (x + w2 + w2) +
        boxSum g y (y + h2 + h2) (x + w2 + w2) (x + w2 + w2 + wr) +
        boxSum g (y + h2 + h2) (y + h2 + h2 + hr) x (x + w2 + w2 + wr) := by
  rw [boxSum_rows g x (x + w2 + w2 + wr) (by omega : y ≤ y + h2 + h2)
      (by omega : y + h2 + h2 ≤ y + h2 + h2 + hr),
    boxSum_cols g y (y + h2 + h2) (by omega : x ≤ x + w2 + w2)
      (by omega : x + w2 + w2 ≤ x + w2 + w2 + wr),
    boxSum_rows g x (x + w2 + w2) (by omega : y ≤ y + h2) (by omega : y + h2 ≤ y + h2 + h2),
    boxSum_cols g y (y + h2) (by omega : x ≤ x + w2) (by omega : x + w2 ≤ x + w2 + w2),
    boxSum_cols g (y + h2) (y + h2 + h2) (by omega : x ≤ x + w2)
      (by omega : x + w2 ≤ x + w2 + w2)]
  ring

theorem sqDev_self (p : Pixel) : sqDev p p = 0 := by
  unfold sqDev
  simp

theorem pixelAt_congr {a b : Image} {j i : Int}
    (h : b.load (j * b.width + i) = a.load (j * a.width + i)) : b.pixelAt j i = a.pixelAt j i := by
  unfold Image.pixelAt
  rw [h]

theorem regionError_self (img : Image) (x y width height : Int) :
    regionError img img x y width height = 0 :=
  boxSum_zero (fun _ _ _ _ _ _ => sqDev_self _)

/-- The squared error of filling a region with a colour is the sum of the squared
deviations from that colour. -/
theorem regionError_fill {img : Image} {x y width height : Int}
    (hb : InBounds img x y width height) (avg : Pixel) :
    regionError img (fillImage img ⟨x, y, width, height⟩ avg) x y width height =
      regionSum img x y width height (sqDev avg) := by
  obtain ⟨_, hin, _⟩ := @fillImage_spec img ⟨x, y, width, height⟩ hb avg
  unfold regionError regionSum boxSum
  refine Finset.sum_congr rfl (fun j hj => Finset.sum_congr rfl (fun i hi => ?_))
  rw [Finset.mem_Ico] at hj hi
  have hload := hin j i (Region.mem_mk.2 ⟨hj.1, hj.2, hi.1, hi.2⟩)
  have hpix : (fillImage img ⟨x, y, width, height⟩ avg).pixelAt j i = avg := by
    unfold Image.pixelAt
    show (match (fillImage img ⟨x, y, width, height⟩ avg).load (j * img.width + i) with
      | .ok p => p
      | .error _ => default) = avg
    rw [hload]
  show sqDev ((fillImage img ⟨x, y, width, height⟩ avg).pixelAt j i) (img.pixelAt j i) =
    sqDev avg (img.pixelAt j i)
  rw [hpix]

/-- On an image whose pixel count times 3 is in the range of `int`, the squared error
that a run leaves on a region with at least one pixel is below
`threshold * (width * height * 3)`, for a positive threshold that is a `double`. -/
theorem outcome_error {t : ℚ} (ht : 0 < t) (htd : IsDouble t) :
    ∀ (n : Nat) (img : Image) (x y width height : Int), img.width * img.height * 3 < 2 ^ 31 →
      InBounds img x y width height → 1 ≤ width → 1 ≤ height → width.toNat < n →
      ((regionError img (outcome n t img ⟨x, y, width, height⟩) x y width height : Int) : ℚ) <
        t * ((width * height * 3 : Int) : ℚ) := by
  intro n
  induction n with
  | zero => intro img x y width height _ _ _ _ hn; omega
  | succ n ih =>
    intro img x y width height hsize hb hw1 hh1 hn
    have hle := region_size_le hb (by omega) (by omega)
    obtain ⟨hrun, _⟩ := @denoisingSequentialFuel_eq_outcome t (n + 1) img ⟨x, y, width, height⟩
      hb hn
    have hrun' : denoisingSequentialFuel (n + 1) img x y width height t =
        .ok (outcome (n + 1) t img ⟨x, y, width, height⟩) := hrun
    have hN : (0 : ℚ) < ((width * height * 3 : Int) : ℚ) := by
      have : 0 < width * height * 3 := mul_pos (mul_pos (by omega) (by omega)) (by norm_num)
      exact_mod_cast this
    by_cases hsmall : width ≤ 1 ∨ height ≤ 1
    · rw [denoisingSequentialFuel, if_pos hsmall] at hrun'
      rw [← Except.ok.inj hrun', regionError_self]
      exact_mod_cast mul_pos ht hN
    · have hw : 2 ≤ width := by omega
      have hh : 2 ≤ height := by omega
      obtain ⟨avg, havg⟩ := calculateAverage_ok hb (by omega) (by omega)
      have hvar := calculateVariance_value hb hw1 hh1 (by omega) avg
      by_cases hlt : roundDouble (((regionSum img x y width height (sqDev avg) : Int) : ℚ) /
          ((width * height * 3 : Int) : ℚ)) < t
      · rw [denoisingSequentialFuel_fill n img x y width height t hsmall havg hvar hlt,
          fillRegion_eq hb avg] at hrun'
        have hout : outcome (n + 1) t img ⟨x, y, width, height⟩ =
            fillImage img ⟨x, y, width, height⟩ avg := (Except.ok.inj hrun').symm
        rw [hout, regionError_fill hb avg]
        exact (div_lt_iff₀ hN).1 (lt_of_roundDouble_lt htd hlt)
      · obtain ⟨res, h1, h2, h3, h4⟩ := children_pointwise
          (fun im c => denoisingSequentialFuel n im c.x c.y c.width c.height t) n t hb hw hh
          (childRegions x y width height) (List.Perm.refl _) (fun _ _ _ _ => rfl) hn
        rw [denoisingSequentialFuel_split n img x y width height t hsmall havg hvar hlt, h1]
          at hrun'
        rw [← Except.ok.inj hrun']
        have hchild : ∀ c ∈ childRegions x y width height,
            ((boxSum (fun j i => sqDev (res.pixelAt j i) (img.pixelAt j i)) c.y (c.y + c.height)
              c.x (c.x + c.width) : Int) : ℚ) < t * ((width / 2 * (height / 2) * 3 : Int) : ℚ) := by
          intro c hc
          obtain ⟨e1, e2, _, _⟩ := child_shape (by omega : (0 : Int) ≤ width) (by omega) hc
          have hih := ih img c.x c.y c.width c.height hsize
            (child_inBounds hb (by omega) (by omega) hc) (by omega) (by omega)
            (child_fuel hw (by omega) hc hn)
          have hsame : boxSum (fun j i => sqDev (res.pixelAt j i) (img.pixelAt j i)) c.y
              (c.y + c.height) c.x (c.x + c.width) =
              regionError img (outcome n t img c) c.x c.y c.width c.height := by
            unfold regionError
            refine boxSum_congr (fun j i g1 g2 g3 g4 => ?_)
            rw [(h3 c hc).pixelAt ⟨g1, g2, g3, g4⟩]
          rw [hsame, ← e1, ← e2]
          exact hih
        have hrest : ∀ j i, y ≤ j → j < y + height → x ≤ i → i < x + width →
            (x + width / 2 + width / 2 ≤ i ∨ y + height / 2 + height / 2 ≤ j) →
            sqDev (res.pixelAt j i) (img.pixelAt j i) = 0 := by
          intro j i g1 g2 g3 g4 hout
          obtain ⟨_, hx, hy, hxw, hyh⟩ := hb
          have hnone : ∀ c ∈ childRegions x y width height, ¬ c.Mem j i := by
            intro c hc hm
            obtain ⟨e1, e2, e3, e4⟩ := child_shape (by omega : (0 : Int) ≤ width) (by omega) hc
            unfold Region.Mem at hm
            omega
          rw [pixelAt_congr (h4 j i (by omega) (by omega) (by omega) hnone)]
          exact sqDev_self _
        have hmem := @mem_childRegions x y width height
        rw [tdiv_two (by omega : (0 : Int) ≤ width), tdiv_two (by omega : (0 : Int) ≤ height)]
          at hmem
        have hc1 := hchild ⟨x, y, width / 2, height / 2⟩ (hmem.2 (Or.inl rfl))
        have hc2 := hchild ⟨x + width / 2, y, width / 2, height / 2⟩
          (hmem.2 (Or.inr (Or.inl rfl)))
        have hc3 := hchild ⟨x, y + height / 2, width / 2, height / 2⟩
          (hmem.2 (Or.inr (Or.inr (Or.inl rfl))))
        have hc4 := hchild ⟨x + width / 2, y + height / 2, width / 2, height / 2⟩
          (hmem.2 (Or.inr (Or.inr (Or.inr rfl))))
        simp only at hc1 hc2 hc3 hc4
        have hsplit := boxSum_quadrants (fun j i => sqDev (res.pixelAt j i) (img.pixelAt j i))
          x y (width / 2) (height / 2) (width - 2 * (width / 2)) (height - 2 * (height / 2))
          (by omega) (by omega) (by omega) (by omega)
        have ex : x + width / 2 + width / 2 + (width - 2 * (width / 2)) = x + width := by omega
        have ey : y + height / 2 + height / 2 + (height - 2 * (height / 2)) = y + height := by
          omega
        rw [ex, ey] at hsplit
        have hz1 : boxSum (fun j i => sqDev (res.pixelAt j i) (img.pixelAt j i)) y
            (y + height / 2 + height / 2) (x + width / 2 + width / 2) (x + width) = 0 :=
          boxSum_zero (fun j i g1 g2 g3 g4 => hrest j i g1 (by omega) (by omega) g4 (Or.inl g3))
        have hz2 : boxSum (fun j i => sqDev (res.pixelAt j i) (img.pixelAt j i))
            (y + height / 2 + height / 2) (y + height) x (x + width) = 0 :=
          boxSum_zero (fun j i g1 g2 g3 g4 => hrest j i (by omega) g2 g3 g4 (Or.inr g1))
        unfold regionError
        rw [hsplit, hz1, hz2]
        have hsize : (4 : ℚ) * ((width / 2 * (height / 2) * 3 : Int) : ℚ) ≤
            ((width * height * 3 : Int) : ℚ) := by
          have h2w : 2 * (width / 2) ≤ width := by omega
          have h2h : 2 * (height / 2) ≤ height := by omega
          have hprod : 2 * (width / 2) * (2 * (height / 2)) ≤ width * height :=
            mul_le_mul h2w h2h (by omega) (by omega)
          have : 4 * (width / 2 * (height / 2) * 3) ≤ width * height * 3 := by nlinarith
          exact_mod_cast this
        push_cast at hc1 hc2 hc3 hc4 hsize ⊢
        nlinarith

/-! ### Runs within the range of `int` -/

/-- On an image whose pixel count times 3 is in the range of `int`, a run with a negative
threshold finds no variance below the threshold, fills nothing and returns its input. -/
theorem negative_threshold_in_range (img : Image) (x y width height : Int) (threshold : ℚ)
    (hsize : img.width * img.height * 3 < 2 ^ 31)
    (hb : InBounds img x y width height) (hneg : threshold < 0) :
    denoisingSequential img x y width height threshold = .ok img ∧
      (∃ vs, denoisingVisits img x y width height threshold = .ok vs ∧
        (∀ v ∈ vs, ∀ r c, v ≠ .fill r c) ∧
        ∀ v ∈ vs, (∃ q, v = .leaf q ∧ (q.width ≤ 1 ∨ q.height ≤ 1)) ∨ (∃ q, v = .split q)) ∧
      (∀ (x' y' w' h' : Int) (avg : Pixel) (v : ℚ), InBounds img x' y' w' h' → 1 ≤ w' →
        1 ≤ h' → calculateVariance img x' y' w' h' avg = .ok v → ¬ v < threshold) := by
  obtain ⟨himg, hvis, _⟩ := denoisingSequential_eq_plan threshold hb
  have hplan := plan_negative hneg (width.toNat + 1) img ⟨x, y, width, height⟩ hsize hb
  have hnofill : ∀ v ∈ plan (width.toNat + 1) img ⟨x, y, width, height⟩ threshold,
      ∀ r c, v ≠ .fill r c := by
    intro v hv r c hfill
    rcases hplan v hv with ⟨q, hq, _⟩ | ⟨q, hq⟩
    · rw [hq] at hfill; cases hfill
    · rw [hq] at hfill; cases hfill
  refine ⟨?_, ⟨_, hvis, hnofill, hplan⟩, ?_⟩
  · rw [himg, applyVisits_of_no_fill img _ hnofill]
  · intro x' y' w' h' avg v hb' hw' hh' hv
    have hle := region_size_le hb' (by omega) (by omega)
    obtain ⟨v', hv', hpos⟩ := calculateVariance_nonneg hb' hw' hh' (by omega) avg
    rw [hv] at hv'
    cases hv'
    exact not_lt.2 (le_trans (le_of_lt hneg) hpos)

/-- On an image whose pixel count times 3 is in the range of `int`, and for a positive
threshold that is a `double`, the squared error introduced by `denoisingSequential` on a
region with at least one pixel is below `threshold * width * height * 3`. -/
theorem error_bound_in_range (img : Image) (x y width height : Int) (threshold : ℚ)
    (hsize : img.width * img.height * 3 < 2 ^ 31)
    (hb : InBounds img x y width height) (hw : 1 ≤ width) (hh : 1 ≤ height)
    (hpos : 0 < threshold) (hd : IsDouble threshold) :
    ∃ img', denoisingSequential img x y width height threshold = .ok img' ∧
      ((regionError img img' x y width height : Int) : ℚ) <
        threshold * (width : ℚ) * (height : ℚ) * 3 := by
  obtain ⟨hrun, _⟩ := @denoisingSequentialFuel_eq_outcome threshold (width.toNat + 1) img
    ⟨x, y, width, height⟩ hb (by show width.toNat < width.toNat + 1; omega)
  refine ⟨_, hrun, ?_⟩
  have h := outcome_error hpos hd (width.toNat + 1) img x y width height hsize hb hw hh
    (by omega)
  push_cast at h
  linarith

/-! ### The image codec: printing and scanning numbers -/

theorem digitChar_facts : ∀ d < 10,
    isDigit (digitChar d) = true ∧ (digitChar d).toNat - 48 = d := by
  decide

theorem isDigit_not_special {c : Char} (h : isDigit c = true) :
    isSpace c = false ∧ c ≠ '\n' ∧ c ≠ '#' ∧ c ≠ '-' ∧ c ≠ '+' := by
  have hne : ∀ d : Char, isDigit d = false → c ≠ d := by
    intro d hd e
    rw [e, hd] at h
    cases h
  have h1 := hne ' ' (by decide)
  have h2 := hne '\t' (by decide)
  have h3 := hne '\n' (by decide)
  have h4 := hne '\r' (by decide)
  have h5 := hne (Char.ofNat 11) (by decide)
  have h6 := hne (Char.ofNat 12) (by decide)
  refine ⟨?_, h3, hne '#' (by decide), hne '-' (by decide), hne '+' (by decide)⟩
  unfold isSpace
  simp [h1, h2, h3, h4, h5, h6]

theorem decimalFuel_isDigit : ∀ (fuel n : Nat), ∀ c ∈ decimalFuel fuel n, isDigit c = true := by
  intro fuel
  induction fuel with
  | zero => intro n c hc; cases hc
  | succ fuel ih =>
    intro n c hc
    rw [decimalFuel] at hc
    by_cases hn : n < 10
    · rw [if_pos hn, List.mem_singleton] at hc
      rw [hc]
      exact (digitChar_facts n hn).1
    · rw [if_neg hn, List.mem_append, List.mem_singleton] at hc
      rcases hc with hc | hc
      · exact ih _ c hc
      · rw [hc]
        exact (digitChar_facts _ (Nat.mod_lt n (by norm_num))).1

theorem decimalFuel_ne_nil (fuel n : Nat) : decimalFuel (fuel + 1) n ≠ [] := by
  rw [decimalFuel]
  by_cases hn : n < 10
  · rw [if_pos hn]
    exact List.cons_ne_nil _ _
  · rw [if_neg hn]
    intro h
    have := congrArg List.length h
    simp at this

/-- Reading back the digits of `n` gives `n`. -/
theorem decimalFuel_value : ∀ (fuel n acc : Nat), n < fuel →
    (decimalFuel fuel n).foldl (fun a c => a * 10 + (c.toNat - 48)) acc =
      acc * 10 ^ (decimalFuel fuel n).length + n := by
  intro fuel
  induction fuel with
  | zero => intro n acc hn; omega
  | succ fuel ih =>
    intro n acc hn
    rw [decimalFuel]
    by_cases h10 : n < 10
    · rw [if_pos h10]
      simp only [List.foldl_cons, List.foldl_nil, List.length_singleton, pow_one]
      rw [(digitChar_facts n h10).2]
    · rw [if_neg h10, List.foldl_append, ih (n / 10) acc (by omega), List.length_append,
        List.length_singleton, pow_succ, ← mul_assoc]
      simp only [List.foldl_cons, List.foldl_nil]
      rw [(digitChar_facts _ (Nat.mod_lt n (by norm_num))).2]
      generalize acc * 10 ^ (decimalFuel fuel (n / 10)).length = A
      omega

theorem decimalFuel_length : ∀ (fuel n k : Nat), n < 10 ^ (k + 1) →
    (decimalFuel fuel n).length ≤ k + 1 := by
  intro fuel
  induction fuel with
  | zero => intro n k _; simp [decimalFuel]
  | succ fuel ih =>
    intro n k hn
    rw [decimalFuel]
    by_cases h10 : n < 10
    · rw [if_pos h10]
      simp
    · rw [if_neg h10, List.length_append, List.length_singleton]
      cases k with
      | zero => simp at hn; omega
      | succ k =>
        have hdiv : n / 10 < 10 ^ (k + 1) := by
          rw [Nat.div_lt_iff_lt_mul (by norm_num)]
          rw [pow_succ] at hn
          exact hn
        have := ih (n / 10) k hdiv
        omega

theorem scanDigits_digits : ∀ (ds r : List Char) (acc : Nat), (∀ c ∈ ds, isDigit c = true) →
    scanDigits (ds ++ r) acc =
      scanDigits r (ds.foldl (fun a c => a * 10 + (c.toNat - 48)) acc) := by
  intro ds
  induction ds with
  | nil => intro r acc _; rfl
  | cons d ds ih =>
    intro r acc h
    rw [List.cons_append, scanDigits, if_pos (h d (List.mem_cons_self d ds)), List.foldl_cons]
    exact ih r _ (fun c hc => h c (List.mem_cons_of_mem d hc))

theorem scanDigits_stop {r : List Char} (h : NoDigitAhead r) (acc : Nat) :
    scanDigits r acc = (acc, r) := by
  cases r with
  | nil => rfl
  | cons c cs =>
    rw [scanDigits, if_neg]
    rw [h c rfl]
    simp

theorem skipSpace_spaces : ∀ (ws r : List Char), (∀ c ∈ ws, isSpace c = true) →
    skipSpace (ws ++ r) = skipSpace r := by
  intro ws
  induction ws with
  | nil => intro r _; rfl
  | cons c ws ih =>
    intro r h
    rw [List.cons_append, skipSpace, if_pos (h c (List.mem_cons_self c ws))]
    exact ih r (fun d hd => h d (List.mem_cons_of_mem c hd))

/-- Scanning a printed natural number, after any white space and before anything
that is not a digit, gives the number back. -/
theorem scanInt_printInt (ws r : List Char) (n : Nat) (hws : ∀ c ∈ ws, isSpace c = true)
    (hr : NoDigitAhead r) : scanInt (ws ++ printInt (n : Int) ++ r) = some ((n : Int), r) := by
  have hprint : printInt (n : Int) = decimalFuel (n + 1) n := by
    unfold printInt
    rw [if_neg (by omega)]
    rfl
  have hdig := decimalFuel_isDigit (n + 1) n
  have hval := decimalFuel_value (n + 1) n 0 (by omega)
  rw [hprint, List.append_assoc]
  cases hds : decimalFuel (n + 1) n with
  | nil => exact absurd hds (decimalFuel_ne_nil n n)
  | cons c cs =>
    rw [hds] at hdig hval
    have hc := hdig c (List.mem_cons_self c cs)
    obtain ⟨hsp, _, _, hminus, hplus⟩ := isDigit_not_special hc
    have hskip : skipSpace (ws ++ (c :: cs ++ r)) = c :: (cs ++ r) := by
      rw [skipSpace_spaces ws _ hws, List.cons_append, skipSpace, if_neg (by rw [hsp]; simp)]
    unfold scanInt
    rw [hskip]
    simp only
    rw [if_neg hminus, if_neg hplus, if_pos hc]
    have hscan : scanDigits (c :: (cs ++ r)) 0 = (n, r) := by
      rw [← List.cons_append, scanDigits_digits (c :: cs) r 0 hdig, scanDigits_stop hr, hval]
      simp
    rw [hscan]

/-! ### The image codec: lines, and the two loops -/

theorem fgetsAux_line : ∀ (l rest : List Char) (room : Nat), (∀ c ∈ l, c ≠ '\n') →
    l.length < room → fgetsAux room (l ++ '\n' :: rest) = (l ++ ['\n'], rest) := by
  intro l
  induction l with
  | nil =>
    intro rest room _ hroom
    cases room with
    | zero => simp at hroom
    | succ room =>
      rw [List.nil_append, fgetsAux, if_pos rfl]
      rfl
  | cons c l ih =>
    intro rest room hl hroom
    cases room with
    | zero => simp at hroom
    | succ room =>
      rw [List.cons_append, fgetsAux, if_neg (hl c (List.mem_cons_self c l)),
        ih rest room (fun d hd => hl d (List.mem_cons_of_mem c hd))
          (by simp only [List.length_cons] at hroom; omega)]
      rfl

theorem fgets_line (l rest : List Char) (hl : ∀ c ∈ l, c ≠ '\n') (hlen : l.length < 99) :
    fgets 100 (l ++ '\n' :: rest) = some (l ++ ['\n'], rest) := by
  have h := fgetsAux_line l rest 99 hl hlen
  cases l with
  | nil =>
    rw [List.nil_append] at h ⊢
    unfold fgets
    simp only
    rw [show (100 : Nat) - 1 = 99 from rfl, h]
  | cons c l =>
    rw [List.cons_append] at h ⊢
    unfold fgets
    simp only
    rw [show (100 : Nat) - 1 = 99 from rfl, h]

theorem bodyText_append (w : Int) : ∀ (l1 l2 : List Pixel) (k : Nat),
    bodyText w k (l1 ++ l2) = bodyText w k l1 ++ bodyText w (k + l1.length) l2 := by
  intro l1
  induction l1 with
  | nil => intro l2 k; simp [bodyText]
  | cons p l1 ih =>
    intro l2 k
    have e : k + (p :: l1).length = k + 1 + l1.length := by
      rw [List.length_cons]
      omega
    rw [e]
    simp only [List.cons_append, bodyText, List.append_eq, ih, List.append_assoc]

/-- The loop of `writePPM` on the first `n` pixels of the store. -/
theorem writePPM_loop (img : Image) (hw : img.width ≠ 0) (out0 : List Char) :
    ∀ n, n ≤ img.data.length →
      (span 0 n).foldlM (fun out i => do
        let p ← img.load i
        let out := out ++ pixelText p
        if img.width = 0 then .error .divByZero
        else if Int.tmod (i + 1) img.width = 0 then pure (out ++ ['\n'])
        else pure out) out0 =
      (.ok (out0 ++ bodyText img.width 0 (img.data.take n)) : Except Fault (List Char)) := by
  intro n
  induction n with
  | zero =>
    intro _
    rw [show span 0 0 = [] from rfl, List.foldlM_nil, List.take_zero,
      show bodyText img.width 0 [] = [] from rfl, List.append_nil]
    rfl
  | succ n ih =>
    intro hn
    have hlt : n < img.data.length := by omega
    rw [span_succ, List.foldlM_append, ih (by omega), ok_bind]
    simp only [List.foldlM_cons, List.foldlM_nil, bind_pure, zero_add]
    rw [load_natCast hlt, ok_bind, if_neg hw, List.take_succ,
      List.getElem?_eq_getElem hlt, bodyText_append]
    simp only [Option.toList, bodyText, List.length_take, Nat.min_eq_left (le_of_lt hlt),
      zero_add, List.append_nil]
    by_cases hmod : Int.tmod ((n : Int) + 1) img.width = 0
    · rw [if_pos hmod, if_pos hmod]
      simp only [bind_pure, List.append_assoc]
      rfl
    · rw [if_neg hmod, if_neg hmod]
      simp only [bind_pure, List.append_assoc, List.append_nil]
      rfl

theorem writePPM_eq (img : Image) (hw : 1 ≤ img.width)
    (hlen : (img.data.length : Int) = img.width * img.height) :
    writePPM img =
      .ok (['P', '3', '\n'] ++ printInt img.width ++ [' '] ++ printInt img.height ++ ['\n'] ++
        ['2', '5', '5', '\n'] ++ bodyText img.width 0 img.data) := by
  unfold writePPM
  simp only
  have hn : (img.width * img.height - 0).toNat = img.data.length := by
    rw [sub_zero, ← hlen, Int.toNat_ofNat]
  rw [forLoop_eq_span, hn, writePPM_loop img (by omega) _ img.data.length (le_refl _),
    List.take_length]

theorem some_bind_opt {α β : Type} (a : α) (f : α → Option β) : (some a >>= f) = f a := rfl

theorem noDigit_space (t : List Char) : NoDigitAhead (' ' :: t) := by
  intro c h
  rw [List.head?_cons] at h
  cases h
  decide

theorem noDigit_newline (t : List Char) : NoDigitAhead ('\n' :: t) := by
  intro c h
  rw [List.head?_cons] at h
  cases h
  decide

theorem toUChar_val (v : Fin 256) : toUChar ((v.val : Nat) : Int) = v := by
  apply Fin.ext
  have h := toUChar_of_range (by omega : (0 : Int) ≤ ((v.val : Nat) : Int))
    (by have := v.isLt; omega)
  omega

/-- One iteration of the reading loop on the text of one pixel. -/
theorem readPixels_step (ws tail : List Char) (p : Pixel) (hws : ∀ c ∈ ws, isSpace c = true)
    (count : Nat) (data : List Pixel) :
    readPixels (count + 1) (ws ++ pixelText p ++ tail) data =
      readPixels count (' ' :: tail) (data ++ [p]) := by
  have e0 : ws ++ pixelText p ++ tail =
      ws ++ printInt ((p.r.val : Nat) : Int) ++
        (' ' :: (printInt ((p.g.val : Nat) : Int) ++
          (' ' :: (printInt ((p.b.val : Nat) : Int) ++ (' ' :: tail))))) := by
    simp only [pixelText, List.append_assoc, List.cons_append, List.nil_append]
  have hsp : ∀ c ∈ [' '], isSpace c = true := by
    intro c hc
    rw [List.mem_singleton] at hc
    rw [hc]
    decide
  have h2 : scanInt (' ' :: (printInt ((p.g.val : Nat) : Int) ++
      (' ' :: (printInt ((p.b.val : Nat) : Int) ++ (' ' :: tail))))) =
      some (((p.g.val : Nat) : Int), ' ' :: (printInt ((p.b.val : Nat) : Int) ++ (' ' :: tail))) :=
    scanInt_printInt [' '] _ p.g.val hsp (noDigit_space _)
  have h3 : scanInt (' ' :: (printInt ((p.b.val : Nat) : Int) ++ (' ' :: tail))) =
      some (((p.b.val : Nat) : Int), ' ' :: tail) :=
    scanInt_printInt [' '] _ p.b.val hsp (noDigit_space _)
  rw [readPixels, e0, scanInt_printInt ws _ p.r.val hws (noDigit_space _), some_bind_opt]
  simp only
  rw [h2, some_bind_opt]
  simp only
  rw [h3, some_bind_opt]
  simp only
  rw [toUChar_val, toUChar_val, toUChar_val]

/-- The reading loop on the text printed for a list of pixels gives the pixels. -/
theorem readPixels_body (w : Int) : ∀ (ps : List Pixel) (k : Nat) (ws rest : List Char)
    (data : List Pixel), (∀ c ∈ ws, isSpace c = true) →
      ∃ ws', readPixels ps.length (ws ++ bodyText w k ps ++ rest) data =
        some (data ++ ps, ws' ++ rest) := by
  intro ps
  induction ps with
  | nil =>
    intro k ws rest data _
    exact ⟨ws, by simp [bodyText, readPixels]⟩
  | cons p ps ih =>
    intro k ws rest data hws
    have hws2 : ∀ c ∈ ' ' :: (if Int.tmod ((k : Int) + 1) w = 0 then ['\n'] else []),
        isSpace c = true := by
      intro c hc
      rw [List.mem_cons] at hc
      rcases hc with rfl | hc
      · decide
      · by_cases hmod : Int.tmod ((k : Int) + 1) w = 0
        · rw [if_pos hmod, List.mem_singleton] at hc
          rw [hc]
          decide
        · rw [if_neg hmod] at hc
          cases hc
    obtain ⟨ws', hrest⟩ := ih (k + 1) _ rest (data ++ [p]) hws2
    refine ⟨ws', ?_⟩
    have e : ws ++ bodyText w k (p :: ps) ++ rest =
        ws ++ pixelText p ++
          ((if Int.tmod ((k : Int) + 1) w = 0 then ['\n'] else []) ++ bodyText w (k + 1) ps ++
            rest) := by
      simp only [bodyText, List.append_assoc]
    rw [List.length_cons, e, readPixels_step ws _ p hws]
    have e2 : ' ' :: ((if Int.tmod ((k : Int) + 1) w = 0 then ['\n'] else []) ++
        bodyText w (k + 1) ps ++ rest) =
        (' ' :: (if Int.tmod ((k : Int) + 1) w = 0 then ['\n'] else [])) ++
          bodyText w (k + 1) ps ++ rest := by
      simp only [List.cons_append, List.append_assoc]
    rw [e2, hrest, List.append_assoc]
    rfl

theorem printInt_natCast (n : Nat) : printInt (n : Int) = decimalFuel (n + 1) n := by
  unfold printInt
  rw [if_neg (by omega)]
  rfl

/-- A printed `int` that is not negative: at most ten characters, all digits, the
first of which exists. -/
theorem printInt_shape (n : Nat) (hn : (n : Int) < 2 ^ 31) :
    (printInt (n : Int)).length ≤ 10 ∧ (∀ c ∈ printInt (n : Int), isDigit c = true) ∧
      ∃ c cs, printInt (n : Int) = c :: cs := by
  rw [printInt_natCast]
  refine ⟨decimalFuel_length (n + 1) n 9 ?_, decimalFuel_isDigit (n + 1) n, ?_⟩
  · have : n < 2 ^ 31 := by exact_mod_cast hn
    omega
  · cases h : decimalFuel (n + 1) n with
    | nil => exact absurd h (decimalFuel_ne_nil n n)
    | cons c cs => exact ⟨c, cs, rfl⟩

/-! ### An image whose pixel count times 3 leaves the range of `int` -/

theorem hugeImage_inBounds : InBounds hugeImage 0 0 26755 26755 := by
  refine ⟨?_, by decide, by decide, by decide, by decide⟩
  show (((grey 255 :: List.replicate 715830024 (grey 0)).length : Nat) : Int) = 26755 * 26755
  rw [List.length_cons, List.length_replicate]
  norm_num

/-- A load from a store that is one pixel followed by copies of another. -/
theorem load_cons_replicate (w h : Int) (a b : Pixel) (n : Nat) {k : Int} (h0 : 0 ≤ k)
    (hk : k < (n : Int) + 1) :
    (Image.mk w h (a :: List.replicate n b)).load k = .ok (if k = 0 then a else b) := by
  unfold Image.load
  simp only
  rw [if_pos h0]
  by_cases hz : k = 0
  · rw [if_pos hz, hz, Int.toNat_zero, List.getElem?_cons_zero]
  · rw [if_neg hz]
    obtain ⟨m, hm⟩ : ∃ m : Nat, k.toNat = m + 1 := ⟨k.toNat - 1, by omega⟩
    have hlt : m < n := by omega
    rw [hm, List.getElem?_cons_succ, List.getElem?_replicate_of_lt hlt]

theorem hugeImage_load {k : Int} (h0 : 0 ≤ k) (hk : k < 715830025) :
    hugeImage.load k = .ok (if k = 0 then grey 255 else grey 0) :=
  load_cons_replicate 26755 26755 (grey 255) (grey 0) 715830024 h0 (by omega)

theorem hugeImage_pixelAt {j i : Int} (hj : 0 ≤ j) (hj2 : j < 26755) (hi : 0 ≤ i)
    (hi2 : i < 26755) :
    hugeImage.pixelAt j i = if j = 0 ∧ i = 0 then grey 255 else grey 0 := by
  have hload := @hugeImage_load (j * 26755 + i) (by omega) (by omega)
  have hpix : hugeImage.pixelAt j i = if j * 26755 + i = 0 then grey 255 else grey 0 := by
    unfold Image.pixelAt
    rw [show hugeImage.width = 26755 from rfl, hload]
  rw [hpix]
  by_cases h : j = 0 ∧ i = 0
  · rw [if_pos h, if_pos (by omega)]
  · rw [if_neg h, if_neg (by omega)]

/-- The sum over `hugeImage` of a function that is `0` at the pixel `(0, 0, 0)`: the one
other pixel is alone to count. -/
theorem hugeImage_regionSum (f : Pixel → Int) (h0 : f (grey 0) = 0) :
    regionSum hugeImage 0 0 26755 26755 f = f (grey 255) := by
  unfold regionSum
  have hmem : (0 : Int) ∈ Finset.Ico (0 : Int) (0 + 26755) := by
    rw [Finset.mem_Ico]
    omega
  rw [Finset.sum_eq_single (0 : Int), Finset.sum_eq_single (0 : Int)]
  · rw [hugeImage_pixelAt (le_refl 0) (by norm_num) (le_refl 0) (by norm_num),
      if_pos ⟨rfl, rfl⟩]
  · intro i hi hne
    rw [Finset.mem_Ico] at hi
    rw [hugeImage_pixelAt (le_refl 0) (by norm_num) hi.1 (by omega), if_neg (fun h => hne h.2), h0]
  · intro h
    exact absurd hmem h
  · intro j hj hne
    rw [Finset.mem_Ico] at hj
    refine Finset.sum_eq_zero (fun i hi => ?_)
    rw [Finset.mem_Ico] at hi
    rw [hugeImage_pixelAt hj.1 (by omega) hi.1 (by omega), if_neg (fun h => hne h.1), h0]
  · intro h
    exact absurd hmem h

theorem hugeImage_average : calculateAverage hugeImage 0 0 26755 26755 = .ok (grey 0) := by
  have e : (((26755 : Int).toNat : Nat) : Int) = 26755 := by decide
  rw [calculateAverage_eq hugeImage_inBounds, e, if_neg (by decide),
    hugeImage_regionSum _ (by decide), hugeImage_regionSum _ (by decide),
    hugeImage_regionSum _ (by decide)]
  decide

theorem hugeImage_variance :
    calculateVariance hugeImage 0 0 26755 26755 (grey 0) =
      .ok (roundDouble ((195075 : ℚ) / (-2147477221 : ℚ))) := by
  have e : (((26755 : Int).toNat : Nat) : Int) = 26755 := by decide
  have ew : wrapInt (26755 * 26755 * 3) = -2147477221 := by decide
  have es : sqDev (grey 0) (grey 255) = 195075 := by decide
  rw [calculateVariance_eq hugeImage_inBounds, e, if_neg (by decide),
    hugeImage_regionSum _ (by decide), ew, es]
  norm_num

theorem hugeImage_variance_le :
    roundDouble ((195075 : ℚ) / (-2147477221 : ℚ)) ≤ -(1 / 16384) := by
  have hd : IsDouble (-(1 / 16384) : ℚ) := by
    have h := @isDouble_dyadic (-1) 14 (by norm_num) (by norm_num)
    norm_num at h ⊢
    exact h
  exact roundDouble_le_of_le hd (by norm_num)

theorem fillRegion_eq_fillImage {img : Image} {x y width height : Int}
    (hb : InBounds img x y width height) (c : Pixel) :
    fillRegion img x y width height c = .ok (fillImage img ⟨x, y, width, height⟩ c) :=
  fillRegion_eq hb c

/-- A region inside the image whose variance is below the threshold is filled at once. -/
theorem denoisingSequential_fill {img : Image} {x y width height : Int} {t : ℚ} {avg : Pixel}
    {v : ℚ} (hb : InBounds img x y width height) (hbig : ¬ (width ≤ 1 ∨ height ≤ 1))
    (havg : calculateAverage img x y width height = .ok avg)
    (hvar : calculateVariance img x y width height avg = .ok v) (hlt : v < t) :
    denoisingSequential img x y width height t =
        .ok (fillImage img ⟨x, y, width, height⟩ avg) ∧
      denoisingVisits img x y width height t = .ok [.fill ⟨x, y, width, height⟩ avg] := by
  constructor
  · unfold denoisingSequential
    rw [denoisingSequentialFuel_fill _ img x y width height t hbig havg hvar hlt,
      fillRegion_eq_fillImage hb]
  · unfold denoisingVisits
    rw [denoisingTraced_fill _ img x y width height t hbig havg hvar hlt,
      fillRegion_eq_fillImage hb, ok_bind]
    rfl

/-- On `hugeImage`, for a threshold above `-1 / 16384`, the run fills the whole image with
`(0, 0, 0)` at once. -/
theorem hugeImage_run {t : ℚ} (ht : -(1 / 16384) < t) :
    denoisingSequential hugeImage 0 0 26755 26755 t =
        .ok (fillImage hugeImage ⟨0, 0, 26755, 26755⟩ (grey 0)) ∧
      denoisingVisits hugeImage 0 0 26755 26755 t =
        .ok [.fill ⟨0, 0, 26755, 26755⟩ (grey 0)] :=
  denoisingSequential_fill hugeImage_inBounds (by decide) hugeImage_average hugeImage_variance
    (lt_of_le_of_lt hugeImage_variance_le ht)

/-! ### A quotient that is rounded up to the threshold -/

theorem roundHalfEven_up {q : ℚ} {f : Int} (h1 : (f : ℚ) + 1 / 2 < q) (h2 : q < (f : ℚ) + 1) :
    roundHalfEven q = f + 1 := by
  have hfl : ⌊q⌋ = f := Int.floor_eq_iff.2 ⟨by linarith, h2⟩
  unfold roundHalfEven
  rw [hfl, if_neg (by linarith), if_pos (by linarith)]

theorem ulpExp_five_twelfths : ulpExp (5 / 12) = -54 := by
  have h1 : (-2 : Int) ≤ Int.log 2 (5 / 12 : ℚ) :=
    (Int.zpow_le_iff_le_log (by norm_num) (by norm_num)).1 (by norm_num)
  have h2 : Int.log 2 (5 / 12 : ℚ) < -1 :=
    (Int.lt_zpow_iff_log_lt (by norm_num) (by norm_num)).1 (by norm_num)
  have h3 : Int.log 2 (5 / 12 : ℚ) = -2 := by omega
  unfold ulpExp
  rw [h3]
  decide

/-- The quotient `5.0 / 12` in `double` arithmetic. -/
theorem roundDouble_five_twelfths : roundDouble (5 / 12) = roundingThreshold := by
  unfold roundDouble roundNonneg
  rw [if_neg (by norm_num), ulpExp_five_twelfths,
    @roundHalfEven_up _ 7505999378950826 (by norm_num) (by norm_num)]
  unfold roundingThreshold
  norm_num

theorem roundingThreshold_isDouble : IsDouble roundingThreshold := by
  have h := @isDouble_dyadic 7505999378950827 54 (by norm_num) (by norm_num)
  unfold roundingThreshold
  norm_num at h ⊢
  exact h

theorem roundingImage_variance :
    calculateVariance roundingImage 0 0 2 2 ⟨0, 0, 0⟩ = .ok roundingThreshold := by
  have hfold : regionFold roundingImage 0 0 2 2 (sqDev ⟨0, 0, 0⟩) = 5 := by decide
  rw [calculateVariance_of_fold (by decide) (by decide) (by decide) (by decide), hfold,
    ← roundDouble_five_twelfths]
  norm_num

/-! ### The striped image -/

theorem stripes_variance : calculateVariance stripesImage 0 0 4 4 (grey 20) = .ok 200 := by
  have hfold : regionFold stripesImage 0 0 4 4 (sqDev (grey 20)) = 9600 := by decide
  rw [calculateVariance_of_fold (by decide) (by decide) (by decide) (by decide), hfold]
  have e : (((9600 : Int) : ℚ) / (((4 : Int) * 4 * 3 : Int) : ℚ)) = ((200 : Int) : ℚ) := by
    norm_num
  rw [e, roundDouble_of_isDouble (isDouble_intCast (by norm_num))]
  norm_num

/-- The calls of `denoisingSequential` on the striped image with thresholds 150 and 250. -/
theorem stripes_visits :
    denoisingVisits stripesImage 0 0 4 4 150 =
        .ok [.split ⟨0, 0, 4, 4⟩, .fill ⟨0, 0, 2, 2⟩ (grey 10), .fill ⟨2, 0, 2, 2⟩ (grey 10),
          .fill ⟨0, 2, 2, 2⟩ (grey 30), .fill ⟨2, 2, 2, 2⟩ (grey 30)] ∧
      denoisingVisits stripesImage 0 0 4 4 250 = .ok [.fill ⟨0, 0, 4, 4⟩ (grey 20)] := by
  have hb : InBounds stripesImage 0 0 4 4 := by decide
  have h1 := (denoisingSequential_eq_planInt 150 (by decide) (by decide) hb).2
  have h2 := (denoisingSequential_eq_planInt 250 (by decide) (by decide) hb).2
  rw [show ((150 : Int) : ℚ) = 150 by norm_num] at h1
  rw [show ((250 : Int) : ℚ) = 250 by norm_num] at h2
  have e1 : planInt 5 stripesImage ⟨0, 0, 4, 4⟩ 150 =
      [.split ⟨0, 0, 4, 4⟩, .fill ⟨0, 0, 2, 2⟩ (grey 10), .fill ⟨2, 0, 2, 2⟩ (grey 10),
        .fill ⟨0, 2, 2, 2⟩ (grey 30), .fill ⟨2, 2, 2, 2⟩ (grey 30)] := by decide
  have e2 : planInt 5 stripesImage ⟨0, 0, 4, 4⟩ 250 = [.fill ⟨0, 0, 4, 4⟩ (grey 20)] := by
    decide
  exact ⟨h1.trans (congrArg Except.ok e1), h2.trans (congrArg Except.ok e2)⟩

/-! ## Main results -/

/-- C1 as stated fails: `denoisingSequential` subdivides the region `(0, 0, 3, 3)` of
a 3 x 3 image (threshold `0`) into the four 1 x 1 regions at `(0,0)`, `(1,0)`,
`(0,1)`, `(1,1)`; the pixel at row 2, column 2 is in the parent and in none of
the children. -/
theorem tiling_counterexample :
    InBounds oddImage 0 0 3 3 ∧
      denoisingVisits oddImage 0 0 3 3 0 =
        .ok [.split ⟨0, 0, 3, 3⟩, .leaf ⟨0, 0, 1, 1⟩, .leaf ⟨1, 0, 1, 1⟩, .leaf ⟨0, 1, 1, 1⟩,
          .leaf ⟨1, 1, 1, 1⟩] ∧
      childRegions 0 0 3 3 = [⟨0, 0, 1, 1⟩, ⟨1, 0, 1, 1⟩, ⟨0, 1, 1, 1⟩, ⟨1, 1, 1, 1⟩] ∧
      (Region.mk 0 0 3 3).Mem 2 2 ∧ ¬ ∃ c ∈ childRegions 0 0 3 3, c.Mem 2 2 := by
  have hb : InBounds oddImage 0 0 3 3 := by decide
  refine ⟨hb, ?_, by decide, by decide, by decide⟩
  obtain ⟨avg, havg⟩ := calculateAverage_ok hb (by decide) (by decide)
  obtain ⟨v, hvar, hpos⟩ := calculateVariance_nonneg hb (by decide) (by decide) (by decide) avg
  have hp : plan 4 oddImage ⟨0, 0, 3, 3⟩ 0 =
      .split ⟨0, 0, 3, 3⟩ ::
        (childRegions 0 0 3 3).flatMap (fun c => plan 3 oddImage c 0) := by
    rw [plan]
    simp only
    rw [if_neg (by decide), havg]
    simp only
    rw [hvar]
    simp only
    rw [if_neg (not_lt.2 hpos)]
  have hkids : (childRegions 0 0 3 3).flatMap (fun c => plan 3 oddImage c 0) =
      [.leaf ⟨0, 0, 1, 1⟩, .leaf ⟨1, 0, 1, 1⟩, .leaf ⟨0, 1, 1, 1⟩, .leaf ⟨1, 1, 1, 1⟩] := by
    decide
  rw [(denoisingSequential_eq_plan 0 hb).2.1]
  show Except.ok (plan 4 oddImage ⟨0, 0, 3, 3⟩ 0) = _
  rw [hp, hkids]

/-- C1, amended. Each of the four child regions of a region with at least two
columns and two rows has `width / 2` columns and `height / 2` rows; together
they cover exactly the rectangle at `(x, y)` with `2 * (width / 2)` columns and
`2 * (height / 2)` rows; when `width` and `height` are even this is the parent
region. -/
theorem children_cover_even_part (x y width height : Int) (hw : 2 ≤ width) (hh : 2 ≤ height)
    (j i : Int) :
    (∀ c ∈ childRegions x y width height, c.width = width / 2 ∧ c.height = height / 2) ∧
      ((∃ c ∈ childRegions x y width height, c.Mem j i) ↔
        (Region.mk x y (2 * (width / 2)) (2 * (height / 2))).Mem j i) ∧
      (width % 2 = 0 → height % 2 = 0 →
        ((∃ c ∈ childRegions x y width height, c.Mem j i) ↔
          (Region.mk x y width height).Mem j i)) := by
  have hkids : (∃ c ∈ childRegions x y width height, c.Mem j i) ↔
      (Region.mk x y (2 * (width / 2)) (2 * (height / 2))).Mem j i := by
    unfold childRegions
    rw [tdiv_two (by omega), tdiv_two (by omega)]
    simp only [List.mem_cons, List.mem_singleton, List.not_mem_nil, or_false, exists_eq_or_imp,
      exists_eq_left, Region.Mem]
    omega
  refine ⟨fun c hc => ?_, hkids, fun h1 h2 => ?_⟩
  · obtain ⟨h1, h2, _, _⟩ := child_shape (by omega : (0 : Int) ≤ width) (by omega) hc
    exact ⟨h1, h2⟩
  rw [hkids]
  unfold Region.Mem
  simp only
  omega

theorem children_cover_even_part_witness :
    (2 : Int) ≤ 4 ∧ (2 : Int) ≤ 6 ∧
      ((∃ c ∈ childRegions 1 1 4 6, c.Mem 6 4) ↔ (Region.mk 1 1 4 6).Mem 6 4) :=
  ⟨by decide, by decide,
    (children_cover_even_part 1 1 4 6 (by decide) (by decide) 6 4).2.2 (by decide) (by decide)⟩

/-- C2, amended. Uniform-enough step: on a region inside the image with at least two
columns and two rows, when the variance that `calculateVariance` returns for the region
around its truncated average (the pooled variance as the `double` division rounds it) is
below the threshold, `denoisingSequential` returns an image in which every pixel of the
region is that average, and the only call made is the one that fills the region:
nothing is subdivided. -/
theorem uniform_enough_fill (img : Image) (x y width height : Int) (threshold : ℚ)
    (avg : Pixel) (variance : ℚ) (hb : InBounds img x y width height) (hw : 2 ≤ width)
    (hh : 2 ≤ height) (havg : calculateAverage img x y width height = .ok avg)
    (hvar : calculateVariance img x y width height avg = .ok variance)
    (hlt : variance < threshold) :
    ∃ img', denoisingSequential img x y width height threshold = .ok img' ∧
      (∀ j i, y ≤ j → j < y + height → x ≤ i → i < x + width →
        img'.load (j * img'.width + i) = .ok avg) ∧
      denoisingVisits img x y width height threshold =
        .ok [.fill ⟨x, y, width, height⟩ avg] := by
  obtain ⟨img', hfill, _, hin, _⟩ := fillRegion_spec hb avg
  have htr : denoisingTraced (width.toNat + 1) img x y width height threshold =
      .ok (img', [.fill ⟨x, y, width, height⟩ avg]) := by
    rw [denoisingTraced_fill width.toNat img x y width height threshold (by omega) havg hvar
      hlt, hfill]
    rfl
  refine ⟨img', ?_, fun j i hj hj2 hi hi2 => hin j i (Region.mem_mk.2 ⟨hj, hj2, hi, hi2⟩), ?_⟩
  · unfold denoisingSequential
    rw [← denoisingTraced_fst, htr]
    rfl
  · unfold denoisingVisits
    rw [htr]

theorem uniform_enough_fill_witness :
    InBounds stripesImage 0 0 4 4 ∧ calculateAverage stripesImage 0 0 4 4 = .ok (grey 20) ∧
      calculateVariance stripesImage 0 0 4 4 (grey 20) = .ok 200 ∧ (200 : ℚ) < 250 ∧
      ∃ img', denoisingSequential stripesImage 0 0 4 4 250 = .ok img' ∧
        (∀ j i, (0 : Int) ≤ j → j < 0 + 4 → (0 : Int) ≤ i → i < 0 + 4 →
          img'.load (j * img'.width + i) = .ok (grey 20)) ∧
        denoisingVisits stripesImage 0 0 4 4 250 = .ok [.fill ⟨0, 0, 4, 4⟩ (grey 20)] :=
  ⟨by decide, by decide, stripes_variance, by norm_num,
    uniform_enough_fill stripesImage 0 0 4 4 250 (grey 20) 200 (by decide) (by decide)
      (by decide) (by decide) stripes_variance (by norm_num)⟩

/-- C3. Base case: when `width ≤ 1` or `height ≤ 1`, `denoisingSequential` returns the
image it was given, whatever the image, the position and the threshold. -/
theorem denoisingSequential_base_case (img : Image) (x y width height : Int) (threshold : ℚ)
    (hsmall : width ≤ 1 ∨ height ≤ 1) :
    denoisingSequential img x y width height threshold = .ok img := by
  unfold denoisingSequential denoisingSequentialFuel
  rw [if_pos hsmall]

theorem denoisingSequential_base_case_witness :
    ((1 : Int) ≤ 1 ∨ (2 : Int) ≤ 1) ∧
      denoisingSequential sampleImage 1 0 1 2 1000 = .ok sampleImage :=
  ⟨by decide, denoisingSequential_base_case sampleImage 1 0 1 2 1000 (by decide)⟩

/-- C4. On a region inside the image with at least one pixel, `calculateAverage`
returns for each channel the floor of the channel sum over the region divided by
`width * height`; the quotient lies in `[0, 255]`, so the value of the returned
8-bit channel is the quotient itself.  (The function only returns a pixel; the
image is an input that it cannot change.) -/
theorem calculateAverage_floor_mean (img : Image) (x y width height : Int)
    (hb : InBounds img x y width height) (hw : 1 ≤ width) (hh : 1 ≤ height) :
    ∃ p, calculateAverage img x y width height = .ok p ∧
      (p.r.val : Int) = regionSum img x y width height (fun q => (q.r.val : Int)) / (width * height) ∧
      (p.g.val : Int) = regionSum img x y width height (fun q => (q.g.val : Int)) / (width * height) ∧
      (p.b.val : Int) = regionSum img x y width height (fun q => (q.b.val : Int)) / (width * height) ∧
      (0 ≤ regionSum img x y width height (fun q => (q.r.val : Int)) / (width * height) ∧
        regionSum img x y width height (fun q => (q.r.val : Int)) / (width * height) ≤ 255) ∧
      (0 ≤ regionSum img x y width height (fun q => (q.g.val : Int)) / (width * height) ∧
        regionSum img x y width height (fun q => (q.g.val : Int)) / (width * height) ≤ 255) ∧
      (0 ≤ regionSum img x y width height (fun q => (q.b.val : Int)) / (width * height) ∧
        regionSum img x y width height (fun q => (q.b.val : Int)) / (width * height) ≤ 255) := by
  have hr := channel_mean_range img x y width height hw hh (fun q => (q.r.val : Int))
    (fun q => by positivity) (fun q => by have := q.r.isLt; show ((q.r.val : Nat) : Int) ≤ 255; omega)
  have hg := channel_mean_range img x y width height hw hh (fun q => (q.g.val : Int))
    (fun q => by positivity) (fun q => by have := q.g.isLt; show ((q.g.val : Nat) : Int) ≤ 255; omega)
  have hbl := channel_mean_range img x y width height hw hh (fun q => (q.b.val : Int))
    (fun q => by positivity) (fun q => by have := q.b.isLt; show ((q.b.val : Nat) : Int) ≤ 255; omega)
  have hne : ¬ ((height.toNat : Int) * (width.toNat : Int) = 0) := by
    have e1 : ((height.toNat : Nat) : Int) = height := Int.toNat_of_nonneg (by omega)
    have e2 : ((width.toNat : Nat) : Int) = width := Int.toNat_of_nonneg (by omega)
    rw [e1, e2]
    exact ne_of_gt (mul_pos (by omega) (by omega))
  refine ⟨_, by rw [calculateAverage_eq hb, if_neg hne], ?_, ?_, ?_, hr.2, hg.2, hbl.2⟩
  · simp only
    rw [hr.1]
    exact toUChar_of_range hr.2.1 hr.2.2
  · simp only
    rw [hg.1]
    exact toUChar_of_range hg.2.1 hg.2.2
  · simp only
    rw [hbl.1]
    exact toUChar_of_range hbl.2.1 hbl.2.2

theorem calculateAverage_floor_mean_witness :
    InBounds sampleImage 0 0 2 2 ∧ (1 : Int) ≤ 2 ∧
      ∃ p, calculateAverage sampleImage 0 0 2 2 = .ok p ∧
        (p.r.val : Int) = regionSum sampleImage 0 0 2 2 (fun q => (q.r.val : Int)) / (2 * 2) :=
  ⟨by decide, by decide,
    (calculateAverage_floor_mean sampleImage 0 0 2 2 (by decide) (by decide) (by decide)).imp
      (fun _ h => ⟨h.1, h.2.1⟩)⟩



/-- C6. On a region inside the image with at least one pixel in which every pixel
is the same pixel `c`, `calculateAverage` returns `c` and `calculateVariance`
around `c` returns `0`. -/
theorem uniform_region_statistics (img : Image) (x y width height : Int) (c : Pixel)
    (hb : InBounds img x y width height) (hw : 1 ≤ width) (hh : 1 ≤ height)
    (hunif : ∀ j i, y ≤ j → j < y + height → x ≤ i → i < x + width →
      img.load (j * img.width + i) = .ok c) :
    calculateAverage img x y width height = .ok c ∧
      calculateVariance img x y width height c = .ok 0 :=
  uniform_stats img x y width height c hb hw hh hunif

theorem uniform_region_statistics_witness :
    InBounds flatImage 0 0 2 2 ∧
      calculateAverage flatImage 0 0 2 2 = .ok ⟨7, 8, 9⟩ ∧
      calculateVariance flatImage 0 0 2 2 ⟨7, 8, 9⟩ = .ok 0 :=
  ⟨by decide, uniform_region_statistics flatImage 0 0 2 2 ⟨7, 8, 9⟩ (by decide) (by decide)
    (by decide) (by
      intro j i h1 h2 h3 h4
      have hj : j = 0 ∨ j = 1 := by omega
      have hi : i = 0 ∨ i = 1 := by omega
      rcases hj with rfl | rfl <;> rcases hi with rfl | rfl <;> decide)⟩

/-- C7. After `fillRegion` on a region inside the image, every pixel at row `j` and
column `i` with `y ≤ j < y + height` and `x ≤ i < x + width` is the given colour. -/
theorem fillRegion_fills (img : Image) (x y width height : Int) (color : Pixel)
    (hb : InBounds img x y width height) :
    ∃ img', fillRegion img x y width height color = .ok img' ∧
      ∀ j i, y ≤ j → j < y + height → x ≤ i → i < x + width →
        img'.load (j * img'.width + i) = .ok color := by
  obtain ⟨img', h1, _, h3, _⟩ := fillRegion_spec hb color
  exact ⟨img', h1, fun j i hj hj2 hi hi2 => h3 j i (Region.mem_mk.2 ⟨hj, hj2, hi, hi2⟩)⟩

theorem fillRegion_fills_witness :
    InBounds sampleImage 1 0 1 2 ∧
      ∃ img', fillRegion sampleImage 1 0 1 2 ⟨1, 2, 3⟩ = .ok img' ∧
        ∀ j i, (0 : Int) ≤ j → j < 0 + 2 → (1 : Int) ≤ i → i < 1 + 1 →
          img'.load (j * img'.width + i) = .ok ⟨1, 2, 3⟩ :=
  ⟨by decide, fillRegion_fills sampleImage 1 0 1 2 ⟨1, 2, 3⟩ (by decide)⟩

/-- C8. Termination: for every image, region (any integers) and threshold, every
amount of fuel from `width.toNat + 1` on gives the same result, and that result
is not the out-of-fuel fault.  The recursion returns at once when `width ≤ 1` or
`height ≤ 1`, and otherwise every recursive call is on a region that is
strictly narrower and strictly lower. -/
theorem denoisingSequential_terminates (img : Image) (x y width height : Int) (threshold : ℚ) :
    (∀ fuel, width.toNat + 1 ≤ fuel →
        denoisingSequentialFuel fuel img x y width height threshold =
          denoisingSequential img x y width height threshold) ∧
      denoisingSequential img x y width height threshold ≠ .error .outOfFuel ∧
      (width ≤ 1 ∨ height ≤ 1 →
        denoisingSequential img x y width height threshold = .ok img) ∧
      (2 ≤ width → 2 ≤ height → ∀ c ∈ childRegions x y width height,
        0 ≤ c.width ∧ c.width < width ∧ 0 ≤ c.height ∧ c.height < height) := by
  refine ⟨fun fuel hfuel => denoisingSequentialFuel_stable threshold img x y width height fuel
      hfuel,
    denoisingSequentialFuel_ne_outOfFuel threshold _ img x y width height (by omega), ?_, ?_⟩
  · intro hsmall
    unfold denoisingSequential denoisingSequentialFuel
    rw [if_pos hsmall]
  · intro hw hh c hc
    obtain ⟨h1, h2, _, _⟩ := child_shape (by omega : (0 : Int) ≤ width) (by omega) hc
    omega

/-- C9. Monotonicity in the threshold: on a region inside the image and for
`t1 ≤ t2`, every region filled by the run with `t1` is a region filled by the
run with `t2` or a descendant of one (so it lies inside it), and no region
filled with `t1` is subdivided with `t2`. -/
theorem threshold_monotone (img : Image) (x y width height : Int) (t1 t2 : ℚ)
    (hb : InBounds img x y width height) (hle : t1 ≤ t2) :
    ∃ vs1 vs2, denoisingVisits img x y width height t1 = .ok vs1 ∧
      denoisingVisits img x y width height t2 = .ok vs2 ∧
      ∀ r a, .fill r a ∈ vs1 →
        (∃ r' a', .fill r' a' ∈ vs2 ∧ Descends r r' ∧ r.Within r') ∧ .split r ∉ vs2 := by
  obtain ⟨_, hv1, _⟩ := denoisingSequential_eq_plan t1 hb
  obtain ⟨_, hv2, _⟩ := denoisingSequential_eq_plan t2 hb
  refine ⟨_, _, hv1, hv2, fun r a hmem => ?_⟩
  obtain ⟨⟨r', a', hr', hd⟩, hns⟩ :=
    plan_mono hle (width.toNat + 1) img ⟨x, y, width, height⟩ r a hmem
  exact ⟨⟨r', a', hr', hd, hd.within_and_narrower.1⟩, hns⟩

theorem threshold_monotone_witness :
    InBounds stripesImage 0 0 4 4 ∧ (150 : ℚ) ≤ 250 ∧
      denoisingVisits stripesImage 0 0 4 4 150 =
        .ok [.split ⟨0, 0, 4, 4⟩, .fill ⟨0, 0, 2, 2⟩ (grey 10), .fill ⟨2, 0, 2, 2⟩ (grey 10),
          .fill ⟨0, 2, 2, 2⟩ (grey 30), .fill ⟨2, 2, 2, 2⟩ (grey 30)] ∧
      denoisingVisits stripesImage 0 0 4 4 250 = .ok [.fill ⟨0, 0, 4, 4⟩ (grey 20)] ∧
      ∃ vs1 vs2, denoisingVisits stripesImage 0 0 4 4 150 = .ok vs1 ∧
        denoisingVisits stripesImage 0 0 4 4 250 = .ok vs2 ∧
        ∀ r a, .fill r a ∈ vs1 →
          (∃ r' a', .fill r' a' ∈ vs2 ∧ Descends r r' ∧ r.Within r') ∧ .split r ∉ vs2 :=
  ⟨by decide, by norm_num, stripes_visits.1, stripes_visits.2,
    threshold_monotone stripesImage 0 0 4 4 150 250 (by decide) (by norm_num)⟩

/-- C11. Bounds safety: on a region inside an image whose store has
`width * height` pixels, `denoisingSequential` returns an image and not a fault
(a load or store outside the store, or a division by zero, at any depth of the
recursion would make the result a fault); every pixel of every region visited
has its index `j * width + i` inside the store, and every region on which the
statistics are computed has at least two columns and two rows, so `count` is
not zero. -/
theorem bounds_safety (img : Image) (x y width height : Int) (threshold : ℚ)
    (hb : InBounds img x y width height) :
    (∃ img', denoisingSequential img x y width height threshold = .ok img') ∧
      ∃ vs, denoisingVisits img x y width height threshold = .ok vs ∧
        ∀ v ∈ vs,
          (∀ j i, v.region.Mem j i →
            0 ≤ j * img.width + i ∧ j * img.width + i < (img.data.length : Int)) ∧
          ((∀ q, v ≠ .leaf q) → 2 ≤ v.region.width ∧ 2 ≤ v.region.height) := by
  obtain ⟨himg, hvis, _⟩ := denoisingSequential_eq_plan threshold hb
  refine ⟨⟨_, himg⟩, _, hvis, fun v hv => ?_⟩
  obtain ⟨hdesc, hbig⟩ := plan_descends threshold _ img _ v hv
  refine ⟨fun j i hm => ?_, hbig⟩
  obtain ⟨h1, h2, h3, h4⟩ := Region.mem_mk.1 (hdesc.within_and_narrower.1 j i hm)
  exact index_in_store hb h1 h2 h3 h4

theorem bounds_safety_witness :
    InBounds sampleImage 0 0 2 2 ∧
      ∃ img', denoisingSequential sampleImage 0 0 2 2 1000 = .ok img' :=
  ⟨by decide, (bounds_safety sampleImage 0 0 2 2 1000 (by decide)).1⟩

/-- C12. The four child regions of a region with at least two columns and two rows
are pairwise disjoint, and each lies inside the parent region. -/
theorem children_disjoint_inside (x y width height : Int) (hw : 2 ≤ width) (hh : 2 ≤ height) :
    (childRegions x y width height).Pairwise Region.Disjoint ∧
      (childRegions x y width height).length = 4 ∧
      ∀ c ∈ childRegions x y width height, c.Within ⟨x, y, width, height⟩ :=
  ⟨children_disjoint (by omega) (by omega), rfl,
    fun _ hc => child_within (by omega) (by omega) hc⟩

theorem children_disjoint_inside_witness :
    (2 : Int) ≤ 5 ∧ (2 : Int) ≤ 3 ∧ (childRegions 1 2 5 3).Pairwise Region.Disjoint :=
  ⟨by decide, by decide, (children_disjoint_inside 1 2 5 3 (by decide) (by decide)).1⟩

/-- C16. Buffer shape invariant: on a region inside an image whose store has
`width * height` pixels, `fillRegion` and `denoisingSequential` return an image
with the same width, height and store length, so the store still has
`width * height` pixels. -/
theorem shape_preserved (img : Image) (x y width height : Int) (color : Pixel) (threshold : ℚ)
    (hb : InBounds img x y width height) :
    (∃ img', fillRegion img x y width height color = .ok img' ∧
        img'.width = img.width ∧ img'.height = img.height ∧
        img'.data.length = img.data.length ∧
        (img'.data.length : Int) = img'.width * img'.height) ∧
      (∃ img', denoisingSequential img x y width height threshold = .ok img' ∧
        img'.width = img.width ∧ img'.height = img.height ∧
        img'.data.length = img.data.length ∧
        (img'.data.length : Int) = img'.width * img'.height) := by
  obtain ⟨imgF, hfill, ⟨hw1, hh1, hl1⟩, _, _⟩ := fillRegion_spec hb color
  obtain ⟨himg, _, ⟨hw2, hh2, hl2⟩, _⟩ := denoisingSequential_eq_plan threshold hb
  exact ⟨⟨imgF, hfill, hw1, hh1, hl1, by rw [hl1, hw1, hh1]; exact hb.1⟩,
    ⟨_, himg, hw2, hh2, hl2, by rw [hl2, hw2, hh2]; exact hb.1⟩⟩

theorem shape_preserved_witness :
    InBounds sampleImage 0 0 2 2 ∧
      ∃ img', fillRegion sampleImage 0 0 2 2 ⟨1, 2, 3⟩ = .ok img' ∧
        img'.width = sampleImage.width ∧ img'.height = sampleImage.height ∧
        img'.data.length = sampleImage.data.length ∧
        (img'.data.length : Int) = img'.width * img'.height :=
  ⟨by decide, (shape_preserved sampleImage 0 0 2 2 ⟨1, 2, 3⟩ 1000 (by decide)).1⟩

/-- C18. Frame: on a region inside the image, `fillRegion` and
`denoisingSequential` leave every pixel of the image whose position is outside
the region as it was. -/
theorem outside_region_unchanged (img : Image) (x y width height : Int) (color : Pixel)
    (threshold : ℚ) (hb : InBounds img x y width height) :
    (∃ img', fillRegion img x y width height color = .ok img' ∧
        ∀ j i, 0 ≤ j → j < img.height → 0 ≤ i → i < img.width →
          ¬ (y ≤ j ∧ j < y + height ∧ x ≤ i ∧ i < x + width) →
            img'.load (j * img'.width + i) = img.load (j * img.width + i)) ∧
      (∃ img', denoisingSequential img x y width height threshold = .ok img' ∧
        ∀ j i, 0 ≤ j → j < img.height → 0 ≤ i → i < img.width →
          ¬ (y ≤ j ∧ j < y + height ∧ x ≤ i ∧ i < x + width) →
            img'.load (j * img'.width + i) = img.load (j * img.width + i)) := by
  obtain ⟨imgF, hfill, _, _, hout⟩ := fillRegion_spec hb color
  obtain ⟨himg, _, _, hout2⟩ := denoisingSequential_eq_plan threshold hb
  exact ⟨⟨imgF, hfill, fun j i hj _ hi hi2 hn =>
      hout j i hj hi hi2 (fun hm => hn (Region.mem_mk.1 hm))⟩,
    ⟨_, himg, fun j i hj _ hi hi2 hn =>
      hout2 j i hj hi hi2 (fun hm => hn (Region.mem_mk.1 hm))⟩⟩

theorem outside_region_unchanged_witness :
    InBounds sampleImage 1 0 1 2 ∧
      ∃ img', fillRegion sampleImage 1 0 1 2 ⟨1, 2, 3⟩ = .ok img' ∧
        ∀ j i, 0 ≤ j → j < sampleImage.height → 0 ≤ i → i < sampleImage.width →
          ¬ (0 ≤ j ∧ j < 0 + 2 ∧ 1 ≤ i ∧ i < 1 + 1) →
            img'.load (j * img'.width + i) = sampleImage.load (j * sampleImage.width + i) :=
  ⟨by decide, (outside_region_unchanged sampleImage 1 0 1 2 ⟨1, 2, 3⟩ 1000 (by decide)).1⟩

/-- C19. Uniform regions are fixed points: when all pixels of a region inside the
image are equal, `denoisingSequential` on that region returns the input image,
for every threshold (positive, zero or negative). -/
theorem uniform_fixed_point (img : Image) (x y width height : Int) (threshold : ℚ) (c : Pixel)
    (hb : InBounds img x y width height)
    (hunif : ∀ j i, y ≤ j → j < y + height → x ≤ i → i < x + width →
      img.load (j * img.width + i) = .ok c) :
    denoisingSequential img x y width height threshold = .ok img :=
  denoisingSequentialFuel_uniform threshold c _ img x y width height hb (by omega) hunif

theorem uniform_fixed_point_witness :
    InBounds flatImage 0 0 2 2 ∧ denoisingSequential flatImage 0 0 2 2 5 = .ok flatImage :=
  ⟨by decide, uniform_fixed_point flatImage 0 0 2 2 5 ⟨7, 8, 9⟩ (by decide) (by
    intro j i h1 h2 h3 h4
    have hj : j = 0 ∨ j = 1 := by omega
    have hi : i = 0 ∨ i = 1 := by omega
    rcases hj with rfl | rfl <;> rcases hi with rfl | rfl <;> decide)⟩

/-- C15 as stated fails: for the 4 x 4 image with the outlier in the last position,
the variance of the whole region around `(25, 25, 25)` is `3375`, not `1125`. -/
theorem scenario_variance_counterexample :
    calculateAverage (outlierImage 15) 0 0 4 4 = .ok (grey 25) ∧
      calculateVariance (outlierImage 15) 0 0 4 4 (grey 25) = .ok 3375 ∧
      calculateVariance (outlierImage 15) 0 0 4 4 (grey 25) ≠ .ok 1125 := by
  have hv := outlier_variance (by decide : 15 < 16)
  refine ⟨(outlier_facts 15 (by decide)).2.1, hv, ?_⟩
  rw [hv]
  intro h
  have h' := Except.ok.inj h
  norm_num at h'

/-- C15, amended. For the 4 x 4 image whose pixels are `(10, 10, 10)` except one
pixel `(250, 250, 250)` at any position `k`, and threshold `1000`:
`calculateAverage` of the whole region is `(25, 25, 25)`, `calculateVariance`
around it is `3375`; `denoisingSequential` does not fill the 4 x 4 region but
subdivides it into the four 2 x 2 quadrants, fills each quadrant without the
outlier with `(10, 10, 10)` and subdivides the one with the outlier; in the
final image, which is the input image, every pixel of the three quadrants
without the outlier is `(10, 10, 10)`. -/
theorem scenario_outlier (k : Nat) (hk : k < 16) :
    calculateAverage (outlierImage k) 0 0 4 4 = .ok (grey 25) ∧
      calculateVariance (outlierImage k) 0 0 4 4 (grey 25) = .ok 3375 ∧
      childRegions 0 0 4 4 = [⟨0, 0, 2, 2⟩, ⟨2, 0, 2, 2⟩, ⟨0, 2, 2, 2⟩, ⟨2, 2, 2, 2⟩] ∧
      (∃ vs, denoisingVisits (outlierImage k) 0 0 4 4 1000 = .ok vs ∧
        vs.head? = some (.split ⟨0, 0, 4, 4⟩) ∧
        ∀ q ∈ childRegions 0 0 4 4,
          (q.Mem ((k / 4 : Nat) : Int) ((k % 4 : Nat) : Int) → .split q ∈ vs) ∧
          (¬ q.Mem ((k / 4 : Nat) : Int) ((k % 4 : Nat) : Int) → .fill q (grey 10) ∈ vs)) ∧
      denoisingSequential (outlierImage k) 0 0 4 4 1000 = .ok (outlierImage k) ∧
      ∀ q ∈ childRegions 0 0 4 4, ¬ q.Mem ((k / 4 : Nat) : Int) ((k % 4 : Nat) : Int) →
        ∀ j i, q.Mem j i →
          (outlierImage k).load (j * (outlierImage k).width + i) = .ok (grey 10) := by
  obtain ⟨hb, havg, _, hhead, hkids, happly, hdata⟩ := outlier_facts k hk
  have hrun := denoisingSequential_eq_planInt 1000 (by decide)
    (show (4 : Int) * 4 * 3 ≤ 1048576 by decide) hb
  rw [show ((1000 : Int) : ℚ) = 1000 by norm_num] at hrun
  refine ⟨havg, outlier_variance hk, by decide, ⟨_, hrun.2, hhead, fun q hq => ?_⟩, ?_, ?_⟩
  · have h := hkids q hq
    constructor
    · intro hm
      rw [if_pos hm] at h
      exact h
    · intro hm
      rw [if_neg hm] at h
      exact h
  · rw [hrun.1]
    exact congrArg Except.ok happly
  · intro q hq hnot j i hm
    have hin := child_within (by decide : (0 : Int) ≤ 4) (by decide : (0 : Int) ≤ 4) hq j i hm
    obtain ⟨h1, h2, h3, h4⟩ := Region.mem_mk.1 hin
    have hne : (j * 4 + i).toNat ≠ k := by
      rintro rfl
      apply hnot
      have e1 : (((j * 4 + i).toNat / 4 : Nat) : Int) = j := by omega
      have e2 : (((j * 4 + i).toNat % 4 : Nat) : Int) = i := by omega
      rw [e1, e2]
      exact hm
    show (outlierImage k).load (j * 4 + i) = .ok (grey 10)
    rw [load_eq_ok_iff]
    exact ⟨by omega, hdata _ (by omega) hne⟩

theorem scenario_outlier_witness :
    (5 : Nat) < 16 ∧ denoisingSequential (outlierImage 5) 0 0 4 4 1000 = .ok (outlierImage 5) :=
  ⟨by decide, (scenario_outlier 5 (by decide)).2.2.2.2.1⟩

/-- C20. `denoisingSequential` is not idempotent: on the 4 x 4 grey image whose top
quadrants hold `0, 20, 0, 20` and whose bottom quadrants hold `20, 40, 20, 40`,
with threshold `150`, the first pass fills the quadrants with `10, 10, 30, 30`
and a second pass on that output fills the whole image with `20`. -/
theorem not_idempotent :
    (InBounds stripesImage 0 0 4 4 ∧
        denoisingSequential stripesImage 0 0 4 4 150 = .ok stripesOnce ∧
        denoisingSequential stripesOnce 0 0 4 4 150 = .ok stripesTwice ∧
        stripesTwice ≠ stripesOnce) ∧
      ∃ (img : Image) (x y width height : Int) (threshold : ℚ) (img1 img2 : Image),
        InBounds img x y width height ∧
          denoisingSequential img x y width height threshold = .ok img1 ∧
          denoisingSequential img1 x y width height threshold = .ok img2 ∧ img2 ≠ img1 := by
  have hb : InBounds stripesImage 0 0 4 4 := by decide
  have hb1 : InBounds stripesOnce 0 0 4 4 := by decide
  have h1 := (denoisingSequential_eq_planInt 150 (by decide) (by decide) hb).1
  have h2 := (denoisingSequential_eq_planInt 150 (by decide) (by decide) hb1).1
  rw [show ((150 : Int) : ℚ) = 150 by norm_num] at h1 h2
  have e1 : applyVisits (planInt 5 stripesImage ⟨0, 0, 4, 4⟩ 150) stripesImage = stripesOnce := by
    decide
  have e2 : applyVisits (planInt 5 stripesOnce ⟨0, 0, 4, 4⟩ 150) stripesOnce = stripesTwice := by
    decide
  have hfirst : denoisingSequential stripesImage 0 0 4 4 150 = .ok stripesOnce := by
    rw [h1]
    exact congrArg Except.ok e1
  have hsecond : denoisingSequential stripesOnce 0 0 4 4 150 = .ok stripesTwice := by
    rw [h2]
    exact congrArg Except.ok e2
  have hne : stripesTwice ≠ stripesOnce := by decide
  exact ⟨⟨hb, hfirst, hsecond, hne⟩,
    ⟨stripesImage, 0, 0, 4, 4, 150, stripesOnce, stripesTwice, hb, hfirst, hsecond, hne⟩⟩

/-- C13. Order independence: on a region inside the image, the variant of
`denoisingSequential` that at every subdivision visits the four children in
any permutation of the order of the code (`order` may choose a different
permutation for every region) returns the image that `denoisingSequential`
returns. -/
theorem order_independent (order : Region → List Region)
    (hperm : ∀ r : Region, (order r).Perm (childRegions r.x r.y r.width r.height))
    (img : Image) (x y width height : Int) (threshold : ℚ)
    (hb : InBounds img x y width height) :
    denoisingOrdered order img x y width height threshold =
      denoisingSequential img x y width height threshold :=
  denoisingOrderedFuel_eq order hperm threshold _ img x y width height hb (by omega)

theorem order_independent_witness :
    (∀ r : Region, (reversedChildren r).Perm (childRegions r.x r.y r.width r.height)) ∧
      InBounds stripesImage 0 0 4 4 ∧
      denoisingOrdered reversedChildren stripesImage 0 0 4 4 150 =
        denoisingSequential stripesImage 0 0 4 4 150 :=
  ⟨fun _ => List.reverse_perm _, by decide,
    order_independent reversedChildren (fun _ => List.reverse_perm _) stripesImage 0 0 4 4 150
      (by decide)⟩



/-- C17. Codec round trip: for every buffer with width and height at least 1, whose pixel
count width times height is in the range of `int` and whose data holds that many pixels
(each channel a value in 0..255), `writePPM` produces a text, and `readPPM` on that text
gives back a buffer with the same width, the same height and the same pixels in the same
row-major order. -/
theorem ppm_round_trip (img : Image) (hw : 1 ≤ img.width) (hh : 1 ≤ img.height)
    (hprod : img.width * img.height < 2 ^ 31)
    (hlen : (img.data.length : Int) = img.width * img.height) :
    ∃ text, writePPM img = .ok text ∧ readPPM text = some img := by
  refine ⟨_, writePPM_eq img hw hlen, ?_⟩
  obtain ⟨width, height, data⟩ := img
  simp only at hw hh hprod hlen ⊢
  have hwi : width < 2 ^ 31 := by nlinarith
  have hhi : height < 2 ^ 31 := by nlinarith
  obtain ⟨wn, rfl⟩ := Int.eq_ofNat_of_zero_le (by omega : (0 : Int) ≤ width)
  obtain ⟨hn, rfl⟩ := Int.eq_ofNat_of_zero_le (by omega : (0 : Int) ≤ height)
  obtain ⟨hwlen, hwdig, cw, csw, hwcons⟩ := printInt_shape wn hwi
  obtain ⟨hhlen, hhdig, -⟩ := printInt_shape hn hhi
  have hline : ∀ c ∈ printInt (wn : Int) ++ ' ' :: printInt (hn : Int), c ≠ '\n' := by
    intro c hc
    rw [List.mem_append, List.mem_cons] at hc
    rcases hc with hc | rfl | hc
    · exact (isDigit_not_special (hwdig c hc)).2.1
    · decide
    · exact (isDigit_not_special (hhdig c hc)).2.1
  have hlinelen : (printInt (wn : Int) ++ ' ' :: printInt (hn : Int)).length < 99 := by
    rw [List.length_append, List.length_cons]
    omega
  have hf1 : fgets 100 (['P', '3', '\n'] ++ printInt (wn : Int) ++ [' '] ++ printInt (hn : Int) ++
      ['\n'] ++ ['2', '5', '5', '\n'] ++ bodyText (wn : Int) 0 data) =
      some (['P', '3', '\n'], (printInt (wn : Int) ++ ' ' :: printInt (hn : Int)) ++
        '\n' :: (['2', '5', '5'] ++ '\n' :: bodyText (wn : Int) 0 data)) := by
    have e : ['P', '3', '\n'] ++ printInt (wn : Int) ++ [' '] ++ printInt (hn : Int) ++
        ['\n'] ++ ['2', '5', '5', '\n'] ++ bodyText (wn : Int) 0 data =
        ['P', '3'] ++ '\n' :: ((printInt (wn : Int) ++ ' ' :: printInt (hn : Int)) ++
          '\n' :: (['2', '5', '5'] ++ '\n' :: bodyText (wn : Int) 0 data)) := by
      simp only [List.append_assoc, List.cons_append, List.nil_append]
    rw [e]
    exact fgets_line ['P', '3'] _ (by decide) (by decide)
  have hf2 := fgets_line (printInt (wn : Int) ++ ' ' :: printInt (hn : Int))
    (['2', '5', '5'] ++ '\n' :: bodyText (wn : Int) 0 data) hline hlinelen
  have hf3 := fgets_line ['2', '5', '5'] (bodyText (wn : Int) 0 data) (by decide) (by decide)
  have hhead : ((printInt (wn : Int) ++ ' ' :: printInt (hn : Int)) ++ ['\n']).head? ≠
      some '#' := by
    rw [hwcons]
    intro h
    have hc : cw = '#' := by simpa using h
    have hd := hwdig cw (by rw [hwcons]; exact List.mem_cons_self _ _)
    exact (isDigit_not_special hd).2.2.1 hc
  have hskip : ∀ fuel, skipComments (fuel + 1) (some ['P', '3', '\n'])
      ((printInt (wn : Int) ++ ' ' :: printInt (hn : Int)) ++
        '\n' :: (['2', '5', '5'] ++ '\n' :: bodyText (wn : Int) 0 data)) =
      some ((printInt (wn : Int) ++ ' ' :: printInt (hn : Int)) ++ ['\n'],
        ['2', '5', '5'] ++ '\n' :: bodyText (wn : Int) 0 data) := by
    intro fuel
    rw [skipComments, hf2]
    simp only
    rw [if_neg hhead]
  have hs1 : scanInt ((printInt (wn : Int) ++ ' ' :: printInt (hn : Int)) ++ ['\n']) =
      some ((wn : Int), ' ' :: (printInt (hn : Int) ++ ['\n'])) := by
    have e : (printInt (wn : Int) ++ ' ' :: printInt (hn : Int)) ++ ['\n'] =
        [] ++ printInt (wn : Int) ++ ' ' :: (printInt (hn : Int) ++ ['\n']) := by
      simp only [List.append_assoc, List.cons_append, List.nil_append]
    rw [e]
    exact scanInt_printInt [] _ wn (fun c hc => absurd hc (List.not_mem_nil c))
      (noDigit_space _)
  have hs2 : scanInt (' ' :: (printInt (hn : Int) ++ ['\n'])) = some ((hn : Int), ['\n']) :=
    scanInt_printInt [' '] ['\n'] hn
      (fun c hc => by rw [List.mem_singleton] at hc; rw [hc]; decide) (noDigit_newline _)
  have hcount : ((wn : Int) * (hn : Int)).toNat = data.length := by
    rw [← hlen]
    exact Int.toNat_natCast _
  obtain ⟨ws', hpix⟩ := readPixels_body (wn : Int) data 0 [] [] []
    (fun c hc => absurd hc (List.not_mem_nil c))
  rw [List.nil_append, List.append_nil, List.nil_append, List.append_nil] at hpix
  unfold readPPM
  rw [hf1]
  simp only
  rw [hskip, some_bind_opt]
  simp only
  rw [hs1, some_bind_opt]
  simp only
  rw [hs2, some_bind_opt]
  simp only
  rw [hf3]
  simp only
  rw [hcount, hpix, some_bind_opt]
  rfl

theorem ppm_round_trip_witness :
    ∃ text, writePPM sampleImage = .ok text ∧ readPPM text = some sampleImage :=
  ppm_round_trip sampleImage (by decide) (by decide) (by decide) (by decide)

/-- C2 as stated fails, by the rounding of the quotient.  On the 2 x 2 image
`roundingImage` the truncated average is `(0, 0, 0)` and the pooled variance around it is
`5 / 12`, strictly below the threshold `roundingThreshold` (a `double`); the division of
`calculateVariance` rounds `5 / 12` up to that threshold, the test `variance < threshold`
fails, and `denoisingSequential` subdivides the region into four 1 x 1 regions and returns
the image unchanged: its first pixel `(1, 1, 1)` is not the average. -/
theorem uniform_enough_counterexample :
    InBounds roundingImage 0 0 2 2 ∧ IsDouble roundingThreshold ∧
      calculateAverage roundingImage 0 0 2 2 = .ok ⟨0, 0, 0⟩ ∧
      ((regionSum roundingImage 0 0 2 2 (sqDev ⟨0, 0, 0⟩) : Int) : ℚ) /
        (((2 : Int) * 2 * 3 : Int) : ℚ) = 5 / 12 ∧
      (5 / 12 : ℚ) < roundingThreshold ∧
      calculateVariance roundingImage 0 0 2 2 ⟨0, 0, 0⟩ = .ok roundingThreshold ∧
      denoisingVisits roundingImage 0 0 2 2 roundingThreshold =
        .ok [.split ⟨0, 0, 2, 2⟩, .leaf ⟨0, 0, 1, 1⟩, .leaf ⟨1, 0, 1, 1⟩, .leaf ⟨0, 1, 1, 1⟩,
          .leaf ⟨1, 1, 1, 1⟩] ∧
      denoisingSequential roundingImage 0 0 2 2 roundingThreshold = .ok roundingImage ∧
      roundingImage.load (0 * roundingImage.width + 0) = .ok ⟨1, 1, 1⟩ := by
  have hb : InBounds roundingImage 0 0 2 2 := by decide
  have havg : calculateAverage roundingImage 0 0 2 2 = .ok ⟨0, 0, 0⟩ := by decide
  have hsum : regionSum roundingImage 0 0 2 2 (sqDev ⟨0, 0, 0⟩) = 5 := by
    rw [← regionFold_eq_regionSum]
    decide
  have hp : plan 3 roundingImage ⟨0, 0, 2, 2⟩ roundingThreshold =
      [.split ⟨0, 0, 2, 2⟩, .leaf ⟨0, 0, 1, 1⟩, .leaf ⟨1, 0, 1, 1⟩, .leaf ⟨0, 1, 1, 1⟩,
        .leaf ⟨1, 1, 1, 1⟩] := by
    have hkids : (childRegions 0 0 2 2).flatMap (fun c => plan 2 roundingImage c
        roundingThreshold) =
        [.leaf ⟨0, 0, 1, 1⟩, .leaf ⟨1, 0, 1, 1⟩, .leaf ⟨0, 1, 1, 1⟩, .leaf ⟨1, 1, 1, 1⟩] := by
      decide
    rw [plan]
    simp only
    rw [if_neg (by decide), havg]
    simp only
    rw [roundingImage_variance]
    simp only
    rw [if_neg (lt_irrefl _), hkids]
  obtain ⟨himg, hvis, _⟩ := denoisingSequential_eq_plan roundingThreshold hb
  refine ⟨hb, roundingThreshold_isDouble, havg, ?_, ?_, roundingImage_variance, ?_, ?_, by decide⟩
  · rw [hsum]
    norm_num
  · unfold roundingThreshold
    norm_num
  · rw [hvis]
    exact congrArg Except.ok hp
  · rw [himg]
    show Except.ok (applyVisits (plan 3 roundingImage ⟨0, 0, 2, 2⟩ roundingThreshold)
      roundingImage) = _
    rw [hp]
    rfl


/-- C5, at the failing input.  The 26755 x 26755 image `hugeImage` has 715830025 pixels, a
count in the range of `int`; the sum of the squared deviations from `(0, 0, 0)` is 195075.
The claim gives the variance `195075 / (26755 * 26755 * 3)`, which is positive.  In the
code the divisor is the `int` product `count * 3`, which leaves the range of `int` and is
`-2147477221` in 32 bits: `calculateVariance` returns the rounding of
`195075 / (-2147477221)`, a negative number. -/
theorem calculateVariance_overflow :
    InBounds hugeImage 0 0 26755 26755 ∧
      regionSum hugeImage 0 0 26755 26755 (sqDev (grey 0)) = 195075 ∧
      (26755 : Int) * 26755 < 2 ^ 31 ∧ (2 : Int) ^ 31 ≤ 26755 * 26755 * 3 ∧
      wrapInt (26755 * 26755 * 3) = -2147477221 ∧
      calculateVariance hugeImage 0 0 26755 26755 (grey 0) =
        .ok (roundDouble ((195075 : ℚ) / (-2147477221 : ℚ))) ∧
      roundDouble ((195075 : ℚ) / (-2147477221 : ℚ)) < 0 ∧
      calculateVariance hugeImage 0 0 26755 26755 (grey 0) ≠
        .ok (((regionSum hugeImage 0 0 26755 26755 (sqDev (grey 0)) : Int) : ℚ) /
          (((26755 : Int) * 26755 * 3 : Int) : ℚ)) := by
  have hsum : regionSum hugeImage 0 0 26755 26755 (sqDev (grey 0)) = 195075 := by
    rw [hugeImage_regionSum _ (by decide)]
    decide
  have hneg : roundDouble ((195075 : ℚ) / (-2147477221 : ℚ)) < 0 :=
    lt_of_le_of_lt hugeImage_variance_le (by norm_num)
  refine ⟨hugeImage_inBounds, hsum, by norm_num, by norm_num, by decide, hugeImage_variance,
    hneg, ?_⟩
  rw [hugeImage_variance, hsum]
  intro h
  have h' := Except.ok.inj h
  rw [h'] at hneg
  norm_num at hneg

/-- C10, at the failing input.  On the 26755 x 26755 image `hugeImage` and with the negative
threshold `-1 / 131072` (a `double`), the variance that `calculateVariance` returns for the
whole image is below the threshold, because the `int` product `count * 3` has left the
range of `int` and is negative; `denoisingSequential` makes one call, which fills the
whole image with `(0, 0, 0)`, and the pixel of row 0, column 0, which was
`(255, 255, 255)`, is changed: the image returned is not the input image. -/
theorem negative_threshold_overflow :
    InBounds hugeImage 0 0 26755 26755 ∧ (-(1 / 131072) : ℚ) < 0 ∧
      IsDouble (-(1 / 131072)) ∧
      (∃ v, calculateVariance hugeImage 0 0 26755 26755 (grey 0) = .ok v ∧
        v < -(1 / 131072)) ∧
      denoisingVisits hugeImage 0 0 26755 26755 (-(1 / 131072)) =
        .ok [.fill ⟨0, 0, 26755, 26755⟩ (grey 0)] ∧
      ∃ out, denoisingSequential hugeImage 0 0 26755 26755 (-(1 / 131072)) = .ok out ∧
        out.load 0 = .ok (grey 0) ∧ hugeImage.load 0 = .ok (grey 255) ∧ out ≠ hugeImage := by
  have hd : IsDouble (-(1 / 131072) : ℚ) := by
    have h := @isDouble_dyadic (-1) 17 (by norm_num) (by norm_num)
    norm_num at h ⊢
    exact h
  have hlt : (-(1 / 16384) : ℚ) < -(1 / 131072) := by norm_num
  obtain ⟨hrun, hvis⟩ := hugeImage_run hlt
  have hin := (@fillImage_spec hugeImage ⟨0, 0, 26755, 26755⟩ hugeImage_inBounds (grey 0)).2.1
    0 0 (by decide)
  rw [zero_mul, zero_add] at hin
  have hold : hugeImage.load 0 = .ok (grey 255) := hugeImage_load (le_refl 0) (by norm_num)
  refine ⟨hugeImage_inBounds, by norm_num, hd,
    ⟨_, hugeImage_variance, lt_of_le_of_lt hugeImage_variance_le hlt⟩, hvis, _, hrun, hin, hold,
    ?_⟩
  intro heq
  rw [heq, hold] at hin
  exact absurd (Except.ok.inj hin) (by decide)

/-- C14, at the failing input.  On the 26755 x 26755 image `hugeImage` and with the positive
threshold `1 / 131072` (a `double`), `denoisingSequential` fills the whole image with
`(0, 0, 0)`, because the `int` product `count * 3` has left the range of `int` and makes
the variance negative; the squared error of the run is `195075`, which is not below
`threshold * width * height * 3` (about `16384.1`). -/
theorem error_bound_overflow :
    InBounds hugeImage 0 0 26755 26755 ∧ (0 : ℚ) < 1 / 131072 ∧ IsDouble (1 / 131072) ∧
      ∃ out, denoisingSequential hugeImage 0 0 26755 26755 (1 / 131072) = .ok out ∧
        regionError hugeImage out 0 0 26755 26755 = 195075 ∧
        ¬ (((regionError hugeImage out 0 0 26755 26755 : Int) : ℚ) <
          1 / 131072 * ((26755 : Int) : ℚ) * ((26755 : Int) : ℚ) * 3) := by
  have hd : IsDouble (1 / 131072 : ℚ) := by
    have h := @isDouble_dyadic 1 17 (by norm_num) (by norm_num)
    norm_num at h ⊢
    exact h
  obtain ⟨hrun, _⟩ := @hugeImage_run (1 / 131072) (by norm_num)
  have herr : regionError hugeImage (fillImage hugeImage ⟨0, 0, 26755, 26755⟩ (grey 0)) 0 0
      26755 26755 = 195075 := by
    rw [regionError_fill hugeImage_inBounds, hugeImage_regionSum _ (by decide)]
    decide
  refine ⟨hugeImage_inBounds, by norm_num, hd, _, hrun, herr, ?_⟩
  rw [herr]
  norm_num


end Denoising
